import Mathlib

/-!
# Order matching engine (`src/api/orderbook/orderbook_bindings.cpp`)

A shallow embedding of the C++ classes `Order`, `Trade` and `Orderbook`.

Modelling decisions.

* `std::uint32_t` values (`Price`, `Quantity`, `OrderId`) are natural numbers; the two places
  where the source can wrap (`next_order_id_++` and the `std::accumulate` of `GetOrderInfos`)
  reduce modulo `2^32` explicitly.  `Order::Fill` and `std::min` never wrap.
* `std::map<Price, OrderPointers, Cmp>` is an association list kept in iteration order:
  `bids_` uses `std::greater`, `asks_` uses `std::less`.  `begin()` is the head of the list.
* `std::list<OrderPointer>` is a list of `Order` values; the order object lives in its queue
  node, so a `Fill` through `front()` rewrites the head of the queue.
* `std::unordered_map<OrderId, OrderEntry>` is an association list without duplicate keys.
  An `OrderEntry` records what `CancelOrder` reads through `order_` (the immutable `side_` and
  `price_`); the list iterator `location_` designates the queue node holding the order with the
  key of the entry, so erasing through the handle erases the node carrying that identifier.
* A C++ exception (`std::logic_error` of `Fill`, `std::out_of_range` of `map::at`) is a value of
  `Error`; erasing through a handle that designates no node is reported as `bad_iterator`.
* `MatchOrders` reads `bid->GetOrderId()` and `ask->GetPrice()` through `bid` and `ask` after a
  possible `pop_front`, and `CancelOrder` reads `order` and `orderIterator` after
  `orders_.erase(orderId)`.  These fields never change, and the model reads them from the order
  and the entry that the references designated; the memory safety of those reads is outside the
  model.
* The loops of `MatchOrders` recurse on a fuel counter that the caller sets from the sizes of
  the containers; running out of fuel is the distinct error `out_of_fuel`.
-/

namespace OB

/-- Number of values of a `std::uint32_t`. -/
def UINT32_MOD : Nat := 4294967296

inductive OrderType where
  | GoodTillCancel
  | FillAndKill
deriving DecidableEq

inductive Side where
  | Buy
  | Sell
deriving DecidableEq

inductive Token where
  | YES
  | NO
deriving DecidableEq

inductive Error where
  | logic_error
  | out_of_range
  | bad_iterator
  | out_of_fuel
deriving DecidableEq

structure LevelInfo where
  price_ : Nat
  quantity_ : Nat
deriving DecidableEq

structure OrderbookLevelInfos where
  bids_ : List LevelInfo
  asks_ : List LevelInfo
deriving DecidableEq

structure Order where
  orderType_ : OrderType
  orderId_ : Nat
  side_ : Side
  price_ : Nat
  initialQuantity_ : Nat
  remainingQuantity_ : Nat
  user_id_ : String
  token_ : Token
deriving DecidableEq

/-- Constructor with a token: the remaining quantity starts at the initial quantity. -/
def Order.new (orderType : OrderType) (orderId : Nat) (side : Side) (price quantity : Nat)
    (user_id : String) (token : Token) : Order :=
  { orderType_ := orderType, orderId_ := orderId, side_ := side, price_ := price,
    initialQuantity_ := quantity, remainingQuantity_ := quantity, user_id_ := user_id,
    token_ := token }

/-- Constructor without a token: the token is `YES`. -/
def Order.newDefault (orderType : OrderType) (orderId : Nat) (side : Side) (price quantity : Nat)
    (user_id : String) : Order :=
  Order.new orderType orderId side price quantity user_id Token.YES

def Order.IsFilled (o : Order) : Bool := o.remainingQuantity_ == 0

/-- `Order::Fill`: throws when the quantity exceeds the remaining quantity. -/
def Order.Fill (o : Order) (quantity : Nat) : Except Error Order :=
  if quantity > o.remainingQuantity_ then .error Error.logic_error
  else .ok { o with remainingQuantity_ := o.remainingQuantity_ - quantity }

structure TradeInfo where
  orderId_ : Nat
  price_ : Nat
  quantity_ : Nat
deriving DecidableEq

structure Trade where
  bidTrade_ : TradeInfo
  askTrade_ : TradeInfo
deriving DecidableEq

abbrev Trades := List Trade

abbrev OrderPointers := List Order

/-- One node of a price map: the price and the FIFO queue resting there. -/
abbrev Level := Nat × OrderPointers

abbrev Levels := List Level

/-- What `CancelOrder` reads through an index entry. -/
structure OrderEntry where
  side_ : Side
  price_ : Nat
deriving DecidableEq

abbrev OrderIndex := List (Nat × OrderEntry)

/-! ## The containers -/

/-- `orders_.find(id)`. -/
def indexFind : OrderIndex → Nat → Option OrderEntry
  | [], _ => none
  | (k, e) :: rest, id => if k = id then some e else indexFind rest id

/-- `orders_.erase(id)`. -/
def indexErase : OrderIndex → Nat → OrderIndex
  | [], _ => []
  | (k, e) :: rest, id => if k = id then indexErase rest id else (k, e) :: indexErase rest id

/-- `orders_.insert({id, entry})`: nothing happens when the key is present. -/
def indexInsert (idx : OrderIndex) (id : Nat) (e : OrderEntry) : OrderIndex :=
  match indexFind idx id with
  | some _ => idx
  | none => (id, e) :: idx

/-- `map[price].push_back(order)` for a map whose comparator is `comp`: the level is created
in its sorted position when it is absent. -/
def levelsPushBack (comp : Nat → Nat → Bool) (order : Order) : Levels → Levels
  | [] => [(order.price_, [order])]
  | (p, q) :: rest =>
      if p = order.price_ then (p, q ++ [order]) :: rest
      else if comp order.price_ p then (order.price_, [order]) :: (p, q) :: rest
      else (p, q) :: levelsPushBack comp order rest

/-- `map.at(price)`. -/
def levelsAt : Levels → Nat → Option OrderPointers
  | [], _ => none
  | (p, q) :: rest, price => if p = price then some q else levelsAt rest price

/-- Writing through the reference returned by `map.at(price)`. -/
def levelsSet : Levels → Nat → OrderPointers → Levels
  | [], _, _ => []
  | (p, q) :: rest, price, q2 =>
      if p = price then (p, q2) :: rest else (p, q) :: levelsSet rest price q2

/-- `map.erase(price)`. -/
def levelsErase : Levels → Nat → Levels
  | [], _ => []
  | (p, q) :: rest, price => if p = price then rest else (p, q) :: levelsErase rest price

/-- `orderList.erase(location_)`: the node of the order with this identifier is unlinked. -/
def queueErase : OrderPointers → Nat → Option OrderPointers
  | [], _ => none
  | o :: rest, id =>
      if o.orderId_ = id then some rest
      else match queueErase rest id with
        | some rest2 => some (o :: rest2)
        | none => none

/-! ## The book -/

structure Orderbook where
  bids_ : Levels
  asks_ : Levels
  orders_ : OrderIndex
  next_order_id_ : Nat
deriving DecidableEq

namespace Orderbook

/-- A freshly constructed book. -/
def empty : Orderbook :=
  { bids_ := [], asks_ := [], orders_ := [], next_order_id_ := 1 }

/-- Comparator of `bids_`. -/
def greater (x y : Nat) : Bool := decide (x > y)

/-- Comparator of `asks_`. -/
def less (x y : Nat) : Bool := decide (x < y)

def CanMatch (b : Orderbook) (side : Side) (price : Nat) : Bool :=
  match side with
  | Side.Buy =>
      match b.asks_ with
      | [] => false
      | (bestAsk, _) :: _ => decide (price ≥ bestAsk)
  | Side.Sell =>
      match b.bids_ with
      | [] => false
      | (bestBid, _) :: _ => decide (price ≤ bestBid)

/-- Inner loop of `MatchOrders` (source lines 197-218) over the two head queues. -/
def matchLevel : Nat → OrderPointers → OrderPointers → OrderIndex → Trades →
    Except Error (OrderPointers × OrderPointers × OrderIndex × Trades)
  | _, [], askOrders, orders, trades => .ok ([], askOrders, orders, trades)
  | _, bidOrders, [], orders, trades => .ok (bidOrders, [], orders, trades)
  | 0, _ :: _, _ :: _, _, _ => .error Error.out_of_fuel
  | fuel + 1, bid :: bidRest, ask :: askRest, orders, trades =>
      let quantity := min bid.remainingQuantity_ ask.remainingQuantity_
      match bid.Fill quantity with
      | .error e => .error e
      | .ok bid2 =>
        match ask.Fill quantity with
        | .error e => .error e
        | .ok ask2 =>
          let bidOrders := if bid2.IsFilled then bidRest else bid2 :: bidRest
          let orders1 := if bid2.IsFilled then indexErase orders bid2.orderId_ else orders
          let askOrders := if ask2.IsFilled then askRest else ask2 :: askRest
          let orders2 := if ask2.IsFilled then indexErase orders1 ask2.orderId_ else orders1
          matchLevel fuel bidOrders askOrders orders2
            (trades ++ [{ bidTrade_ := ⟨bid2.orderId_, ask2.price_, quantity⟩,
                          askTrade_ := ⟨ask2.orderId_, ask2.price_, quantity⟩ }])

/-- Outer loop of `MatchOrders` (source lines 187-224). -/
def matchLoop : Nat → Orderbook → Trades → Except Error (Orderbook × Trades)
  | fuel, b, trades =>
    match b.bids_, b.asks_ with
    | [], _ => .ok (b, trades)
    | _ :: _, [] => .ok (b, trades)
    | (bidPrice, bidOrders) :: bidsRest, (askPrice, askOrders) :: asksRest =>
      if bidPrice < askPrice then .ok (b, trades)
      else
        match fuel with
        | 0 => .error Error.out_of_fuel
        | fuel2 + 1 =>
          match matchLevel (bidOrders.length + askOrders.length) bidOrders askOrders
              b.orders_ trades with
          | .error e => .error e
          | .ok (bidOrders2, askOrders2, orders2, trades2) =>
            let bids1 : Levels := (bidPrice, bidOrders2) :: bidsRest
            let asks1 : Levels := (askPrice, askOrders2) :: asksRest
            let bids2 := if bidOrders2.isEmpty then levelsErase bids1 bidPrice else bids1
            let asks2 := if askOrders2.isEmpty then levelsErase asks1 askPrice else asks1
            matchLoop fuel2 { b with bids_ := bids2, asks_ := asks2, orders_ := orders2 } trades2

def MatchOrders (b : Orderbook) : Except Error (Orderbook × Trades) :=
  matchLoop (b.bids_.length + b.asks_.length) b []

def AddOrderInternal (b : Orderbook) (order : Order) : Except Error (Orderbook × Trades) :=
  if (indexFind b.orders_ order.orderId_).isSome then .ok (b, [])
  else if order.orderType_ = OrderType.FillAndKill ∧ CanMatch b order.side_ order.price_ = false
  then .ok (b, [])
  else
    let b1 : Orderbook :=
      if order.side_ = Side.Buy then { b with bids_ := levelsPushBack greater order b.bids_ }
      else { b with asks_ := levelsPushBack less order b.asks_ }
    MatchOrders
      { b1 with orders_ := indexInsert b1.orders_ order.orderId_ ⟨order.side_, order.price_⟩ }

/-- `AddOrder` with a token. -/
def AddOrder (b : Orderbook) (orderType : OrderType) (side : Side) (price quantity : Nat)
    (user_id : String) (token : Token) : Except Error (Orderbook × Trades) :=
  AddOrderInternal { b with next_order_id_ := (b.next_order_id_ + 1) % UINT32_MOD }
    (Order.new orderType b.next_order_id_ side price quantity user_id token)

/-- `AddOrder` without a token. -/
def AddOrderDefault (b : Orderbook) (orderType : OrderType) (side : Side) (price quantity : Nat)
    (user_id : String) : Except Error (Orderbook × Trades) :=
  AddOrderInternal { b with next_order_id_ := (b.next_order_id_ + 1) % UINT32_MOD }
    (Order.newDefault orderType b.next_order_id_ side price quantity user_id)

/-- The body of one branch of `CancelOrder` on the price map of the order's side. -/
def cancelInLevels (levels : Levels) (price orderId : Nat) : Except Error Levels :=
  match levelsAt levels price with
  | none => .error Error.out_of_range
  | some orderList =>
    match queueErase orderList orderId with
    | none => .error Error.bad_iterator
    | some orderList2 =>
      if orderList2.isEmpty then .ok (levelsErase levels price)
      else .ok (levelsSet levels price orderList2)

def CancelOrder (b : Orderbook) (orderId : Nat) : Except Error Orderbook :=
  match indexFind b.orders_ orderId with
  | none => .ok b
  | some entry =>
    let orders := indexErase b.orders_ orderId
    if entry.side_ = Side.Sell then
      match cancelInLevels b.asks_ entry.price_ orderId with
      | .error e => .error e
      | .ok asks => .ok { b with orders_ := orders, asks_ := asks }
    else
      match cancelInLevels b.bids_ entry.price_ orderId with
      | .error e => .error e
      | .ok bids => .ok { b with orders_ := orders, bids_ := bids }

def Size (b : Orderbook) : Nat := b.orders_.length

/-- The `std::accumulate` of `GetOrderInfos`, in `uint32` arithmetic. -/
def levelQuantity (orders : OrderPointers) : Nat :=
  orders.foldl (fun runningSum order => (runningSum + order.remainingQuantity_) % UINT32_MOD) 0

def CreateLevelInfos (level : Level) : LevelInfo :=
  { price_ := level.1, quantity_ := levelQuantity level.2 }

def GetOrderInfos (b : Orderbook) : OrderbookLevelInfos :=
  { bids_ := b.bids_.map CreateLevelInfos, asks_ := b.asks_.map CreateLevelInfos }

end Orderbook

/-! ## Auxiliary notions used to state and prove the properties -/

/-- Prices of the levels of one side, in iteration order. -/
def levelKeys (levels : Levels) : List Nat := levels.map Prod.fst

/-- The orders of one side in matching order: level by level, each queue front to back. -/
def flat : Levels → List Order
  | [] => []
  | (_, q) :: rest => q ++ flat rest

/-- Identifiers of a list of orders. -/
def ids (os : List Order) : List Nat := os.map Order.orderId_

/-- Sum of the remaining quantities of a list of orders, as a natural number. -/
def totalRemaining (os : List Order) : Nat := (os.map Order.remainingQuantity_).sum

/-- An order after `q` units were taken from its remaining quantity. -/
def fillBy (o : Order) (q : Nat) : Order :=
  { o with remainingQuantity_ := o.remainingQuantity_ - q }

/-- A queue after its head `o` was filled by `q`: the head is popped when it is filled. -/
def residue (o : Order) (q : Nat) (rest : List Order) : List Order :=
  if (fillBy o q).IsFilled then rest else fillBy o q :: rest

/-- The index after the head `o` was filled by `q`: its key is erased when it is filled. -/
def dropFilled (o : Order) (q : Nat) (idx : OrderIndex) : OrderIndex :=
  if (fillBy o q).IsFilled then indexErase idx o.orderId_ else idx

/-- One pairing of two head orders (as they were before the fill) and the quantity exchanged. -/
structure Pairing where
  first : Order
  second : Order
  quantity : Nat

/-- Outcome of a sweep: what is left of both sequences, the index, and the pairings made. -/
structure Swept where
  xs : List Order
  ys : List Order
  idx : OrderIndex
  events : List Pairing

/-- Matching of two sequences of orders, head against head, for as long as the head prices
satisfy `cross`.  With `xs` the flattened bids and `ys` the flattened asks this is what the two
nested loops of `MatchOrders` compute (theorem `matchLoop_sweep`). -/
def sweep (cross : Nat → Nat → Bool) (xs ys : List Order) (idx : OrderIndex) : Swept :=
  match xs, ys with
  | x :: xt, y :: yt =>
    if cross x.price_ y.price_ then
      let q := min x.remainingQuantity_ y.remainingQuantity_
      let r := sweep cross (residue x q xt) (residue y q yt) (dropFilled y q (dropFilled x q idx))
      { r with events := ⟨x, y, q⟩ :: r.events }
    else ⟨xs, ys, idx, []⟩
  | _, _ => ⟨xs, ys, idx, []⟩
termination_by xs.length + ys.length
decreasing_by
  simp only [residue, Order.IsFilled, fillBy, List.length_cons]
  split <;> split <;> simp_all <;> omega

/-- The trade `MatchOrders` records for a pairing of a bid (first) with an ask (second). -/
def Pairing.toTrade (e : Pairing) : Trade :=
  { bidTrade_ := ⟨e.first.orderId_, e.second.price_, e.quantity⟩,
    askTrade_ := ⟨e.second.orderId_, e.second.price_, e.quantity⟩ }

/-- The same pairing seen from the other side. -/
def Pairing.swap (e : Pairing) : Pairing := ⟨e.second, e.first, e.quantity⟩

/-- The test of the inner loop: it looks at no price. -/
def anyPrice (_ _ : Nat) : Bool := true

/-- The test of the outer loop on a bid price and an ask price: not `bidPrice < askPrice`. -/
def crossing (bidPrice askPrice : Nat) : Bool := !decide (bidPrice < askPrice)

/-- The bids after the insertion step of `AddOrderInternal` for the order `o`. -/
def bidsWith (b : Orderbook) (o : Order) : Levels :=
  if o.side_ = Side.Buy then levelsPushBack Orderbook.greater o b.bids_ else b.bids_

/-- The asks after the insertion step of `AddOrderInternal` for the order `o`. -/
def asksWith (b : Orderbook) (o : Order) : Levels :=
  if o.side_ = Side.Buy then b.asks_ else levelsPushBack Orderbook.less o b.asks_

/-- The sweep that `MatchOrders` performs after the insertion of `o`. -/
def sweepOf (b : Orderbook) (o : Order) : Swept :=
  sweep crossing (flat (bidsWith b o)) (flat (asksWith b o))
    (indexInsert b.orders_ o.orderId_ ⟨o.side_, o.price_⟩)

/-- Quantity exchanged in the pairings whose first order has the identifier `id`. -/
def firstQuantity (id : Nat) (events : List Pairing) : Nat :=
  ((events.filter (fun e => decide (e.first.orderId_ = id))).map Pairing.quantity).sum

/-- Quantity exchanged in the pairings whose second order has the identifier `id`. -/
def secondQuantity (id : Nat) (events : List Pairing) : Nat :=
  ((events.filter (fun e => decide (e.second.orderId_ = id))).map Pairing.quantity).sum

/-- A pairing names an identifier when one of its two orders carries it. -/
def Pairing.names (e : Pairing) (id : Nat) : Prop :=
  e.first.orderId_ = id ∨ e.second.orderId_ = id

instance (e : Pairing) (id : Nat) : Decidable (e.names id) := by
  unfold Pairing.names; exact inferInstance

/-- Quantity exchanged in the pairings that name the identifier `id`. -/
def namedQuantity (id : Nat) (events : List Pairing) : Nat :=
  ((events.filter (fun e => decide (e.names id))).map Pairing.quantity).sum

/-- The index and the resting orders describe each other. -/
structure Indexed (os : List Order) (idx : OrderIndex) : Prop where
  ids_nodup : (ids os).Nodup
  keys_nodup : (idx.map Prod.fst).Nodup
  key_rests : ∀ kv ∈ idx, kv.1 ∈ ids os
  entry_of : ∀ o ∈ os, indexFind idx o.orderId_ = some ⟨o.side_, o.price_⟩

/-- Every level holds a non-empty queue of orders of the given side at the price of the level. -/
def LevelsOk (side : Side) (levels : Levels) : Prop :=
  ∀ lv ∈ levels, lv.2 ≠ [] ∧ ∀ o ∈ lv.2, o.side_ = side ∧ o.price_ = lv.1

/-- The book is not crossed: a side is empty, or the best bid is below the best ask. -/
def Uncrossed (b : Orderbook) : Prop :=
  match b.bids_, b.asks_ with
  | (bidPrice, _) :: _, (askPrice, _) :: _ => bidPrice < askPrice
  | _, _ => True

/-- Structural invariant of the book. -/
structure Inv (b : Orderbook) : Prop where
  bids_sorted : (levelKeys b.bids_).Pairwise (fun x y => x > y)
  asks_sorted : (levelKeys b.asks_).Pairwise (fun x y => x < y)
  bids_ok : LevelsOk Side.Buy b.bids_
  asks_ok : LevelsOk Side.Sell b.asks_
  uncrossed : Uncrossed b
  indexed : Indexed (flat b.bids_ ++ flat b.asks_) b.orders_

/-- Book states reachable from the empty book by calls of `AddOrder` and `CancelOrder` with
`uint32` arguments that return normally. -/
inductive Reachable : Orderbook → Prop where
  | empty : Reachable Orderbook.empty
  | add (b b2 : Orderbook) (orderType : OrderType) (side : Side) (price quantity : Nat)
      (user_id : String) (token : Token) (trades : Trades) :
      Reachable b → price < UINT32_MOD → quantity < UINT32_MOD →
      Orderbook.AddOrder b orderType side price quantity user_id token = .ok (b2, trades) →
      Reachable b2
  | cancel (b b2 : Orderbook) (orderId : Nat) :
      Reachable b → orderId < UINT32_MOD →
      Orderbook.CancelOrder b orderId = .ok b2 →
      Reachable b2

/-! ## Observations used in the statements -/

/-- A trade names an identifier when one of its two fill records carries it. -/
def Trade.names (t : Trade) (id : Nat) : Prop :=
  t.bidTrade_.orderId_ = id ∨ t.askTrade_.orderId_ = id

instance (t : Trade) (id : Nat) : Decidable (t.names id) := by
  unfold Trade.names; exact inferInstance

/-- Sum of the quantities of a sequence of trades. -/
def tradedQuantity (ts : Trades) : Nat := (ts.map (fun t => t.bidTrade_.quantity_)).sum

/-- Sum of the quantities of the trades that name an identifier. -/
def filledQuantity (id : Nat) (ts : Trades) : Nat :=
  tradedQuantity (ts.filter (fun t => decide (t.names id)))

/-- Total remaining quantity resting on a side. -/
def sideTotal (levels : Levels) : Nat := totalRemaining (flat levels)

/-- Both guards of `AddOrderInternal` let a new order of this type, side and price through:
the next identifier is not in the index, and the order is not a `FillAndKill` that cannot match. -/
def Orderbook.Accepts (b : Orderbook) (orderType : OrderType) (side : Side) (price : Nat) : Prop :=
  indexFind b.orders_ b.next_order_id_ = none ∧
    ¬ (orderType = OrderType.FillAndKill ∧ Orderbook.CanMatch b side price = false)

instance (b : Orderbook) (orderType : OrderType) (side : Side) (price : Nat) :
    Decidable (b.Accepts orderType side price) := by
  unfold Orderbook.Accepts; exact inferInstance

/-- The resting orders that the index knows, of a given side and price. -/
def Orderbook.indexedOrders (b : Orderbook) (side : Side) (price : Nat) : List Order :=
  (flat b.bids_ ++ flat b.asks_).filter (fun o =>
    (indexFind b.orders_ o.orderId_).isSome && decide (o.side_ = side) && decide (o.price_ = price))

/-- The book after `AddOrder(GoodTillCancel, Buy, 10, 5, "A")` on the empty book. -/
def bookOneBid : Orderbook :=
  { bids_ := [(10, [Order.new OrderType.GoodTillCancel 1 Side.Buy 10 5 "A" Token.YES])],
    asks_ := [],
    orders_ := [(1, ⟨Side.Buy, 10⟩)],
    next_order_id_ := 2 }

/-- The book after `AddOrder(GoodTillCancel, Sell, 10, 3, "A")` on the empty book. -/
def bookOneAsk : Orderbook :=
  { bids_ := [],
    asks_ := [(10, [Order.new OrderType.GoodTillCancel 1 Side.Sell 10 3 "A" Token.YES])],
    orders_ := [(1, ⟨Side.Sell, 10⟩)],
    next_order_id_ := 2 }

/-- The book after two `GoodTillCancel` buys at price 10, of quantity 2 and then 3. -/
def bookTwoBids : Orderbook :=
  { bids_ := [(10, [Order.new OrderType.GoodTillCancel 1 Side.Buy 10 2 "A" Token.YES,
                    Order.new OrderType.GoodTillCancel 2 Side.Buy 10 3 "B" Token.YES])],
    asks_ := [],
    orders_ := [(2, ⟨Side.Buy, 10⟩), (1, ⟨Side.Buy, 10⟩)],
    next_order_id_ := 3 }

/-- The book after a `GoodTillCancel` buy at 10 for 2 and a `GoodTillCancel` buy at 11 for 3. -/
def bookBidLadder : Orderbook :=
  { bids_ := [(11, [Order.new OrderType.GoodTillCancel 2 Side.Buy 11 3 "B" Token.YES]),
              (10, [Order.new OrderType.GoodTillCancel 1 Side.Buy 10 2 "A" Token.YES])],
    asks_ := [],
    orders_ := [(2, ⟨Side.Buy, 11⟩), (1, ⟨Side.Buy, 10⟩)],
    next_order_id_ := 3 }

/-- The book after two `GoodTillCancel` buys at price 10, of quantity `2^32 - 1` and then 1. -/
def bookWideBids : Orderbook :=
  { bids_ := [(10, [Order.new OrderType.GoodTillCancel 1 Side.Buy 10 4294967295 "A" Token.YES,
                    Order.new OrderType.GoodTillCancel 2 Side.Buy 10 1 "B" Token.YES])],
    asks_ := [],
    orders_ := [(2, ⟨Side.Buy, 10⟩), (1, ⟨Side.Buy, 10⟩)],
    next_order_id_ := 3 }

/-- The order object after a call of `Fill`: the exception is thrown before the assignment, so a
call that throws leaves the object as it was. -/
def Order.afterFill (o : Order) (quantity : Nat) : Order :=
  match o.Fill quantity with
  | .ok o2 => o2
  | .error _ => o

/-- The price map of a side. -/
def Orderbook.sideLevels (b : Orderbook) (side : Side) : Levels :=
  match side with
  | Side.Buy => b.bids_
  | Side.Sell => b.asks_

/-- What holds of the quantities of every resting order: the remaining quantity is at most the
initial one, and it is zero only for an order submitted with quantity zero. -/
def OrderOk (o : Order) : Prop :=
  o.remainingQuantity_ ≤ o.initialQuantity_ ∧
    (0 < o.initialQuantity_ → 0 < o.remainingQuantity_)

/-- The book after `AddOrder(GoodTillCancel, Buy, 10, 0, "A")` on the empty book. -/
def bookZeroBid : Orderbook :=
  { bids_ := [(10, [Order.new OrderType.GoodTillCancel 1 Side.Buy 10 0 "A" Token.YES])],
    asks_ := [],
    orders_ := [(1, ⟨Side.Buy, 10⟩)],
    next_order_id_ := 2 }

/-- Book states reached from the empty book by a run of calls that contains exactly `n` calls of
`AddOrder` (and any number of calls of `CancelOrder`), all returning normally. -/
inductive Trace : Nat → Orderbook → Prop where
  | empty : Trace 0 Orderbook.empty
  | add (n : Nat) (b b2 : Orderbook) (orderType : OrderType) (side : Side)
      (price quantity : Nat) (user_id : String) (token : Token) (trades : Trades) :
      Trace n b → price < UINT32_MOD → quantity < UINT32_MOD →
      Orderbook.AddOrder b orderType side price quantity user_id token = .ok (b2, trades) →
      Trace (n + 1) b2
  | cancel (n : Nat) (b b2 : Orderbook) (orderId : Nat) :
      Trace n b → orderId < UINT32_MOD →
      Orderbook.CancelOrder b orderId = .ok b2 →
      Trace n b2

/-- The book `b` with its identifier counter at `k`. -/
def Orderbook.withCounter (b : Orderbook) (k : Nat) : Orderbook :=
  { b with next_order_id_ := k }

/-- The order with its owner and its tag blanked; every other field is kept. -/
def Order.anonymous (o : Order) : Order := { o with user_id_ := "", token_ := Token.YES }

/-- The levels of one side with every resting order blanked. -/
def anonLevels (levels : Levels) : Levels :=
  levels.map (fun l => (l.1, l.2.map Order.anonymous))

/-- The book with every resting order blanked. -/
def Orderbook.anonymous (b : Orderbook) : Orderbook :=
  { b with bids_ := anonLevels b.bids_, asks_ := anonLevels b.asks_ }

/-- One call of the bound interface: `add_order` with a token (`some`) or without one (`none`),
or `cancel_order`. -/
inductive Call where
  | submit (orderType : OrderType) (side : Side) (price quantity : Nat) (user_id : String)
      (token : Option Token)
  | cancel (orderId : Nat)
deriving DecidableEq

/-- The call with its owner blanked and its tag replaced by `YES`. -/
def Call.anonymous : Call → Call
  | .submit orderType side price quantity _ _ =>
      .submit orderType side price quantity "" (some Token.YES)
  | .cancel orderId => .cancel orderId

/-- Two calls that differ at most in the owner and the tag passed to `add_order`. -/
def Call.sameRequest : Call → Call → Prop
  | .submit t1 s1 p1 q1 _ _, .submit t2 s2 p2 q2 _ _ => t1 = t2 ∧ s1 = s2 ∧ p1 = p2 ∧ q1 = q2
  | .cancel i, .cancel j => i = j
  | _, _ => False

/-- The effect of one call on the book, with the trades it returns (`cancel_order` returns
nothing). -/
def Orderbook.call (b : Orderbook) : Call → Except Error (Orderbook × Trades)
  | .submit orderType side price quantity user_id (some token) =>
      Orderbook.AddOrder b orderType side price quantity user_id token
  | .submit orderType side price quantity user_id none =>
      Orderbook.AddOrderDefault b orderType side price quantity user_id
  | .cancel orderId =>
      match Orderbook.CancelOrder b orderId with
      | .error e => .error e
      | .ok b2 => .ok (b2, [])

/-- What a caller sees after one call: the trades returned, then `Size` and `GetOrderInfos`. -/
structure Observation where
  trades : Trades
  size : Nat
  depth : OrderbookLevelInfos
deriving DecidableEq

/-- A sequence of calls on one book, with the observation made after each call. -/
def Orderbook.run : Orderbook → List Call → Except Error (List Observation)
  | _, [] => .ok []
  | b, c :: cs =>
      match b.call c with
      | .error e => .error e
      | .ok (b2, trades) =>
        match Orderbook.run b2 cs with
        | .error e => .error e
        | .ok rest => .ok (⟨trades, Orderbook.Size b2, Orderbook.GetOrderInfos b2⟩ :: rest)

/-! ## The matching loops as a sweep -/

open Orderbook

/-! ### Unfolding the sweep -/

theorem sweep_nil_left (cross : Nat → Nat → Bool) (ys : List Order) (idx : OrderIndex) :
    sweep cross [] ys idx = ⟨[], ys, idx, []⟩ := by
  unfold sweep; simp

theorem sweep_nil_right (cross : Nat → Nat → Bool) (xs : List Order) (idx : OrderIndex) :
    sweep cross xs [] idx = ⟨xs, [], idx, []⟩ := by
  unfold sweep; cases xs <;> simp

theorem sweep_stop (cross : Nat → Nat → Bool) (x y : Order) (xt yt : List Order)
    (idx : OrderIndex) (h : cross x.price_ y.price_ = false) :
    sweep cross (x :: xt) (y :: yt) idx = ⟨x :: xt, y :: yt, idx, []⟩ := by
  rw [sweep]; simp [h]

/-- The state the sweep continues from after pairing the heads `x` and `y`. -/
theorem sweep_step (cross : Nat → Nat → Bool) (x y : Order) (xt yt : List Order)
    (idx : OrderIndex) (h : cross x.price_ y.price_ = true) (q : Nat)
    (hq : q = min x.remainingQuantity_ y.remainingQuantity_) (r : Swept)
    (hr : r = sweep cross (residue x q xt) (residue y q yt) (dropFilled y q (dropFilled x q idx))) :
    sweep cross (x :: xt) (y :: yt) idx = ⟨r.xs, r.ys, r.idx, ⟨x, y, q⟩ :: r.events⟩ := by
  subst hq hr
  rw [sweep]; simp [h]

theorem Fill_min_left (x y : Order) :
    x.Fill (min x.remainingQuantity_ y.remainingQuantity_) =
      .ok (fillBy x (min x.remainingQuantity_ y.remainingQuantity_)) := by
  have h : ¬ (min x.remainingQuantity_ y.remainingQuantity_ > x.remainingQuantity_) := by
    have := Nat.min_le_left x.remainingQuantity_ y.remainingQuantity_
    omega
  simp [Order.Fill, fillBy, h]

theorem Fill_min_right (x y : Order) :
    y.Fill (min x.remainingQuantity_ y.remainingQuantity_) =
      .ok (fillBy y (min x.remainingQuantity_ y.remainingQuantity_)) := by
  have h : ¬ (min x.remainingQuantity_ y.remainingQuantity_ > y.remainingQuantity_) := by
    have := Nat.min_le_right x.remainingQuantity_ y.remainingQuantity_
    omega
  simp [Order.Fill, fillBy, h]

theorem residue_lengths (x y : Order) (xt yt : List Order) :
    (residue x (min x.remainingQuantity_ y.remainingQuantity_) xt).length +
      (residue y (min x.remainingQuantity_ y.remainingQuantity_) yt).length
      < (x :: xt).length + (y :: yt).length := by
  simp only [residue, Order.IsFilled, fillBy, List.length_cons]
  split <;> split <;> simp_all <;> omega

theorem matchLevel_succ (n : Nat) (x y : Order) (xt yt : List Order) (idx : OrderIndex)
    (ts : Trades) (q : Nat) (hq : q = min x.remainingQuantity_ y.remainingQuantity_) :
    matchLevel (n + 1) (x :: xt) (y :: yt) idx ts =
      matchLevel n (residue x q xt) (residue y q yt) (dropFilled y q (dropFilled x q idx))
        (ts ++ [Pairing.toTrade ⟨x, y, q⟩]) := by
  subst hq
  simp only [matchLevel, Fill_min_left, Fill_min_right]
  rfl

/-- The inner loop computes the sweep that looks at no price, and never throws. -/
theorem matchLevel_sweep (fuel : Nat) (bq aq : OrderPointers) (idx : OrderIndex) (ts : Trades)
    (h : bq.length + aq.length ≤ fuel) :
    matchLevel fuel bq aq idx ts =
      .ok ((sweep anyPrice bq aq idx).xs, (sweep anyPrice bq aq idx).ys,
        (sweep anyPrice bq aq idx).idx,
        ts ++ (sweep anyPrice bq aq idx).events.map Pairing.toTrade) := by
  induction fuel generalizing bq aq idx ts with
  | zero =>
    cases bq with
    | nil => simp [matchLevel, sweep_nil_left]
    | cons x xt => simp at h
  | succ n ih =>
    cases bq with
    | nil => simp [matchLevel, sweep_nil_left]
    | cons x xt =>
      cases aq with
      | nil => simp [matchLevel, sweep_nil_right]
      | cons y yt =>
        have hlen := residue_lengths x y xt yt
        rw [sweep_step anyPrice x y xt yt idx rfl _ rfl _ rfl, matchLevel_succ n x y xt yt idx ts _ rfl,
          ih _ _ _ _ (by omega)]
        simp


/-- Induction along the pairings of two queues: the step case may use the property for the two
residues left by pairing the heads. -/
theorem pairing_induction {motive : List Order → List Order → Prop}
    (nil_left : ∀ ys, motive [] ys) (nil_right : ∀ xs, motive xs [])
    (step : ∀ x xt y yt,
      motive (residue x (min x.remainingQuantity_ y.remainingQuantity_) xt)
        (residue y (min x.remainingQuantity_ y.remainingQuantity_) yt) →
      motive (x :: xt) (y :: yt)) :
    ∀ xs ys, motive xs ys := by
  intro xs ys
  generalize hn : xs.length + ys.length = n
  induction n using Nat.strong_induction_on generalizing xs ys with
  | _ n ih =>
    cases xs with
    | nil => exact nil_left ys
    | cons x xt =>
      cases ys with
      | nil => exact nil_right _
      | cons y yt =>
        apply step
        have := residue_lengths x y xt yt
        exact ih _ (by omega) _ _ rfl

theorem residue_append (o : Order) (q : Nat) (rest more : List Order) :
    residue o q (rest ++ more) = residue o q rest ++ more := by
  unfold residue; split <;> simp

theorem fillBy_fields (o : Order) (q : Nat) :
    (fillBy o q).orderId_ = o.orderId_ ∧ (fillBy o q).side_ = o.side_ ∧
      (fillBy o q).price_ = o.price_ ∧ (fillBy o q).orderType_ = o.orderType_ ∧
      (fillBy o q).initialQuantity_ = o.initialQuantity_ ∧
      (fillBy o q).user_id_ = o.user_id_ ∧ (fillBy o q).token_ = o.token_ :=
  ⟨rfl, rfl, rfl, rfl, rfl, rfl, rfl⟩

theorem fillBy_fillBy (o : Order) (q r : Nat) : fillBy (fillBy o q) r = fillBy o (q + r) := by
  simp [fillBy, Nat.sub_sub]

theorem fillBy_zero (o : Order) : fillBy o 0 = o := by
  simp [fillBy]

/-- An order of a residue is the filled head or an order of the rest. -/
theorem mem_residue {o : Order} {q : Nat} {rest : List Order} {a : Order}
    (h : a ∈ residue o q rest) : a = fillBy o q ∨ a ∈ rest := by
  unfold residue at h
  split at h
  · exact Or.inr h
  · simpa using h

/-- What is left of the first sequence consists of orders of that sequence, partly filled. -/
theorem sweep_xs_from (cross : Nat → Nat → Bool) (xs ys : List Order) :
    ∀ idx, ∀ a ∈ (sweep cross xs ys idx).xs, ∃ o ∈ xs, ∃ q, a = fillBy o q := by
  induction xs, ys using pairing_induction with
  | nil_left ys => intro idx a h; simp [sweep_nil_left] at h
  | nil_right xs =>
    intro idx a h
    rw [sweep_nil_right] at h
    exact ⟨a, h, 0, (fillBy_zero a).symm⟩
  | step x xt y yt ih =>
    intro idx a h
    by_cases hc : cross x.price_ y.price_ = true
    · rw [sweep_step cross x y xt yt idx hc _ rfl _ rfl] at h
      obtain ⟨o, ho, q, hq⟩ := ih _ a h
      rcases mem_residue ho with h1 | h1
      · subst h1
        exact ⟨x, by simp, _, by rw [hq, fillBy_fillBy]⟩
      · exact ⟨o, by simp [h1], q, hq⟩
    · rw [sweep_stop cross x y xt yt idx (by simpa using hc)] at h
      exact ⟨a, h, 0, (fillBy_zero a).symm⟩

/-- What is left of the second sequence consists of orders of that sequence, partly filled. -/
theorem sweep_ys_from (cross : Nat → Nat → Bool) (xs ys : List Order) :
    ∀ idx, ∀ a ∈ (sweep cross xs ys idx).ys, ∃ o ∈ ys, ∃ q, a = fillBy o q := by
  induction xs, ys using pairing_induction with
  | nil_left ys =>
    intro idx a h
    rw [sweep_nil_left] at h
    exact ⟨a, h, 0, (fillBy_zero a).symm⟩
  | nil_right xs => intro idx a h; simp [sweep_nil_right] at h
  | step x xt y yt ih =>
    intro idx a h
    by_cases hc : cross x.price_ y.price_ = true
    · rw [sweep_step cross x y xt yt idx hc _ rfl _ rfl] at h
      obtain ⟨o, ho, q, hq⟩ := ih _ a h
      rcases mem_residue ho with h1 | h1
      · subst h1
        exact ⟨y, by simp, _, by rw [hq, fillBy_fillBy]⟩
      · exact ⟨o, by simp [h1], q, hq⟩
    · rw [sweep_stop cross x y xt yt idx (by simpa using hc)] at h
      exact ⟨a, h, 0, (fillBy_zero a).symm⟩

/-- When the sweep stops, a sequence is exhausted or the heads do not satisfy the test. -/
theorem sweep_final (cross : Nat → Nat → Bool) (xs ys : List Order) :
    ∀ idx, (sweep cross xs ys idx).xs = [] ∨ (sweep cross xs ys idx).ys = [] ∨
      ∃ x xt y yt, (sweep cross xs ys idx).xs = x :: xt ∧ (sweep cross xs ys idx).ys = y :: yt ∧
        cross x.price_ y.price_ = false := by
  induction xs, ys using pairing_induction with
  | nil_left ys => intro idx; simp [sweep_nil_left]
  | nil_right xs => intro idx; simp [sweep_nil_right]
  | step x xt y yt ih =>
    intro idx
    by_cases hc : cross x.price_ y.price_ = true
    · rw [sweep_step cross x y xt yt idx hc _ rfl _ rfl]
      exact ih _
    · rw [sweep_stop cross x y xt yt idx (by simpa using hc)]
      exact Or.inr (Or.inr ⟨x, xt, y, yt, rfl, rfl, by simpa using hc⟩)

theorem sweep_anyPrice_final (xs ys : List Order) (idx : OrderIndex) :
    (sweep anyPrice xs ys idx).xs = [] ∨ (sweep anyPrice xs ys idx).ys = [] := by
  rcases sweep_final anyPrice xs ys idx with h | h | ⟨x, xt, y, yt, _, _, h⟩
  · exact Or.inl h
  · exact Or.inr h
  · simp [anyPrice] at h

/-- A sweep over two queues whose prices all satisfy the test, followed by the rest of both
sides, is the sweep of the concatenations. -/
theorem sweep_append (cross : Nat → Nat → Bool) (xr yr : List Order) (xs ys : List Order) :
    ∀ idx, (∀ x ∈ xs, ∀ y ∈ ys, cross x.price_ y.price_ = true) →
      sweep cross (xs ++ xr) (ys ++ yr) idx =
        ⟨(sweep cross ((sweep anyPrice xs ys idx).xs ++ xr) ((sweep anyPrice xs ys idx).ys ++ yr)
            (sweep anyPrice xs ys idx).idx).xs,
         (sweep cross ((sweep anyPrice xs ys idx).xs ++ xr) ((sweep anyPrice xs ys idx).ys ++ yr)
            (sweep anyPrice xs ys idx).idx).ys,
         (sweep cross ((sweep anyPrice xs ys idx).xs ++ xr) ((sweep anyPrice xs ys idx).ys ++ yr)
            (sweep anyPrice xs ys idx).idx).idx,
         (sweep anyPrice xs ys idx).events ++
          (sweep cross ((sweep anyPrice xs ys idx).xs ++ xr) ((sweep anyPrice xs ys idx).ys ++ yr)
            (sweep anyPrice xs ys idx).idx).events⟩ := by
  induction xs, ys using pairing_induction with
  | nil_left ys => intro idx _; simp [sweep_nil_left]
  | nil_right xs => intro idx _; simp [sweep_nil_right]
  | step x xt y yt ih =>
    intro idx hall
    have hc : cross x.price_ y.price_ = true := hall x (by simp) y (by simp)
    have hall2 : ∀ a ∈ residue x (min x.remainingQuantity_ y.remainingQuantity_) xt,
        ∀ c ∈ residue y (min x.remainingQuantity_ y.remainingQuantity_) yt,
        cross a.price_ c.price_ = true := by
      intro a ha c hc2
      have ha2 : ∃ a0 ∈ x :: xt, a.price_ = a0.price_ := by
        rcases mem_residue ha with h1 | h1
        · exact ⟨x, by simp, by rw [h1]; rfl⟩
        · exact ⟨a, by simp [h1], rfl⟩
      have hc3 : ∃ c0 ∈ y :: yt, c.price_ = c0.price_ := by
        rcases mem_residue hc2 with h1 | h1
        · exact ⟨y, by simp, by rw [h1]; rfl⟩
        · exact ⟨c, by simp [h1], rfl⟩
      obtain ⟨a0, ha0, hpa⟩ := ha2
      obtain ⟨c0, hc0, hpc⟩ := hc3
      rw [hpa, hpc]
      exact hall a0 ha0 c0 hc0
    rw [List.cons_append, List.cons_append,
      sweep_step cross x y (xt ++ xr) (yt ++ yr) idx hc _ rfl _ rfl,
      sweep_step anyPrice x y xt yt idx rfl _ rfl _ rfl,
      residue_append, residue_append, ih _ hall2]
    simp


/-! ### The outer loop -/

theorem flat_cons (p : Nat) (q : OrderPointers) (rest : Levels) :
    flat ((p, q) :: rest) = q ++ flat rest := rfl

theorem levelsErase_head (p : Nat) (q : OrderPointers) (rest : Levels) :
    levelsErase ((p, q) :: rest) p = rest := by
  simp [levelsErase]

theorem LevelsOk_tail {side : Side} {lv : Level} {rest : Levels}
    (h : LevelsOk side (lv :: rest)) : LevelsOk side rest :=
  fun l hl => h l (List.mem_cons_of_mem _ hl)

/-- The head level after the inner loop: kept with what is left of its queue, or erased. -/
theorem head_level_after (side : Side) (p : Nat) (q q2 : OrderPointers) (rest : Levels)
    (h : LevelsOk side ((p, q) :: rest))
    (hq : ∀ a ∈ q2, ∃ o ∈ q, ∃ n, a = fillBy o n) :
    LevelsOk side (if q2.isEmpty then levelsErase ((p, q2) :: rest) p else (p, q2) :: rest) ∧
    flat (if q2.isEmpty then levelsErase ((p, q2) :: rest) p else (p, q2) :: rest)
      = q2 ++ flat rest ∧
    levelKeys (if q2.isEmpty then levelsErase ((p, q2) :: rest) p else (p, q2) :: rest)
      <:+ levelKeys ((p, q) :: rest) ∧
    ((if q2.isEmpty then levelsErase ((p, q2) :: rest) p else (p, q2) :: rest).length
      = if q2 = [] then rest.length else rest.length + 1) := by
  cases q2 with
  | nil =>
    simp only [List.isEmpty_nil, if_true, levelsErase_head]
    refine ⟨LevelsOk_tail h, by simp, ?_, by simp⟩
    simp [levelKeys]
  | cons a q3 =>
    simp only [List.isEmpty_cons, Bool.false_eq_true, if_false]
    refine ⟨?_, rfl, by simp [levelKeys], by simp⟩
    intro l hl
    rcases List.mem_cons.1 hl with h1 | h1
    · subst h1
      refine ⟨by simp, ?_⟩
      intro o ho
      obtain ⟨o0, ho0, n, hn⟩ := hq o ho
      have := (h (p, q) (by simp)).2 o0 ho0
      subst hn
      exact this
    · exact LevelsOk_tail h l h1

/-- One iteration of the outer loop on two crossing head levels. -/
theorem matchLoop_iter (n : Nat) (bp ap : Nat) (bq aq : OrderPointers) (br ar : Levels)
    (orders : OrderIndex) (nxt : Nat) (ts : Trades) (h : ¬ bp < ap) :
    matchLoop (n + 1) ⟨(bp, bq) :: br, (ap, aq) :: ar, orders, nxt⟩ ts =
      match matchLevel (bq.length + aq.length) bq aq orders ts with
      | .error e => .error e
      | .ok (bq2, aq2, orders2, ts2) =>
        matchLoop n
          ⟨if bq2.isEmpty then levelsErase ((bp, bq2) :: br) bp else (bp, bq2) :: br,
           if aq2.isEmpty then levelsErase ((ap, aq2) :: ar) ap else (ap, aq2) :: ar,
           orders2, nxt⟩ ts2 := by
  rw [matchLoop]
  simp only [h, if_false]

/-- The two nested loops of `MatchOrders` compute the sweep of the flattened sides under the
crossing test, never throw, and keep the shape of the levels. -/
theorem matchLoop_sweep (fuel : Nat) (bids asks : Levels) (orders : OrderIndex) (nxt : Nat)
    (ts : Trades) (hb : LevelsOk Side.Buy bids) (ha : LevelsOk Side.Sell asks)
    (hfuel : bids.length + asks.length ≤ fuel) :
    ∃ b2, matchLoop fuel ⟨bids, asks, orders, nxt⟩ ts = .ok (b2, ts ++
        (sweep crossing (flat bids) (flat asks) orders).events.map Pairing.toTrade) ∧
      flat b2.bids_ = (sweep crossing (flat bids) (flat asks) orders).xs ∧
      flat b2.asks_ = (sweep crossing (flat bids) (flat asks) orders).ys ∧
      b2.orders_ = (sweep crossing (flat bids) (flat asks) orders).idx ∧
      b2.next_order_id_ = nxt ∧
      levelKeys b2.bids_ <:+ levelKeys bids ∧ levelKeys b2.asks_ <:+ levelKeys asks ∧
      LevelsOk Side.Buy b2.bids_ ∧ LevelsOk Side.Sell b2.asks_ ∧ Uncrossed b2 := by
  induction fuel generalizing bids asks orders ts with
  | zero =>
    simp only [Nat.le_zero, Nat.add_eq_zero, List.length_eq_zero] at hfuel
    obtain ⟨h1, h2⟩ := hfuel
    subst h1 h2
    refine ⟨⟨[], [], orders, nxt⟩, by simp [matchLoop, flat, sweep_nil_left], ?_⟩
    simp [flat, sweep_nil_left, Uncrossed, LevelsOk]
  | succ n ih =>
    cases bids with
    | nil =>
      refine ⟨⟨[], asks, orders, nxt⟩, by simp [matchLoop, flat, sweep_nil_left], ?_⟩
      rw [show flat ([] : Levels) = [] from rfl, sweep_nil_left]
      exact ⟨rfl, rfl, rfl, rfl, List.suffix_refl _, List.suffix_refl _, hb, ha, trivial⟩
    | cons bl br =>
      cases asks with
      | nil =>
        refine ⟨⟨bl :: br, [], orders, nxt⟩, by simp [matchLoop, flat, sweep_nil_right], ?_⟩
        rw [show flat ([] : Levels) = [] from rfl, sweep_nil_right]
        exact ⟨rfl, rfl, rfl, rfl, List.suffix_refl _, List.suffix_refl _, hb, ha, trivial⟩
      | cons al ar =>
        obtain ⟨bp, bq⟩ := bl
        obtain ⟨ap, aq⟩ := al
        have hbq := hb (bp, bq) (by simp)
        have haq := ha (ap, aq) (by simp)
        simp only at hbq haq
        by_cases hlt : bp < ap
        · -- the best prices do not cross: the loop breaks
          obtain ⟨x, xt, hx⟩ := List.exists_cons_of_ne_nil hbq.1
          obtain ⟨y, yt, hy⟩ := List.exists_cons_of_ne_nil haq.1
          have hxp : x.price_ = bp := (hbq.2 x (by simp [hx])).2
          have hyp : y.price_ = ap := (haq.2 y (by simp [hy])).2
          have hstop : sweep crossing (flat ((bp, bq) :: br)) (flat ((ap, aq) :: ar)) orders
              = ⟨flat ((bp, bq) :: br), flat ((ap, aq) :: ar), orders, []⟩ := by
            simp only [flat_cons, hx, hy, List.cons_append]
            apply sweep_stop
            simp [crossing, hxp, hyp, hlt]
          refine ⟨⟨(bp, bq) :: br, (ap, aq) :: ar, orders, nxt⟩,
            by simp [matchLoop, hlt, hstop], ?_⟩
          rw [hstop]
          exact ⟨rfl, rfl, rfl, rfl, List.suffix_refl _, List.suffix_refl _, hb, ha, hlt⟩
        · -- the inner loop runs on the two head queues
          have hall : ∀ x ∈ bq, ∀ y ∈ aq, crossing x.price_ y.price_ = true := by
            intro x hx y hy
            simp [crossing, (hbq.2 x hx).2, (haq.2 y hy).2, hlt]
          have hB := head_level_after Side.Buy bp bq (sweep anyPrice bq aq orders).xs br hb
            (sweep_xs_from anyPrice bq aq orders)
          have hA := head_level_after Side.Sell ap aq (sweep anyPrice bq aq orders).ys ar ha
            (sweep_ys_from anyPrice bq aq orders)
          obtain ⟨hB1, hB2, hB3, hB4⟩ := hB
          obtain ⟨hA1, hA2, hA3, hA4⟩ := hA
          have hfin := sweep_anyPrice_final bq aq orders
          have hfuel2 :
              (if (sweep anyPrice bq aq orders).xs.isEmpty
                then levelsErase ((bp, (sweep anyPrice bq aq orders).xs) :: br) bp
                else (bp, (sweep anyPrice bq aq orders).xs) :: br).length +
              (if (sweep anyPrice bq aq orders).ys.isEmpty
                then levelsErase ((ap, (sweep anyPrice bq aq orders).ys) :: ar) ap
                else (ap, (sweep anyPrice bq aq orders).ys) :: ar).length ≤ n := by
            rw [hB4, hA4]
            simp only [List.length_cons] at hfuel
            rcases hfin with h | h <;> rw [h] <;> simp <;> split <;> omega
          obtain ⟨b2, h1, h2, h3, h4, h5, h6, h7, h8, h9, h10⟩ :=
            ih _ _ (sweep anyPrice bq aq orders).idx
              (ts ++ (sweep anyPrice bq aq orders).events.map Pairing.toTrade) hB1 hA1 hfuel2
          simp only [hB2, hA2] at h1 h2 h3 h4
          refine ⟨b2, ?_, ?_⟩
          · rw [matchLoop_iter n bp ap bq aq br ar orders nxt ts hlt,
              matchLevel_sweep _ bq aq orders ts (le_refl _)]
            simp only
            rw [h1, flat_cons, flat_cons, sweep_append crossing (flat br) (flat ar) bq aq orders hall]
            simp only [List.map_append, List.append_assoc]
          · rw [flat_cons, flat_cons, sweep_append crossing (flat br) (flat ar) bq aq orders hall]
            exact ⟨h2, h3, h4, h5, h6.trans hB3, h7.trans hA3, h8, h9, h10⟩

/-! ## The order index -/

theorem indexFind_eq_none {idx : OrderIndex} {id : Nat} :
    indexFind idx id = none ↔ id ∉ idx.map Prod.fst := by
  induction idx with
  | nil => simp [indexFind]
  | cons kv rest ih =>
    obtain ⟨k, e⟩ := kv
    by_cases h : k = id
    · simp [indexFind, h]
    · have h2 : ¬ id = k := fun h2 => h h2.symm
      simp only [indexFind, h, if_false, ih, List.map_cons, List.mem_cons, h2, false_or]

theorem indexFind_mem {idx : OrderIndex} {id : Nat} {e : OrderEntry}
    (h : indexFind idx id = some e) : (id, e) ∈ idx := by
  induction idx with
  | nil => simp [indexFind] at h
  | cons kv rest ih =>
    obtain ⟨k, e2⟩ := kv
    by_cases h2 : k = id
    · simp [indexFind, h2] at h
      simp [h2, h]
    · simp [indexFind, h2] at h
      exact List.mem_cons_of_mem _ (ih h)

theorem indexFind_of_mem {idx : OrderIndex} {id : Nat} {e : OrderEntry}
    (hnd : (idx.map Prod.fst).Nodup) (h : (id, e) ∈ idx) : indexFind idx id = some e := by
  induction idx with
  | nil => simp at h
  | cons kv rest ih =>
    obtain ⟨k, e2⟩ := kv
    simp only [List.map_cons, List.nodup_cons] at hnd
    rcases List.mem_cons.1 h with h1 | h1
    · simp only [Prod.mk.injEq] at h1
      simp [indexFind, h1.1, h1.2]
    · have : k ≠ id := by
        intro hk
        apply hnd.1
        rw [hk]
        exact List.mem_map.2 ⟨(id, e), h1, rfl⟩
      simp [indexFind, this, ih hnd.2 h1]

theorem mem_indexErase {idx : OrderIndex} {a : Nat} {kv : Nat × OrderEntry} :
    kv ∈ indexErase idx a ↔ kv ∈ idx ∧ kv.1 ≠ a := by
  induction idx with
  | nil => simp [indexErase]
  | cons kv2 rest ih =>
    obtain ⟨k, e⟩ := kv2
    by_cases h : k = a
    · simp only [indexErase, h, if_true, ih, List.mem_cons]
      constructor
      · exact fun h2 => ⟨Or.inr h2.1, h2.2⟩
      · rintro ⟨h2 | h2, h3⟩
        · exact absurd (by rw [h2]) h3
        · exact ⟨h2, h3⟩
    · simp only [indexErase, h, if_false, List.mem_cons, ih]
      constructor
      · rintro (h2 | h2)
        · exact ⟨Or.inl h2, by rw [h2]; exact h⟩
        · exact ⟨Or.inr h2.1, h2.2⟩
      · rintro ⟨h2 | h2, h3⟩
        · exact Or.inl h2
        · exact Or.inr ⟨h2, h3⟩

theorem indexErase_sublist (idx : OrderIndex) (a : Nat) : (indexErase idx a).Sublist idx := by
  induction idx with
  | nil => simp [indexErase]
  | cons kv rest ih =>
    obtain ⟨k, e⟩ := kv
    by_cases h : k = a
    · simp only [indexErase, h, if_true]
      exact List.Sublist.cons _ ih
    · simp only [indexErase, h, if_false]
      exact List.Sublist.cons₂ _ ih

theorem indexErase_keys_nodup {idx : OrderIndex} (a : Nat) (h : (idx.map Prod.fst).Nodup) :
    ((indexErase idx a).map Prod.fst).Nodup :=
  h.sublist ((indexErase_sublist idx a).map Prod.fst)

theorem indexFind_erase_ne {idx : OrderIndex} {a id : Nat} (h : a ≠ id) :
    indexFind (indexErase idx a) id = indexFind idx id := by
  induction idx with
  | nil => simp [indexErase, indexFind]
  | cons kv rest ih =>
    obtain ⟨k, e⟩ := kv
    by_cases h1 : k = a
    · have h2 : k ≠ id := by rw [h1]; exact h
      simp only [indexErase, h1, if_true, indexFind, h, if_false, ih]
    · by_cases h2 : k = id
      · subst h2
        simp [indexErase, h1, indexFind]
      · simp only [indexErase, h1, if_false, indexFind, h2, ih]

theorem indexFind_erase_self (idx : OrderIndex) (id : Nat) :
    indexFind (indexErase idx id) id = none := by
  rw [indexFind_eq_none]
  intro h
  obtain ⟨kv, h1, h2⟩ := List.mem_map.1 h
  exact (mem_indexErase.1 h1).2 h2

theorem indexErase_of_not_mem {idx : OrderIndex} {id : Nat} (h : indexFind idx id = none) :
    indexErase idx id = idx := by
  induction idx with
  | nil => simp [indexErase]
  | cons kv rest ih =>
    obtain ⟨k, e⟩ := kv
    by_cases h1 : k = id
    · simp [indexFind, h1] at h
    · simp only [indexFind, h1, if_false] at h
      simp only [indexErase, h1, if_false, ih h]

theorem indexErase_comm (idx : OrderIndex) (a c : Nat) :
    indexErase (indexErase idx a) c = indexErase (indexErase idx c) a := by
  induction idx with
  | nil => simp [indexErase]
  | cons kv rest ih =>
    obtain ⟨k, e⟩ := kv
    by_cases h1 : k = a
    · subst h1
      by_cases h2 : k = c
      · subst h2; simp [indexErase, ih]
      · simp [indexErase, h2, ih]
    · by_cases h2 : k = c
      · subst h2; simp [indexErase, h1, ih]
      · simp [indexErase, h1, h2, ih]

theorem indexErase_length_of_mem {idx : OrderIndex} {id : Nat}
    (hnd : (idx.map Prod.fst).Nodup) (h : id ∈ idx.map Prod.fst) :
    (indexErase idx id).length + 1 = idx.length := by
  induction idx with
  | nil => simp at h
  | cons kv rest ih =>
    obtain ⟨k, e⟩ := kv
    simp only [List.map_cons, List.nodup_cons] at hnd
    by_cases h1 : k = id
    · subst h1
      have : indexFind rest k = none := indexFind_eq_none.2 hnd.1
      simp [indexErase, indexErase_of_not_mem this]
    · have h3 : id ∈ rest.map Prod.fst := by
        simp only [List.map_cons, List.mem_cons] at h
        rcases h with h | h
        · exact absurd h.symm h1
        · exact h
      have := ih hnd.2 h3
      simp only [indexErase, h1, if_false, List.length_cons, this]

/-! ## Index and resting orders -/

theorem ids_append (xs ys : List Order) : ids (xs ++ ys) = ids xs ++ ids ys := by
  simp [ids]

theorem ids_cons (x : Order) (xs : List Order) : ids (x :: xs) = x.orderId_ :: ids xs := rfl

theorem mem_ids {id : Nat} {os : List Order} : id ∈ ids os ↔ ∃ o ∈ os, o.orderId_ = id := by
  simp [ids]

theorem Indexed.perm {os os2 : List Order} {idx : OrderIndex} (h : Indexed os idx)
    (hp : os.Perm os2) : Indexed os2 idx where
  ids_nodup := (hp.map Order.orderId_).nodup_iff.1 h.ids_nodup
  keys_nodup := h.keys_nodup
  key_rests := fun kv hkv => (hp.map Order.orderId_).mem_iff.1 (h.key_rests kv hkv)
  entry_of := fun o ho => h.entry_of o (hp.mem_iff.2 ho)

/-- Popping a filled head and erasing its key. -/
theorem Indexed.pop {x : Order} {rest : List Order} {idx : OrderIndex}
    (h : Indexed (x :: rest) idx) : Indexed rest (indexErase idx x.orderId_) where
  ids_nodup := (List.nodup_cons.1 h.ids_nodup).2
  keys_nodup := indexErase_keys_nodup _ h.keys_nodup
  key_rests := by
    intro kv hkv
    obtain ⟨h1, h2⟩ := mem_indexErase.1 hkv
    have := h.key_rests kv h1
    rw [ids_cons] at this
    rcases List.mem_cons.1 this with h3 | h3
    · exact absurd h3 h2
    · exact h3
  entry_of := by
    intro o ho
    have hne : x.orderId_ ≠ o.orderId_ := by
      intro heq
      have := (List.nodup_cons.1 h.ids_nodup).1
      apply this
      rw [heq]
      exact mem_ids.2 ⟨o, ho, rfl⟩
    rw [indexFind_erase_ne hne]
    exact h.entry_of o (List.mem_cons_of_mem _ ho)

/-- Filling the head without popping it. -/
theorem Indexed.refill {x : Order} {rest : List Order} {idx : OrderIndex} (q : Nat)
    (h : Indexed (x :: rest) idx) : Indexed (fillBy x q :: rest) idx where
  ids_nodup := h.ids_nodup
  keys_nodup := h.keys_nodup
  key_rests := h.key_rests
  entry_of := by
    intro o ho
    rcases List.mem_cons.1 ho with h1 | h1
    · subst h1
      exact h.entry_of x (by simp)
    · exact h.entry_of o (List.mem_cons_of_mem _ h1)

theorem Indexed.residue {x : Order} {rest : List Order} {idx : OrderIndex} (q : Nat)
    (h : Indexed (x :: rest) idx) : Indexed (residue x q rest) (dropFilled x q idx) := by
  unfold OB.residue dropFilled
  split
  · exact h.pop
  · exact h.refill q

theorem Indexed.step {x y : Order} {xt yt : List Order} {idx : OrderIndex} (q : Nat)
    (h : Indexed ((x :: xt) ++ (y :: yt)) idx) :
    Indexed (OB.residue x q xt ++ OB.residue y q yt) (dropFilled y q (dropFilled x q idx)) := by
  have h1 : Indexed (OB.residue x q (xt ++ y :: yt)) (dropFilled x q idx) :=
    Indexed.residue q (by simpa using h)
  rw [residue_append] at h1
  have h2 : Indexed (y :: (yt ++ OB.residue x q xt)) (dropFilled x q idx) :=
    h1.perm (by
      have : (OB.residue x q xt ++ y :: yt).Perm ((y :: yt) ++ OB.residue x q xt) :=
        List.perm_append_comm
      simpa using this)
  have h3 := Indexed.residue q h2
  rw [residue_append] at h3
  exact h3.perm List.perm_append_comm

/-- The sweep keeps index and resting orders in correspondence. -/
theorem sweep_indexed (cross : Nat → Nat → Bool) (xs ys : List Order) :
    ∀ idx, Indexed (xs ++ ys) idx →
      Indexed ((sweep cross xs ys idx).xs ++ (sweep cross xs ys idx).ys)
        (sweep cross xs ys idx).idx := by
  induction xs, ys using pairing_induction with
  | nil_left ys => intro idx h; simpa [sweep_nil_left] using h
  | nil_right xs => intro idx h; simpa [sweep_nil_right] using h
  | step x xt y yt ih =>
    intro idx h
    by_cases hc : cross x.price_ y.price_ = true
    · rw [sweep_step cross x y xt yt idx hc _ rfl _ rfl]
      exact ih _ (Indexed.step _ h)
    · rw [sweep_stop cross x y xt yt idx (by simpa using hc)]
      exact h

/-- Registering a new order. -/
theorem Indexed.insert {os : List Order} {idx : OrderIndex} (o : Order)
    (h : Indexed os idx) (hnew : indexFind idx o.orderId_ = none) :
    Indexed (o :: os) (indexInsert idx o.orderId_ ⟨o.side_, o.price_⟩) := by
  have hkey : o.orderId_ ∉ idx.map Prod.fst := indexFind_eq_none.1 hnew
  have hid : o.orderId_ ∉ ids os := by
    intro hmem
    obtain ⟨o2, ho2, heq⟩ := mem_ids.1 hmem
    have := h.entry_of o2 ho2
    rw [heq, hnew] at this
    exact Option.noConfusion this
  simp only [indexInsert, hnew]
  refine ⟨?_, ?_, ?_, ?_⟩
  · rw [ids_cons]; exact List.nodup_cons.2 ⟨hid, h.ids_nodup⟩
  · simp only [List.map_cons]; exact List.nodup_cons.2 ⟨hkey, h.keys_nodup⟩
  · intro kv hkv
    rw [ids_cons]
    rcases List.mem_cons.1 hkv with h1 | h1
    · subst h1; simp
    · exact List.mem_cons_of_mem _ (h.key_rests kv h1)
  · intro o2 ho2
    rcases List.mem_cons.1 ho2 with h1 | h1
    · subst h1; simp [indexFind]
    · have hne : o.orderId_ ≠ o2.orderId_ := by
        intro heq
        exact hid (mem_ids.2 ⟨o2, h1, heq.symm⟩)
      simp [indexFind, hne, h.entry_of o2 h1]

/-! ## Inserting an order into a side -/

theorem flat_append (l1 l2 : Levels) : flat (l1 ++ l2) = flat l1 ++ flat l2 := by
  induction l1 with
  | nil => rfl
  | cons lv rest ih =>
    obtain ⟨p, q⟩ := lv
    simp [flat, ih]

theorem mem_flat {o : Order} {levels : Levels} :
    o ∈ flat levels ↔ ∃ lv ∈ levels, o ∈ lv.2 := by
  induction levels with
  | nil => simp [flat]
  | cons lv rest ih =>
    obtain ⟨p, q⟩ := lv
    simp [flat, ih]

/-- The new order enters the flattened side at one position; nothing else moves. -/
theorem flat_pushBack (comp : Nat → Nat → Bool) (o : Order) (levels : Levels) :
    ∃ l1 l2, flat levels = l1 ++ l2 ∧ flat (levelsPushBack comp o levels) = l1 ++ o :: l2 := by
  induction levels with
  | nil => exact ⟨[], [], rfl, rfl⟩
  | cons lv rest ih =>
    obtain ⟨p, q⟩ := lv
    by_cases h1 : p = o.price_
    · exact ⟨q, flat rest, rfl, by simp [levelsPushBack, h1, flat]⟩
    · by_cases h2 : comp o.price_ p = true
      · exact ⟨[], flat ((p, q) :: rest), rfl, by simp [levelsPushBack, h1, h2, flat]⟩
      · obtain ⟨l1, l2, h3, h4⟩ := ih
        exact ⟨q ++ l1, l2, by simp [flat, h3], by simp [levelsPushBack, h1, h2, flat, h4]⟩

theorem flat_pushBack_perm (comp : Nat → Nat → Bool) (o : Order) (levels : Levels) :
    (flat (levelsPushBack comp o levels)).Perm (o :: flat levels) := by
  obtain ⟨l1, l2, h1, h2⟩ := flat_pushBack comp o levels
  rw [h1, h2]
  exact List.perm_middle

theorem flat_pushBack_sublist (comp : Nat → Nat → Bool) (o : Order) (levels : Levels) :
    (flat levels).Sublist (flat (levelsPushBack comp o levels)) := by
  obtain ⟨l1, l2, h1, h2⟩ := flat_pushBack comp o levels
  rw [h1, h2]
  exact List.Sublist.append (List.Sublist.refl _) (List.sublist_cons_self _ _)

theorem levelsPushBack_ok (comp : Nat → Nat → Bool) (o : Order) (levels : Levels)
    (h : LevelsOk o.side_ levels) : LevelsOk o.side_ (levelsPushBack comp o levels) := by
  induction levels with
  | nil =>
    intro lv hlv
    simp only [levelsPushBack, List.mem_singleton] at hlv
    subst hlv
    simp
  | cons lv rest ih =>
    obtain ⟨p, q⟩ := lv
    have hrest : LevelsOk o.side_ rest := LevelsOk_tail h
    have hhead := h (p, q) (by simp)
    by_cases h1 : p = o.price_
    · intro lv hlv
      simp only [levelsPushBack, h1, if_true, List.mem_cons] at hlv
      rcases hlv with h2 | h2
      · subst h2
        refine ⟨by simp, ?_⟩
        intro a ha
        rcases List.mem_append.1 ha with h3 | h3
        · have := hhead.2 a h3
          exact ⟨this.1, by rw [this.2, h1]⟩
        · simp only [List.mem_singleton] at h3
          subst h3
          exact ⟨rfl, rfl⟩
      · exact hrest lv h2
    · by_cases h2 : comp o.price_ p = true
      · intro lv hlv
        simp only [levelsPushBack, h1, h2, if_true, if_false, List.mem_cons] at hlv
        rcases hlv with h3 | h3 | h3
        · subst h3; simp
        · subst h3; exact hhead
        · exact hrest lv h3
      · intro lv hlv
        rw [Bool.not_eq_true] at h2
        simp only [levelsPushBack, h1, h2, if_false, Bool.false_eq_true, List.mem_cons] at hlv
        rcases hlv with h3 | h3
        · subst h3; exact hhead
        · exact ih hrest lv h3

theorem levelKeys_pushBack_subset (comp : Nat → Nat → Bool) (o : Order) (levels : Levels) :
    ∀ k ∈ levelKeys (levelsPushBack comp o levels), k = o.price_ ∨ k ∈ levelKeys levels := by
  induction levels with
  | nil => intro k hk; simpa [levelsPushBack, levelKeys] using hk
  | cons lv rest ih =>
    obtain ⟨p, q⟩ := lv
    intro k hk
    by_cases h1 : p = o.price_
    · simp only [levelsPushBack, h1, if_true, levelKeys, List.map_cons, List.mem_cons] at hk ⊢
      rcases hk with h | h
      · exact Or.inl h
      · exact Or.inr (Or.inr h)
    · by_cases h2 : comp o.price_ p = true
      · simp only [levelsPushBack, h1, h2, if_true, if_false, levelKeys, List.map_cons,
          List.mem_cons] at hk ⊢
        exact hk
      · rw [Bool.not_eq_true] at h2
        simp only [levelsPushBack, h1, h2, if_false, Bool.false_eq_true, levelKeys,
          List.map_cons, List.mem_cons] at hk ⊢
        rcases hk with h | h
        · exact Or.inr (Or.inl h)
        · rcases ih k h with h3 | h3
          · exact Or.inl h3
          · exact Or.inr (Or.inr h3)

/-- Insertion keeps the prices of a side strictly ordered by the comparator of its map. -/
theorem levelsPushBack_sorted (comp : Nat → Nat → Bool) (r : Nat → Nat → Prop)
    (hcomp : ∀ x y, comp x y = true ↔ r x y) (htrans : ∀ x y z, r x y → r y z → r x z)
    (htotal : ∀ x y, ¬ r x y → x ≠ y → r y x) (o : Order) (levels : Levels)
    (h : (levelKeys levels).Pairwise r) :
    (levelKeys (levelsPushBack comp o levels)).Pairwise r := by
  induction levels with
  | nil => simp [levelsPushBack, levelKeys]
  | cons lv rest ih =>
    obtain ⟨p, q⟩ := lv
    simp only [levelKeys, List.map_cons, List.pairwise_cons] at h
    by_cases h1 : p = o.price_
    · simpa [levelsPushBack, h1, levelKeys] using h
    · by_cases h2 : comp o.price_ p = true
      · have hr : r o.price_ p := (hcomp _ _).1 h2
        simp only [levelsPushBack, h1, h2, if_true, if_false, levelKeys, List.map_cons,
          List.pairwise_cons, List.mem_cons]
        refine ⟨?_, h.1, h.2⟩
        rintro k (hk | hk)
        · rw [hk]; exact hr
        · exact htrans _ _ _ hr (h.1 k hk)
      · have hr : r p o.price_ := htotal _ _ (fun hx => h2 ((hcomp _ _).2 hx)) (Ne.symm h1)
        rw [Bool.not_eq_true] at h2
        simp only [levelsPushBack, h1, h2, if_false, Bool.false_eq_true, levelKeys,
          List.map_cons, List.pairwise_cons]
        refine ⟨?_, ih h.2⟩
        intro k hk
        rcases levelKeys_pushBack_subset comp o rest k hk with h3 | h3
        · rw [h3]; exact hr
        · exact h.1 k h3

theorem bids_pushBack_sorted (o : Order) (levels : Levels)
    (h : (levelKeys levels).Pairwise (fun x y => x > y)) :
    (levelKeys (levelsPushBack greater o levels)).Pairwise (fun x y => x > y) :=
  levelsPushBack_sorted greater (fun x y => x > y) (fun x y => by simp [greater])
    (fun x y z h1 h2 => Nat.lt_trans h2 h1) (fun x y h1 h2 => by simp only at h1 ⊢; omega)
    o levels h

theorem asks_pushBack_sorted (o : Order) (levels : Levels)
    (h : (levelKeys levels).Pairwise (fun x y => x < y)) :
    (levelKeys (levelsPushBack less o levels)).Pairwise (fun x y => x < y) :=
  levelsPushBack_sorted less (fun x y => x < y) (fun x y => by simp [less])
    (fun x y z h1 h2 => Nat.lt_trans h1 h2) (fun x y h1 h2 => by simp only at h1 ⊢; omega)
    o levels h

/-! ## Cancelling on one side -/

theorem levels_split_of_mem {p : Nat} {q : OrderPointers} {levels : Levels}
    (hnd : (levelKeys levels).Nodup) (h : (p, q) ∈ levels) :
    ∃ pre post, levels = pre ++ (p, q) :: post ∧ p ∉ levelKeys pre ∧ p ∉ levelKeys post := by
  obtain ⟨pre, post, hsplit⟩ := List.append_of_mem h
  subst hsplit
  simp only [levelKeys, List.map_append, List.map_cons] at hnd
  have h1 := List.nodup_append.1 hnd
  have h2 := List.nodup_cons.1 h1.2.1
  refine ⟨pre, post, rfl, ?_, h2.1⟩
  intro hp
  exact h1.2.2 hp (List.mem_cons_self _ _)

theorem queue_split_of_mem {o : Order} {q : OrderPointers}
    (hnd : (ids q).Nodup) (h : o ∈ q) :
    ∃ l1 l2, q = l1 ++ o :: l2 ∧ o.orderId_ ∉ ids l1 ∧ o.orderId_ ∉ ids l2 := by
  obtain ⟨l1, l2, hsplit⟩ := List.append_of_mem h
  subst hsplit
  simp only [ids, List.map_append, List.map_cons] at hnd
  have h1 := List.nodup_append.1 hnd
  have h2 := List.nodup_cons.1 h1.2.1
  refine ⟨l1, l2, rfl, ?_, h2.1⟩
  intro hp
  exact h1.2.2 hp (List.mem_cons_self _ _)

theorem levelsAt_split {p : Nat} (q : OrderPointers) {pre : Levels} (post : Levels)
    (h : p ∉ levelKeys pre) : levelsAt (pre ++ (p, q) :: post) p = some q := by
  induction pre with
  | nil => simp [levelsAt]
  | cons lv rest ih =>
    obtain ⟨p2, q2⟩ := lv
    simp only [levelKeys, List.map_cons, List.mem_cons, not_or] at h
    have hne : ¬ p2 = p := fun hx => h.1 hx.symm
    have := ih h.2
    simp [levelsAt, hne, this]

theorem levelsErase_split {p : Nat} (q : OrderPointers) {pre : Levels} (post : Levels)
    (h : p ∉ levelKeys pre) : levelsErase (pre ++ (p, q) :: post) p = pre ++ post := by
  induction pre with
  | nil => simp [levelsErase]
  | cons lv rest ih =>
    obtain ⟨p2, q2⟩ := lv
    simp only [levelKeys, List.map_cons, List.mem_cons, not_or] at h
    have hne : ¬ p2 = p := fun hx => h.1 hx.symm
    have := ih h.2
    simp [levelsErase, hne, this]

theorem levelsSet_split {p : Nat} (q q2 : OrderPointers) {pre : Levels} (post : Levels)
    (h : p ∉ levelKeys pre) :
    levelsSet (pre ++ (p, q) :: post) p q2 = pre ++ (p, q2) :: post := by
  induction pre with
  | nil => simp [levelsSet]
  | cons lv rest ih =>
    obtain ⟨p3, q3⟩ := lv
    simp only [levelKeys, List.map_cons, List.mem_cons, not_or] at h
    have hne : ¬ p3 = p := fun hx => h.1 hx.symm
    have := ih h.2
    simp [levelsSet, hne, this]

theorem queueErase_split {o : Order} {l1 : OrderPointers} (l2 : OrderPointers)
    (h : o.orderId_ ∉ ids l1) : queueErase (l1 ++ o :: l2) o.orderId_ = some (l1 ++ l2) := by
  induction l1 with
  | nil => simp [queueErase]
  | cons a rest ih =>
    simp only [ids, List.map_cons, List.mem_cons, not_or] at h
    have hne : ¬ a.orderId_ = o.orderId_ := fun hx => h.1 hx.symm
    have := ih h.2
    simp [queueErase, hne, this]

/-- A side after the cancellation of an order resting in the level `(p, l1 ++ o :: l2)`. -/
theorem cancelInLevels_split {p : Nat} {o : Order} {pre : Levels} (post : Levels)
    {l1 : OrderPointers} (l2 : OrderPointers)
    (hp : p ∉ levelKeys pre) (ho : o.orderId_ ∉ ids l1) :
    cancelInLevels (pre ++ (p, l1 ++ o :: l2) :: post) p o.orderId_ =
      .ok (pre ++ (if l1 ++ l2 = [] then [] else [(p, l1 ++ l2)]) ++ post) := by
  simp only [cancelInLevels, levelsAt_split _ _ hp, queueErase_split _ ho]
  by_cases h : l1 ++ l2 = []
  · simp [h, levelsErase_split _ _ hp]
  · have h2 : (l1 ++ l2).isEmpty = false := by
      cases hq : l1 ++ l2 with
      | nil => exact absurd hq h
      | cons _ _ => rfl
    simp only [h2, h, if_false, Bool.false_eq_true, levelsSet_split _ _ _ hp]
    simp

theorem sorted_keys_nodup_gt {levels : Levels}
    (h : (levelKeys levels).Pairwise (fun x y => x > y)) : (levelKeys levels).Nodup :=
  h.imp (fun hxy => Nat.ne_of_gt hxy)

theorem sorted_keys_nodup_lt {levels : Levels}
    (h : (levelKeys levels).Pairwise (fun x y => x < y)) : (levelKeys levels).Nodup :=
  h.imp (fun hxy => Nat.ne_of_lt hxy)

/-- Where an order resting on a side is found. -/
theorem resting_split (side : Side) {levels : Levels} {o : Order}
    (hkeys : (levelKeys levels).Nodup) (hok : LevelsOk side levels)
    (hnd : (ids (flat levels)).Nodup) (ho : o ∈ flat levels) :
    o.side_ = side ∧ ∃ pre post l1 l2, levels = pre ++ (o.price_, l1 ++ o :: l2) :: post ∧
      o.price_ ∉ levelKeys pre ∧ o.price_ ∉ levelKeys post ∧
      o.orderId_ ∉ ids l1 ∧ o.orderId_ ∉ ids l2 := by
  obtain ⟨lv, hlv, hmem⟩ := mem_flat.1 ho
  obtain ⟨p, q⟩ := lv
  have hhome := (hok (p, q) hlv).2 o hmem
  simp only at hhome hmem
  obtain ⟨pre, post, hsplit, hp1, hp2⟩ := levels_split_of_mem hkeys hlv
  have hqnd : (ids q).Nodup := by
    rw [hsplit, flat_append, flat_cons, ids_append, ids_append] at hnd
    exact (List.nodup_append.1 (List.nodup_append.1 hnd).2.1).1
  obtain ⟨l1, l2, hq, h1, h2⟩ := queue_split_of_mem hqnd hmem
  refine ⟨hhome.1, pre, post, l1, l2, ?_, ?_, ?_, h1, h2⟩
  · rw [hsplit, hq, hhome.2]
  · rw [hhome.2]; exact hp1
  · rw [hhome.2]; exact hp2

/-! ## The invariant -/

theorem uncrossed_iff (b : Orderbook) :
    Uncrossed b ↔ ∀ bp ∈ (levelKeys b.bids_).head?, ∀ ap ∈ (levelKeys b.asks_).head?, bp < ap := by
  obtain ⟨bids, asks, orders, nxt⟩ := b
  cases bids with
  | nil => simp [Uncrossed, levelKeys]
  | cons bl br =>
    cases asks with
    | nil => simp [Uncrossed, levelKeys]
    | cons al ar =>
      obtain ⟨bp, bq⟩ := bl
      obtain ⟨ap, aq⟩ := al
      simp [Uncrossed, levelKeys]

theorem Inv_empty : Inv Orderbook.empty where
  bids_sorted := by simp [Orderbook.empty, levelKeys]
  asks_sorted := by simp [Orderbook.empty, levelKeys]
  bids_ok := by intro lv h; simp [Orderbook.empty] at h
  asks_ok := by intro lv h; simp [Orderbook.empty] at h
  uncrossed := by simp [Uncrossed, Orderbook.empty]
  indexed := by
    refine ⟨?_, ?_, ?_, ?_⟩ <;> simp [Orderbook.empty, flat, ids]

/-- The invariant does not look at the identifier counter. -/
theorem Inv_next {b : Orderbook} (n : Nat) (h : Inv b) : Inv { b with next_order_id_ := n } :=
  ⟨h.bids_sorted, h.asks_sorted, h.bids_ok, h.asks_ok, h.uncrossed, h.indexed⟩

theorem AddOrderInternal_known (b : Orderbook) (o : Order)
    (h : indexFind b.orders_ o.orderId_ ≠ none) : AddOrderInternal b o = .ok (b, []) := by
  have : (indexFind b.orders_ o.orderId_).isSome = true := Option.isSome_iff_ne_none.2 h
  simp [AddOrderInternal, this]

theorem AddOrderInternal_killed (b : Orderbook) (o : Order)
    (h1 : o.orderType_ = OrderType.FillAndKill) (h2 : CanMatch b o.side_ o.price_ = false) :
    AddOrderInternal b o = .ok (b, []) := by
  unfold AddOrderInternal
  split
  · rfl
  · simp [h1, h2]

/-- The bids after the insertion step of `AddOrderInternal`. -/
theorem bidsWith_facts (b : Orderbook) (o : Order) (h : Inv b) :
    (levelKeys (bidsWith b o)).Pairwise (fun x y => x > y) ∧ LevelsOk Side.Buy (bidsWith b o) := by
  unfold bidsWith
  split
  · rename_i hs
    refine ⟨bids_pushBack_sorted o _ h.bids_sorted, ?_⟩
    have := levelsPushBack_ok greater o b.bids_ (by rw [hs]; exact h.bids_ok)
    rwa [hs] at this
  · exact ⟨h.bids_sorted, h.bids_ok⟩

/-- The asks after the insertion step of `AddOrderInternal`. -/
theorem asksWith_facts (b : Orderbook) (o : Order) (h : Inv b) :
    (levelKeys (asksWith b o)).Pairwise (fun x y => x < y) ∧ LevelsOk Side.Sell (asksWith b o) := by
  unfold asksWith
  split
  · exact ⟨h.asks_sorted, h.asks_ok⟩
  · rename_i hs
    have hs2 : o.side_ = Side.Sell := by
      cases hside : o.side_ with
      | Buy => exact absurd hside hs
      | Sell => rfl
    refine ⟨asks_pushBack_sorted o _ h.asks_sorted, ?_⟩
    have := levelsPushBack_ok less o b.asks_ (by rw [hs2]; exact h.asks_ok)
    rwa [hs2] at this

theorem flat_with_perm (b : Orderbook) (o : Order) :
    (flat (bidsWith b o) ++ flat (asksWith b o)).Perm (o :: (flat b.bids_ ++ flat b.asks_)) := by
  unfold bidsWith asksWith
  split
  · have := (flat_pushBack_perm greater o b.bids_).append_right (flat b.asks_)
    simpa using this
  · have := (flat_pushBack_perm less o b.asks_).append_left (flat b.bids_)
    exact this.trans List.perm_middle

theorem indexed_with (b : Orderbook) (o : Order) (h : Inv b)
    (hnew : indexFind b.orders_ o.orderId_ = none) :
    Indexed (flat (bidsWith b o) ++ flat (asksWith b o))
      (indexInsert b.orders_ o.orderId_ ⟨o.side_, o.price_⟩) :=
  (Indexed.insert o h.indexed hnew).perm (flat_with_perm b o).symm

/-- An order that passes both guards of `AddOrderInternal` is inserted and matched: the call
returns the trades of the sweep and a book that satisfies the invariant. -/
theorem AddOrderInternal_inserted (b : Orderbook) (o : Order) (h : Inv b)
    (hnew : indexFind b.orders_ o.orderId_ = none)
    (hgo : ¬ (o.orderType_ = OrderType.FillAndKill ∧ CanMatch b o.side_ o.price_ = false)) :
    ∃ b2, AddOrderInternal b o = .ok (b2, (sweepOf b o).events.map Pairing.toTrade) ∧
      flat b2.bids_ = (sweepOf b o).xs ∧ flat b2.asks_ = (sweepOf b o).ys ∧
      b2.orders_ = (sweepOf b o).idx ∧ b2.next_order_id_ = b.next_order_id_ ∧ Inv b2 := by
  obtain ⟨hbs, hbok⟩ := bidsWith_facts b o h
  obtain ⟨has, haok⟩ := asksWith_facts b o h
  obtain ⟨b2, h1, h2, h3, h4, h5, h6, h7, h8, h9, h10⟩ :=
    matchLoop_sweep ((bidsWith b o).length + (asksWith b o).length) (bidsWith b o) (asksWith b o)
      (indexInsert b.orders_ o.orderId_ ⟨o.side_, o.price_⟩) b.next_order_id_ [] hbok haok
      (le_refl _)
  refine ⟨b2, ?_, h2, h3, h4, h5, ?_⟩
  · have hsome : (indexFind b.orders_ o.orderId_).isSome = false := by simp [hnew]
    unfold AddOrderInternal
    simp only [hsome, Bool.false_eq_true, if_false, hgo]
    rw [← List.nil_append (List.map Pairing.toTrade (sweepOf b o).events)]
    rw [sweepOf, ← h1]
    unfold MatchOrders bidsWith asksWith
    by_cases hs : o.side_ = Side.Buy <;> simp [hs]
  · refine ⟨hbs.sublist h6.sublist, has.sublist h7.sublist, h8, h9, h10, ?_⟩
    rw [h2, h3, h4]
    exact sweep_indexed crossing _ _ _ (indexed_with b o h hnew)

/-- The side with the level `(p, l1 ++ o :: l2)` after `o` was unlinked from it. -/
theorem cancelled_side (side : Side) (p : Nat) (o : Order) (pre post : Levels)
    (l1 l2 : OrderPointers) (hok : LevelsOk side (pre ++ (p, l1 ++ o :: l2) :: post)) :
    LevelsOk side (pre ++ (if l1 ++ l2 = [] then [] else [(p, l1 ++ l2)]) ++ post) ∧
    (levelKeys (pre ++ (if l1 ++ l2 = [] then [] else [(p, l1 ++ l2)]) ++ post)).Sublist
      (levelKeys (pre ++ (p, l1 ++ o :: l2) :: post)) ∧
    flat (pre ++ (if l1 ++ l2 = [] then [] else [(p, l1 ++ l2)]) ++ post)
      = flat pre ++ (l1 ++ l2) ++ flat post := by
  have hpre : ∀ lv ∈ pre, lv ∈ pre ++ (p, l1 ++ o :: l2) :: post := fun lv h => by simp [h]
  have hpost : ∀ lv ∈ post, lv ∈ pre ++ (p, l1 ++ o :: l2) :: post := fun lv h => by simp [h]
  by_cases h : l1 ++ l2 = []
  · simp only [h, if_true, List.append_nil]
    refine ⟨?_, ?_, by simp [flat_append]⟩
    · intro lv hlv
      rcases List.mem_append.1 hlv with h1 | h1
      · exact hok lv (hpre lv h1)
      · exact hok lv (hpost lv h1)
    · simp only [levelKeys, List.map_append, List.map_cons]
      exact List.Sublist.append (List.Sublist.refl _) (List.sublist_cons_self _ _)
  · simp only [h, if_false]
    refine ⟨?_, ?_, by simp [flat_append, flat]⟩
    · intro lv hlv
      simp only [List.append_assoc, List.mem_append, List.mem_cons, List.mem_singleton,
        List.not_mem_nil, or_false] at hlv
      rcases hlv with h1 | h1 | h1
      · exact hok lv (hpre lv h1)
      · subst h1
        refine ⟨h, ?_⟩
        intro a ha
        have := (hok (p, l1 ++ o :: l2) (by simp)).2 a (by
          simp only [List.mem_append, List.mem_cons] at ha ⊢
          rcases ha with h2 | h2
          · exact Or.inl h2
          · exact Or.inr (Or.inr h2))
        exact this
      · exact hok lv (hpost lv h1)
    · simp [levelKeys]

theorem head_le_of_sublist_gt {l l2 : List Nat} (hs : l.Pairwise (fun x y => x > y))
    (hsub : l2.Sublist l) : ∀ x ∈ l2.head?, ∀ y ∈ l.head?, x ≤ y := by
  intro x hx y hy
  cases l with
  | nil => simp at hy
  | cons a rest =>
    simp only [List.head?_cons, Option.mem_def, Option.some.injEq] at hy
    subst hy
    have hmem : x ∈ a :: rest := hsub.subset (List.mem_of_mem_head? hx)
    rcases List.mem_cons.1 hmem with h | h
    · exact Nat.le_of_eq h
    · exact Nat.le_of_lt ((List.pairwise_cons.1 hs).1 x h)

theorem head_ge_of_sublist_lt {l l2 : List Nat} (hs : l.Pairwise (fun x y => x < y))
    (hsub : l2.Sublist l) : ∀ x ∈ l2.head?, ∀ y ∈ l.head?, y ≤ x := by
  intro x hx y hy
  cases l with
  | nil => simp at hy
  | cons a rest =>
    simp only [List.head?_cons, Option.mem_def, Option.some.injEq] at hy
    subst hy
    have hmem : x ∈ a :: rest := hsub.subset (List.mem_of_mem_head? hx)
    rcases List.mem_cons.1 hmem with h | h
    · exact Nat.le_of_eq h.symm
    · exact Nat.le_of_lt ((List.pairwise_cons.1 hs).1 x h)

/-- The order an index entry stands for. -/
theorem indexed_find {os : List Order} {idx : OrderIndex} {id : Nat} {e : OrderEntry}
    (h : Indexed os idx) (hf : indexFind idx id = some e) :
    ∃ o ∈ os, o.orderId_ = id ∧ e = ⟨o.side_, o.price_⟩ := by
  have hk := h.key_rests (id, e) (indexFind_mem hf)
  obtain ⟨o, ho, hid⟩ := mem_ids.1 hk
  refine ⟨o, ho, hid, ?_⟩
  have := h.entry_of o ho
  rw [hid, hf] at this
  exact Option.some.inj this

/-- Removing a resting order together with its key. -/
theorem Indexed.remove {l1 l2 : List Order} {o : Order} {idx : OrderIndex}
    (h : Indexed (l1 ++ o :: l2) idx) : Indexed (l1 ++ l2) (indexErase idx o.orderId_) :=
  Indexed.pop (h.perm List.perm_middle)

/-- `CancelOrder` of an indexed identifier on a book satisfying the invariant: the order is
found in the level of its price on its side and unlinked; the result satisfies the invariant. -/
theorem CancelOrder_indexed (b : Orderbook) (id : Nat) (e : OrderEntry) (h : Inv b)
    (hf : indexFind b.orders_ id = some e) :
    ∃ o pre post l1 l2, o.orderId_ = id ∧ o.orderId_ ∉ ids l1 ∧ o.orderId_ ∉ ids l2 ∧
      ((o.side_ = Side.Buy ∧ b.bids_ = pre ++ (o.price_, l1 ++ o :: l2) :: post ∧
          CancelOrder b id = .ok { b with
            orders_ := indexErase b.orders_ id,
            bids_ := pre ++ (if l1 ++ l2 = [] then [] else [(o.price_, l1 ++ l2)]) ++ post }) ∨
       (o.side_ = Side.Sell ∧ b.asks_ = pre ++ (o.price_, l1 ++ o :: l2) :: post ∧
          CancelOrder b id = .ok { b with
            orders_ := indexErase b.orders_ id,
            asks_ := pre ++ (if l1 ++ l2 = [] then [] else [(o.price_, l1 ++ l2)]) ++ post })) := by
  obtain ⟨o, ho, hid, he⟩ := indexed_find h.indexed hf
  have hnd := h.indexed.ids_nodup
  rw [ids_append] at hnd
  have hnd2 := List.nodup_append.1 hnd
  rcases List.mem_append.1 ho with hb | ha
  · obtain ⟨hside, pre, post, l1, l2, hsplit, hp1, _, h1, h2⟩ :=
      resting_split Side.Buy (sorted_keys_nodup_gt h.bids_sorted) h.bids_ok hnd2.1 hb
    refine ⟨o, pre, post, l1, l2, hid, h1, h2, Or.inl ⟨hside, hsplit, ?_⟩⟩
    have hc := cancelInLevels_split post l2 hp1 h1
    rw [← hsplit, hid] at hc
    simp [CancelOrder, hf, he, hside, hc]
  · obtain ⟨hside, pre, post, l1, l2, hsplit, hp1, _, h1, h2⟩ :=
      resting_split Side.Sell (sorted_keys_nodup_lt h.asks_sorted) h.asks_ok hnd2.2.1 ha
    refine ⟨o, pre, post, l1, l2, hid, h1, h2, Or.inr ⟨hside, hsplit, ?_⟩⟩
    have hc := cancelInLevels_split post l2 hp1 h1
    rw [← hsplit, hid] at hc
    simp [CancelOrder, hf, he, hside, hc]

theorem CancelOrder_unknown (b : Orderbook) (id : Nat) (hf : indexFind b.orders_ id = none) :
    CancelOrder b id = .ok b := by
  simp [CancelOrder, hf]

/-- `CancelOrder` never throws on a book satisfying the invariant, and keeps the invariant. -/
theorem CancelOrder_inv (b : Orderbook) (id : Nat) (h : Inv b) :
    ∃ b2, CancelOrder b id = .ok b2 ∧ Inv b2 := by
  cases hf : indexFind b.orders_ id with
  | none => exact ⟨b, CancelOrder_unknown b id hf, h⟩
  | some e =>
    obtain ⟨o, pre, post, l1, l2, hid, h1, h2, hcase⟩ := CancelOrder_indexed b id e h hf
    rcases hcase with ⟨hside, hsplit, hc⟩ | ⟨hside, hsplit, hc⟩
    · refine ⟨_, hc, ?_⟩
      have hok := h.bids_ok
      rw [hsplit] at hok
      obtain ⟨c1, c2, c3⟩ := cancelled_side Side.Buy o.price_ o pre post l1 l2 hok
      rw [← hsplit] at c2
      refine ⟨h.bids_sorted.sublist c2, h.asks_sorted, c1, h.asks_ok, ?_, ?_⟩
      · rw [uncrossed_iff]
        intro bp hbp ap hap
        have hb0 := (uncrossed_iff b).1 h.uncrossed
        cases hh : (levelKeys b.bids_).head? with
        | none =>
          have : levelKeys b.bids_ = [] := List.head?_eq_none_iff.1 hh
          rw [this] at c2
          have := List.eq_nil_of_sublist_nil c2
          simp only at hbp
          rw [this] at hbp
          simp at hbp
        | some bp0 =>
          have hle := head_le_of_sublist_gt h.bids_sorted c2 bp hbp bp0 hh
          have := hb0 bp0 hh ap hap
          omega
      · have hi := h.indexed
        rw [hsplit, flat_append, flat_cons] at hi
        simp only [c3]
        rw [← hid]
        have : (flat pre ++ (l1 ++ o :: l2 ++ flat post) ++ flat b.asks_)
            = (flat pre ++ l1) ++ o :: (l2 ++ flat post ++ flat b.asks_) := by simp
        rw [this] at hi
        have := hi.remove
        simpa using this
    · refine ⟨_, hc, ?_⟩
      have hok := h.asks_ok
      rw [hsplit] at hok
      obtain ⟨c1, c2, c3⟩ := cancelled_side Side.Sell o.price_ o pre post l1 l2 hok
      rw [← hsplit] at c2
      refine ⟨h.bids_sorted, h.asks_sorted.sublist c2, h.bids_ok, c1, ?_, ?_⟩
      · rw [uncrossed_iff]
        intro bp hbp ap hap
        have hb0 := (uncrossed_iff b).1 h.uncrossed
        cases hh : (levelKeys b.asks_).head? with
        | none =>
          have : levelKeys b.asks_ = [] := List.head?_eq_none_iff.1 hh
          rw [this] at c2
          have := List.eq_nil_of_sublist_nil c2
          simp only at hap
          rw [this] at hap
          simp at hap
        | some ap0 =>
          have hle := head_ge_of_sublist_lt h.asks_sorted c2 ap hap ap0 hh
          have := hb0 bp hbp ap0 hh
          omega
      · have hi := h.indexed
        rw [hsplit, flat_append, flat_cons] at hi
        simp only [c3]
        rw [← hid]
        have : (flat b.bids_ ++ (flat pre ++ (l1 ++ o :: l2 ++ flat post)))
            = (flat b.bids_ ++ flat pre ++ l1) ++ o :: (l2 ++ flat post) := by simp
        rw [this] at hi
        have := hi.remove
        simpa using this

/-- `AddOrderInternal` never throws on a book satisfying the invariant, and keeps it. -/
theorem AddOrderInternal_inv (b : Orderbook) (o : Order) (h : Inv b) :
    ∃ b2 ts, AddOrderInternal b o = .ok (b2, ts) ∧ Inv b2 := by
  by_cases hnew : indexFind b.orders_ o.orderId_ = none
  · by_cases hgo : o.orderType_ = OrderType.FillAndKill ∧ CanMatch b o.side_ o.price_ = false
    · exact ⟨b, [], AddOrderInternal_killed b o hgo.1 hgo.2, h⟩
    · obtain ⟨b2, h1, _, _, _, _, h6⟩ := AddOrderInternal_inserted b o h hnew hgo
      exact ⟨b2, _, h1, h6⟩
  · exact ⟨b, [], AddOrderInternal_known b o hnew, h⟩

/-- `AddOrder` never throws on a book satisfying the invariant, and keeps it. -/
theorem AddOrder_inv (b : Orderbook) (orderType : OrderType) (side : Side) (price quantity : Nat)
    (user_id : String) (token : Token) (h : Inv b) :
    ∃ b2 ts, AddOrder b orderType side price quantity user_id token = .ok (b2, ts) ∧ Inv b2 :=
  AddOrderInternal_inv _ _ (Inv_next _ h)

/-- Every reachable book satisfies the invariant. -/
theorem Reachable.inv {b : Orderbook} (h : Reachable b) : Inv b := by
  induction h with
  | empty => exact Inv_empty
  | add b b2 orderType side price quantity user_id token trades _ _ _ hcall ih =>
    obtain ⟨b3, ts, h1, h2⟩ := AddOrder_inv b orderType side price quantity user_id token ih
    rw [h1] at hcall
    simp only [Except.ok.injEq, Prod.mk.injEq] at hcall
    rw [← hcall.1]
    exact h2
  | cancel b b2 orderId _ _ hcall ih =>
    obtain ⟨b3, h1, h2⟩ := CancelOrder_inv b orderId ih
    rw [h1] at hcall
    simp only [Except.ok.injEq] at hcall
    rw [← hcall]
    exact h2

/-! ## What the sweep does to quantities and identifiers -/

theorem totalRemaining_cons (o : Order) (os : List Order) :
    totalRemaining (o :: os) = o.remainingQuantity_ + totalRemaining os := by
  simp [totalRemaining]

theorem totalRemaining_append (l1 l2 : List Order) :
    totalRemaining (l1 ++ l2) = totalRemaining l1 + totalRemaining l2 := by
  simp [totalRemaining]

theorem totalRemaining_residue (o : Order) (q : Nat) (rest : List Order)
    (h : q ≤ o.remainingQuantity_) :
    totalRemaining (residue o q rest) + q = o.remainingQuantity_ + totalRemaining rest := by
  unfold residue
  split
  · rename_i hf
    simp only [Order.IsFilled, fillBy, beq_iff_eq] at hf
    omega
  · rw [totalRemaining_cons]
    simp only [fillBy]
    omega

/-- Every pairing takes its quantity from both sequences. -/
theorem sweep_conserve (cross : Nat → Nat → Bool) (xs ys : List Order) :
    ∀ idx, totalRemaining (sweep cross xs ys idx).xs
        + ((sweep cross xs ys idx).events.map Pairing.quantity).sum = totalRemaining xs ∧
      totalRemaining (sweep cross xs ys idx).ys
        + ((sweep cross xs ys idx).events.map Pairing.quantity).sum = totalRemaining ys := by
  induction xs, ys using pairing_induction with
  | nil_left ys => intro idx; simp [sweep_nil_left]
  | nil_right xs => intro idx; simp [sweep_nil_right]
  | step x xt y yt ih =>
    intro idx
    by_cases hc : cross x.price_ y.price_ = true
    · rw [sweep_step cross x y xt yt idx hc _ rfl _ rfl]
      obtain ⟨h1, h2⟩ := ih (dropFilled y (min x.remainingQuantity_ y.remainingQuantity_)
        (dropFilled x (min x.remainingQuantity_ y.remainingQuantity_) idx))
      have hx := totalRemaining_residue x (min x.remainingQuantity_ y.remainingQuantity_) xt
        (Nat.min_le_left _ _)
      have hy := totalRemaining_residue y (min x.remainingQuantity_ y.remainingQuantity_) yt
        (Nat.min_le_right _ _)
      simp only [List.map_cons, List.sum_cons, totalRemaining_cons]
      constructor <;> omega
    · rw [sweep_stop cross x y xt yt idx (by simpa using hc)]
      simp

theorem ids_residue_sublist (o : Order) (q : Nat) (rest : List Order) :
    (ids (residue o q rest)).Sublist (ids (o :: rest)) := by
  unfold residue
  split
  · exact List.sublist_cons_self _ _
  · exact List.Sublist.refl _

/-- The identifiers left in both sequences are among the identifiers they started with, in the
same order. -/
theorem sweep_ids_sublist (cross : Nat → Nat → Bool) (xs ys : List Order) :
    ∀ idx, (ids (sweep cross xs ys idx).xs).Sublist (ids xs) ∧
      (ids (sweep cross xs ys idx).ys).Sublist (ids ys) := by
  induction xs, ys using pairing_induction with
  | nil_left ys => intro idx; simp [sweep_nil_left]
  | nil_right xs => intro idx; simp [sweep_nil_right]
  | step x xt y yt ih =>
    intro idx
    by_cases hc : cross x.price_ y.price_ = true
    · rw [sweep_step cross x y xt yt idx hc _ rfl _ rfl]
      obtain ⟨h1, h2⟩ := ih (dropFilled y (min x.remainingQuantity_ y.remainingQuantity_)
        (dropFilled x (min x.remainingQuantity_ y.remainingQuantity_) idx))
      exact ⟨h1.trans (ids_residue_sublist _ _ _), h2.trans (ids_residue_sublist _ _ _)⟩
    · rw [sweep_stop cross x y xt yt idx (by simpa using hc)]
      exact ⟨List.Sublist.refl _, List.Sublist.refl _⟩

/-- Both orders of a pairing come from the two sequences, possibly partly filled. -/
theorem sweep_events_from (cross : Nat → Nat → Bool) (xs ys : List Order) :
    ∀ idx, ∀ e ∈ (sweep cross xs ys idx).events,
      (∃ o ∈ xs, ∃ n, e.first = fillBy o n) ∧ (∃ o ∈ ys, ∃ n, e.second = fillBy o n) := by
  induction xs, ys using pairing_induction with
  | nil_left ys => intro idx e h; simp [sweep_nil_left] at h
  | nil_right xs => intro idx e h; simp [sweep_nil_right] at h
  | step x xt y yt ih =>
    intro idx e h
    by_cases hc : cross x.price_ y.price_ = true
    · rw [sweep_step cross x y xt yt idx hc _ rfl _ rfl] at h
      rcases List.mem_cons.1 h with h1 | h1
      · subst h1
        exact ⟨⟨x, by simp, 0, (fillBy_zero x).symm⟩, ⟨y, by simp, 0, (fillBy_zero y).symm⟩⟩
      · obtain ⟨⟨o1, ho1, n1, hn1⟩, ⟨o2, ho2, n2, hn2⟩⟩ := ih _ e h1
        constructor
        · rcases mem_residue ho1 with h2 | h2
          · exact ⟨x, by simp, _, by rw [hn1, h2, fillBy_fillBy]⟩
          · exact ⟨o1, by simp [h2], n1, hn1⟩
        · rcases mem_residue ho2 with h2 | h2
          · exact ⟨y, by simp, _, by rw [hn2, h2, fillBy_fillBy]⟩
          · exact ⟨o2, by simp [h2], n2, hn2⟩
    · rw [sweep_stop cross x y xt yt idx (by simpa using hc)] at h
      simp at h

theorem sweep_events_ids (cross : Nat → Nat → Bool) (xs ys : List Order) (idx : OrderIndex) :
    ∀ e ∈ (sweep cross xs ys idx).events,
      e.first.orderId_ ∈ ids xs ∧ e.second.orderId_ ∈ ids ys := by
  intro e he
  obtain ⟨⟨o1, ho1, n1, hn1⟩, ⟨o2, ho2, n2, hn2⟩⟩ := sweep_events_from cross xs ys idx e he
  exact ⟨mem_ids.2 ⟨o1, ho1, by rw [hn1]; rfl⟩, mem_ids.2 ⟨o2, ho2, by rw [hn2]; rfl⟩⟩

theorem dropFilled_comm (x y : Order) (q : Nat) (idx : OrderIndex) :
    dropFilled x q (dropFilled y q idx) = dropFilled y q (dropFilled x q idx) := by
  unfold dropFilled
  split <;> split <;> first | rfl | exact indexErase_comm _ _ _

/-- The sweep seen from the other side. -/
theorem sweep_swap (cross : Nat → Nat → Bool) (xs ys : List Order) :
    ∀ idx, sweep (fun p q => cross q p) ys xs idx =
      ⟨(sweep cross xs ys idx).ys, (sweep cross xs ys idx).xs, (sweep cross xs ys idx).idx,
        (sweep cross xs ys idx).events.map Pairing.swap⟩ := by
  induction xs, ys using pairing_induction with
  | nil_left ys => intro idx; simp [sweep_nil_left, sweep_nil_right]
  | nil_right xs => intro idx; simp [sweep_nil_left, sweep_nil_right]
  | step x xt y yt ih =>
    intro idx
    by_cases hc : cross x.price_ y.price_ = true
    · rw [sweep_step cross x y xt yt idx hc _ rfl _ rfl,
        sweep_step (fun p q => cross q p) y x yt xt idx hc _ (Nat.min_comm _ _) _ rfl,
        dropFilled_comm, ih]
      simp [Pairing.swap]
    · rw [sweep_stop cross x y xt yt idx (by simpa using hc),
        sweep_stop (fun p q => cross q p) y x yt xt idx (by simpa using hc)]
      simp

theorem firstQuantity_cons (id : Nat) (e : Pairing) (es : List Pairing) :
    firstQuantity id (e :: es) =
      (if e.first.orderId_ = id then e.quantity else 0) + firstQuantity id es := by
  unfold firstQuantity
  by_cases h : e.first.orderId_ = id <;> simp [List.filter_cons, h]

theorem firstQuantity_zero {id : Nat} {es : List Pairing}
    (h : ∀ e ∈ es, e.first.orderId_ ≠ id) : firstQuantity id es = 0 := by
  induction es with
  | nil => rfl
  | cons e rest ih =>
    rw [firstQuantity_cons, ih (fun e2 he2 => h e2 (List.mem_cons_of_mem _ he2))]
    simp [h e (List.mem_cons_self _ _)]

theorem secondQuantity_swap (id : Nat) (es : List Pairing) :
    firstQuantity id (es.map Pairing.swap) = secondQuantity id es := by
  induction es with
  | nil => rfl
  | cons e rest ih =>
    unfold firstQuantity secondQuantity at ih ⊢
    by_cases h : e.second.orderId_ = id <;> simp [List.filter_cons, h, Pairing.swap] at ih ⊢ <;>
      omega

/-! ## Priority in the sweep -/

theorem pair_sublist_cons {ia ic k : Nat} {l : List Nat} (hnd : (k :: l).Nodup)
    (h : [ia, ic].Sublist (k :: l)) :
    k ≠ ic ∧ ((k = ia ∧ ic ∈ l ∧ ia ∉ l) ∨ (k ≠ ia ∧ [ia, ic].Sublist l)) := by
  obtain ⟨hk, hl⟩ := List.nodup_cons.1 hnd
  cases h with
  | cons _ h2 =>
    have hc : ic ∈ l := h2.subset (by simp)
    have ha : ia ∈ l := h2.subset (by simp)
    refine ⟨fun hx => hk (hx ▸ hc), Or.inr ⟨fun hx => hk (hx ▸ ha), h2⟩⟩
  | cons₂ _ h2 =>
    have hc : ic ∈ l := h2.subset (by simp)
    exact ⟨fun hx => hk (hx ▸ hc), Or.inl ⟨rfl, hc, hk⟩⟩

theorem ids_residue_cases (o : Order) (q : Nat) (rest : List Order) :
    (residue o q rest = rest ∧ q ≥ o.remainingQuantity_) ∨
      (residue o q rest = fillBy o q :: rest) := by
  unfold residue
  split
  · rename_i hf
    simp only [Order.IsFilled, fillBy, beq_iff_eq] at hf
    exact Or.inl ⟨rfl, by omega⟩
  · exact Or.inr rfl

/-- Priority on the first sequence: when `ia` stands before `ic`, no pairing of `ia` follows a
pairing of `ic`; and once `ic` is paired, `ia` is gone and was paired for all its remaining
quantity. -/
theorem sweep_priority (cross : Nat → Nat → Bool) (ia ic : Nat) (xs ys : List Order) :
    ∀ idx, (ids xs).Nodup → [ia, ic].Sublist (ids xs) →
      (sweep cross xs ys idx).events.Pairwise
        (fun e1 e2 => e1.first.orderId_ = ic → e2.first.orderId_ ≠ ia) ∧
      ((∃ e ∈ (sweep cross xs ys idx).events, e.first.orderId_ = ic) →
        ia ∉ ids (sweep cross xs ys idx).xs ∧
        ∀ a ∈ xs, a.orderId_ = ia →
          firstQuantity ia (sweep cross xs ys idx).events = a.remainingQuantity_) := by
  induction xs, ys using pairing_induction with
  | nil_left ys => intro idx _ h; simp [ids] at h
  | nil_right xs => intro idx _ _; simp [sweep_nil_right]
  | step x xt y yt ih =>
    intro idx hnd hsub
    by_cases hc : cross x.price_ y.price_ = true
    · rw [sweep_step cross x y xt yt idx hc _ rfl _ rfl]
      simp only
      obtain ⟨hxc, hcase⟩ := pair_sublist_cons hnd hsub
      have hnd2 := List.nodup_cons.1 hnd
      -- facts about the remaining sweep
      have hev := sweep_events_ids cross
        (residue x (min x.remainingQuantity_ y.remainingQuantity_) xt)
        (residue y (min x.remainingQuantity_ y.remainingQuantity_) yt)
        (dropFilled y (min x.remainingQuantity_ y.remainingQuantity_)
          (dropFilled x (min x.remainingQuantity_ y.remainingQuantity_) idx))
      have hsl := (sweep_ids_sublist cross
        (residue x (min x.remainingQuantity_ y.remainingQuantity_) xt)
        (residue y (min x.remainingQuantity_ y.remainingQuantity_) yt)
        (dropFilled y (min x.remainingQuantity_ y.remainingQuantity_)
          (dropFilled x (min x.remainingQuantity_ y.remainingQuantity_) idx))).1
      rcases ids_residue_cases x (min x.remainingQuantity_ y.remainingQuantity_) xt with
        ⟨hres, hq⟩ | hres
      · -- the head is filled and popped
        rw [hres] at hev hsl ⊢
        rw [hres] at ih
        rcases hcase with ⟨hxa, hcl, hal⟩ | ⟨hxa, hsub2⟩
        · -- the head is `ia`: it never appears again
          have hno : ∀ e ∈ (sweep cross xt
              (residue y (min x.remainingQuantity_ y.remainingQuantity_) yt)
              (dropFilled y (min x.remainingQuantity_ y.remainingQuantity_)
                (dropFilled x (min x.remainingQuantity_ y.remainingQuantity_) idx))).events,
              e.first.orderId_ ≠ ia := fun e he hx => hal (hx ▸ (hev e he).1)
          refine ⟨List.pairwise_cons.2 ⟨fun e he _ => hno e he,
            List.pairwise_of_forall_mem_list (fun e1 _ e2 he2 _ => hno e2 he2)⟩, ?_⟩
          intro _
          refine ⟨fun hmem => hal (hsl.subset hmem), ?_⟩
          intro a ha haid
          rcases List.mem_cons.1 ha with h1 | h1
          · subst h1
            rw [firstQuantity_cons, firstQuantity_zero hno]
            have := Nat.min_le_left a.remainingQuantity_ y.remainingQuantity_
            simp only [haid, if_true]
            omega
          · exact absurd (mem_ids.2 ⟨a, h1, haid⟩) hal
        · -- the head is another order
          obtain ⟨ih1, ih2⟩ := ih _ hnd2.2 hsub2
          refine ⟨List.pairwise_cons.2 ⟨fun e _ hx => absurd hx hxc, ih1⟩, ?_⟩
          rintro ⟨e, he, hec⟩
          rcases List.mem_cons.1 he with h1 | h1
          · subst h1; exact absurd hec hxc
          · obtain ⟨h3, h4⟩ := ih2 ⟨e, h1, hec⟩
            refine ⟨h3, ?_⟩
            intro a ha haid
            rcases List.mem_cons.1 ha with h5 | h5
            · subst h5; exact absurd haid hxa
            · rw [firstQuantity_cons, h4 a h5 haid]
              simp [hxa]
      · -- the head stays, partly filled
        rw [hres] at hev hsl ⊢
        rw [hres] at ih
        have hids : ids (fillBy x (min x.remainingQuantity_ y.remainingQuantity_) :: xt)
            = ids (x :: xt) := rfl
        obtain ⟨ih1, ih2⟩ := ih _ (by rw [hids]; exact hnd) (by rw [hids]; exact hsub)
        refine ⟨List.pairwise_cons.2 ⟨fun e _ hx => absurd hx hxc, ih1⟩, ?_⟩
        rintro ⟨e, he, hec⟩
        rcases List.mem_cons.1 he with h1 | h1
        · subst h1; exact absurd hec hxc
        · obtain ⟨h3, h4⟩ := ih2 ⟨e, h1, hec⟩
          refine ⟨h3, ?_⟩
          intro a ha haid
          rcases List.mem_cons.1 ha with h5 | h5
          · subst h5
            have := h4 (fillBy a (min a.remainingQuantity_ y.remainingQuantity_)) (by simp) haid
            rw [firstQuantity_cons, this]
            have hle := Nat.min_le_left a.remainingQuantity_ y.remainingQuantity_
            simp only [haid, if_true, fillBy]
            omega
          · have hxa : x.orderId_ ≠ ia := by
              intro hx
              apply hnd2.1
              rw [hx]
              exact mem_ids.2 ⟨a, h5, haid⟩
            rw [firstQuantity_cons, h4 a (List.mem_cons_of_mem _ h5) haid]
            simp [hxa]
    · rw [sweep_stop cross x y xt yt idx (by simpa using hc)]
      simp

/-! ## Sample books -/

theorem bookOneBid_reachable : Reachable bookOneBid :=
  Reachable.add Orderbook.empty bookOneBid OrderType.GoodTillCancel Side.Buy 10 5 "A" Token.YES []
    Reachable.empty (by decide) (by decide) rfl

theorem bookOneAsk_reachable : Reachable bookOneAsk :=
  Reachable.add Orderbook.empty bookOneAsk OrderType.GoodTillCancel Side.Sell 10 3 "A" Token.YES []
    Reachable.empty (by decide) (by decide) rfl

theorem bookTwoBids_reachable : Reachable bookTwoBids :=
  Reachable.add _ bookTwoBids OrderType.GoodTillCancel Side.Buy 10 3 "B" Token.YES []
    (Reachable.add Orderbook.empty _ OrderType.GoodTillCancel Side.Buy 10 2 "A" Token.YES []
      Reachable.empty (by decide) (by decide) rfl)
    (by decide) (by decide) rfl

theorem bookBidLadder_reachable : Reachable bookBidLadder :=
  Reachable.add _ bookBidLadder OrderType.GoodTillCancel Side.Buy 11 3 "B" Token.YES []
    (Reachable.add Orderbook.empty _ OrderType.GoodTillCancel Side.Buy 10 2 "A" Token.YES []
      Reachable.empty (by decide) (by decide) rfl)
    (by decide) (by decide) rfl

theorem bookWideBids_reachable : Reachable bookWideBids :=
  Reachable.add _ bookWideBids OrderType.GoodTillCancel Side.Buy 10 1 "B" Token.YES []
    (Reachable.add Orderbook.empty _ OrderType.GoodTillCancel Side.Buy 10 4294967295 "A"
      Token.YES [] Reachable.empty (by decide) (by decide) rfl)
    (by decide) (by decide) rfl

/-- The overload of `AddOrder` without a token is `AddOrder` with the token `YES`. -/
theorem AddOrderDefault_eq (b : Orderbook) (orderType : OrderType) (side : Side)
    (price quantity : Nat) (user_id : String) :
    AddOrderDefault b orderType side price quantity user_id =
      AddOrder b orderType side price quantity user_id Token.YES := rfl

/-! ## Consequences of the invariant -/

/-- In a book satisfying the invariant every bid price is below every ask price. -/
theorem Inv.all_below {b : Orderbook} (h : Inv b) :
    ∀ bp ∈ levelKeys b.bids_, ∀ ap ∈ levelKeys b.asks_, bp < ap := by
  intro bp hbp ap hap
  have hu := (uncrossed_iff b).1 h.uncrossed
  cases hb : levelKeys b.bids_ with
  | nil => rw [hb] at hbp; simp at hbp
  | cons bp0 brest =>
    cases ha : levelKeys b.asks_ with
    | nil => rw [ha] at hap; simp at hap
    | cons ap0 arest =>
      have h0 : bp0 < ap0 := hu bp0 (by simp [hb]) ap0 (by simp [ha])
      have h1 : bp ≤ bp0 := by
        have hs := h.bids_sorted
        rw [hb] at hs hbp
        rcases List.mem_cons.1 hbp with hx | hx
        · exact Nat.le_of_eq hx
        · exact Nat.le_of_lt ((List.pairwise_cons.1 hs).1 bp hx)
      have h2 : ap0 ≤ ap := by
        have hs := h.asks_sorted
        rw [ha] at hs hap
        rcases List.mem_cons.1 hap with hx | hx
        · exact Nat.le_of_eq hx.symm
        · exact Nat.le_of_lt ((List.pairwise_cons.1 hs).1 ap hx)
      omega

/-! ## C1 -/

/-- C1. From every reachable book, every `AddOrder` call and every `CancelOrder` call returns
normally and leaves a book that is not crossed: a side has no level or the best bid is strictly
below the best ask; indeed every bid price is strictly below every ask price. -/
theorem no_persistent_crossed_book (b : Orderbook) (h : Reachable b) :
    (∀ (orderType : OrderType) (side : Side) (price quantity : Nat) (user_id : String)
        (token : Token), ∃ b2 ts,
        AddOrder b orderType side price quantity user_id token = .ok (b2, ts) ∧ Uncrossed b2 ∧
          ∀ bp ∈ levelKeys b2.bids_, ∀ ap ∈ levelKeys b2.asks_, bp < ap) ∧
    (∀ orderId : Nat, ∃ b2, CancelOrder b orderId = .ok b2 ∧ Uncrossed b2 ∧
          ∀ bp ∈ levelKeys b2.bids_, ∀ ap ∈ levelKeys b2.asks_, bp < ap) := by
  constructor
  · intro orderType side price quantity user_id token
    obtain ⟨b2, ts, h1, h2⟩ := AddOrder_inv b orderType side price quantity user_id token h.inv
    exact ⟨b2, ts, h1, h2.uncrossed, h2.all_below⟩
  · intro orderId
    obtain ⟨b2, h1, h2⟩ := CancelOrder_inv b orderId h.inv
    exact ⟨b2, h1, h2.uncrossed, h2.all_below⟩

theorem no_persistent_crossed_book_witness :
    Reachable bookOneBid ∧
    (∃ b2 ts, AddOrder bookOneBid OrderType.GoodTillCancel Side.Sell 9 7 "B" Token.NO
        = .ok (b2, ts) ∧ Uncrossed b2 ∧
        ∀ bp ∈ levelKeys b2.bids_, ∀ ap ∈ levelKeys b2.asks_, bp < ap) ∧
    (∃ b2, CancelOrder bookOneBid 1 = .ok b2 ∧ Uncrossed b2 ∧
        ∀ bp ∈ levelKeys b2.bids_, ∀ ap ∈ levelKeys b2.asks_, bp < ap) :=
  ⟨bookOneBid_reachable,
    (no_persistent_crossed_book bookOneBid bookOneBid_reachable).1
      OrderType.GoodTillCancel Side.Sell 9 7 "B" Token.NO,
    (no_persistent_crossed_book bookOneBid bookOneBid_reachable).2 1⟩

/-! ## C2 -/

/-- C2 (evaluation at the failing input). On the reachable book holding one resting sell of 3 at
price 10, a `FillAndKill` buy of 5 at price 10 trades 3 and then stays in the book: its
remainder of 2 rests in the bid level 10 and its identifier 2 is in the index. -/
theorem fillAndKill_remainder_rests :
    Reachable bookOneAsk ∧
    AddOrder bookOneAsk OrderType.FillAndKill Side.Buy 10 5 "B" Token.YES =
      .ok ({ bids_ := [(10, [{ Order.new OrderType.FillAndKill 2 Side.Buy 10 5 "B" Token.YES with
                                remainingQuantity_ := 2 }])],
             asks_ := [],
             orders_ := [(2, ⟨Side.Buy, 10⟩)],
             next_order_id_ := 3 },
           [{ bidTrade_ := ⟨2, 10, 3⟩, askTrade_ := ⟨1, 10, 3⟩ }]) :=
  ⟨bookOneAsk_reachable, rfl⟩

/-! ## C3 -/

theorem CanMatch_next (b : Orderbook) (n : Nat) (side : Side) (price : Nat) :
    CanMatch { b with next_order_id_ := n } side price = CanMatch b side price := rfl

/-- C3. A `FillAndKill` submission whose price does not cross returns no trade and leaves both
sides and the index as they were; hence `Size` and `GetOrderInfos` are unchanged. -/
theorem fillAndKill_without_cross_is_noop (b : Orderbook) (side : Side) (price quantity : Nat)
    (user_id : String) (token : Token) (hno : CanMatch b side price = false) :
    ∃ b2, AddOrder b OrderType.FillAndKill side price quantity user_id token = .ok (b2, []) ∧
      b2.bids_ = b.bids_ ∧ b2.asks_ = b.asks_ ∧ b2.orders_ = b.orders_ ∧
      Size b2 = Size b ∧ GetOrderInfos b2 = GetOrderInfos b := by
  refine ⟨{ b with next_order_id_ := (b.next_order_id_ + 1) % UINT32_MOD }, ?_, rfl, rfl, rfl,
    rfl, rfl⟩
  unfold AddOrder
  by_cases hk : indexFind b.orders_ b.next_order_id_ = none
  · exact AddOrderInternal_killed _ _ rfl (by rw [← hno]; rfl)
  · exact AddOrderInternal_known _ _ hk

theorem fillAndKill_without_cross_is_noop_witness :
    CanMatch bookOneBid Side.Sell 11 = false ∧
    ∃ b2, AddOrder bookOneBid OrderType.FillAndKill Side.Sell 11 4 "B" Token.YES = .ok (b2, []) ∧
      b2.bids_ = bookOneBid.bids_ ∧ b2.asks_ = bookOneBid.asks_ ∧
      b2.orders_ = bookOneBid.orders_ ∧
      Size b2 = Size bookOneBid ∧ GetOrderInfos b2 = GetOrderInfos bookOneBid :=
  ⟨by decide, fillAndKill_without_cross_is_noop bookOneBid Side.Sell 11 4 "B" Token.YES
    (by decide)⟩

/-! ## C4 -/

theorem totalRemaining_perm {l1 l2 : List Order} (h : l1.Perm l2) :
    totalRemaining l1 = totalRemaining l2 :=
  (h.map Order.remainingQuantity_).sum_eq

theorem total_bidsWith (b : Orderbook) (o : Order) :
    totalRemaining (flat (bidsWith b o)) =
      sideTotal b.bids_ + (if o.side_ = Side.Buy then o.remainingQuantity_ else 0) := by
  unfold bidsWith sideTotal
  split
  · rw [totalRemaining_perm (flat_pushBack_perm greater o b.bids_), totalRemaining_cons]
    omega
  · rfl

theorem total_asksWith (b : Orderbook) (o : Order) :
    totalRemaining (flat (asksWith b o)) =
      sideTotal b.asks_ + (if o.side_ = Side.Sell then o.remainingQuantity_ else 0) := by
  unfold asksWith sideTotal
  cases hs : o.side_ with
  | Buy => simp
  | Sell =>
    simp only [reduceCtorEq, if_false, if_true]
    rw [totalRemaining_perm (flat_pushBack_perm less o b.asks_), totalRemaining_cons]
    omega

theorem tradedQuantity_events (es : List Pairing) :
    tradedQuantity (es.map Pairing.toTrade) = (es.map Pairing.quantity).sum := by
  simp [tradedQuantity, Pairing.toTrade, Function.comp_def]

theorem toTrade_quantities (es : List Pairing) :
    ∀ t ∈ es.map Pairing.toTrade, t.bidTrade_.quantity_ = t.askTrade_.quantity_ := by
  intro t ht
  obtain ⟨e, _, he⟩ := List.mem_map.1 ht
  rw [← he]
  rfl

/-- What `AddOrder` returns, by the two guards of `AddOrderInternal`. -/
theorem AddOrder_cases (b : Orderbook) (orderType : OrderType) (side : Side)
    (price quantity : Nat) (user_id : String) (token : Token) (h : Inv b) :
    (¬ b.Accepts orderType side price ∧
      AddOrder b orderType side price quantity user_id token =
        .ok ({ b with next_order_id_ := (b.next_order_id_ + 1) % UINT32_MOD }, [])) ∨
    (b.Accepts orderType side price ∧ ∃ b2,
      AddOrder b orderType side price quantity user_id token =
        .ok (b2, (sweepOf b (Order.new orderType b.next_order_id_ side price quantity user_id
          token)).events.map Pairing.toTrade) ∧
      flat b2.bids_ = (sweepOf b (Order.new orderType b.next_order_id_ side price quantity
        user_id token)).xs ∧
      flat b2.asks_ = (sweepOf b (Order.new orderType b.next_order_id_ side price quantity
        user_id token)).ys ∧
      b2.orders_ = (sweepOf b (Order.new orderType b.next_order_id_ side price quantity
        user_id token)).idx ∧
      b2.next_order_id_ = (b.next_order_id_ + 1) % UINT32_MOD ∧ Inv b2) := by
  by_cases hacc : b.Accepts orderType side price
  · right
    refine ⟨hacc, ?_⟩
    exact AddOrderInternal_inserted { b with next_order_id_ := (b.next_order_id_ + 1) % UINT32_MOD }
      (Order.new orderType b.next_order_id_ side price quantity user_id token)
      (Inv_next _ h) hacc.1 hacc.2
  · left
    refine ⟨hacc, ?_⟩
    unfold Orderbook.Accepts at hacc
    by_cases hk : indexFind b.orders_ b.next_order_id_ = none
    · have hfk : orderType = OrderType.FillAndKill ∧ CanMatch b side price = false := by
        by_contra hx
        exact hacc ⟨hk, hx⟩
      exact AddOrderInternal_killed _ _ hfk.1 hfk.2
    · exact AddOrderInternal_known _ _ hk

/-- C4. Conservation of quantity. `AddOrder` on a reachable book returns normally; the two fill
records of every returned trade carry the same quantity; and on each side the total remaining
quantity after the call is the total before the call, plus the quantity of the incoming order on
its own side when it passes the guards and is inserted, minus the sum of the quantities of the
returned trades (which never exceeds what it is subtracted from). -/
theorem conservation_of_quantity (b : Orderbook) (h : Reachable b) (orderType : OrderType)
    (side : Side) (price quantity : Nat) (user_id : String) (token : Token) :
    ∃ b2 ts, AddOrder b orderType side price quantity user_id token = .ok (b2, ts) ∧
      (∀ t ∈ ts, t.bidTrade_.quantity_ = t.askTrade_.quantity_) ∧
      tradedQuantity ts ≤ sideTotal b.bids_ +
        (if b.Accepts orderType side price ∧ side = Side.Buy then quantity else 0) ∧
      sideTotal b2.bids_ = sideTotal b.bids_ +
        (if b.Accepts orderType side price ∧ side = Side.Buy then quantity else 0)
        - tradedQuantity ts ∧
      tradedQuantity ts ≤ sideTotal b.asks_ +
        (if b.Accepts orderType side price ∧ side = Side.Sell then quantity else 0) ∧
      sideTotal b2.asks_ = sideTotal b.asks_ +
        (if b.Accepts orderType side price ∧ side = Side.Sell then quantity else 0)
        - tradedQuantity ts := by
  rcases AddOrder_cases b orderType side price quantity user_id token h.inv with
    ⟨hacc, hcall⟩ | ⟨hacc, b2, hcall, hx, hy, _, _, _⟩
  · refine ⟨_, [], hcall, by simp, ?_⟩
    simp [tradedQuantity, hacc]
  · refine ⟨b2, _, hcall, toTrade_quantities _, ?_⟩
    have hc := sweep_conserve crossing
      (flat (bidsWith b (Order.new orderType b.next_order_id_ side price quantity user_id token)))
      (flat (asksWith b (Order.new orderType b.next_order_id_ side price quantity user_id token)))
      (indexInsert b.orders_ b.next_order_id_ ⟨side, price⟩)
    have hb := total_bidsWith b
      (Order.new orderType b.next_order_id_ side price quantity user_id token)
    have ha := total_asksWith b
      (Order.new orderType b.next_order_id_ side price quantity user_id token)
    rw [tradedQuantity_events]
    simp only [sideTotal, hx, hy, sweepOf, hacc, true_and] at hc hb ha ⊢
    simp only [Order.new] at hc hb ha ⊢
    omega

theorem conservation_of_quantity_witness :
    Reachable bookOneBid ∧
    ∃ b2 ts, AddOrder bookOneBid OrderType.GoodTillCancel Side.Sell 9 7 "B" Token.YES
        = .ok (b2, ts) ∧
      (∀ t ∈ ts, t.bidTrade_.quantity_ = t.askTrade_.quantity_) ∧
      tradedQuantity ts ≤ sideTotal bookOneBid.bids_ +
        (if bookOneBid.Accepts OrderType.GoodTillCancel Side.Sell 9 ∧ Side.Sell = Side.Buy
          then 7 else 0) ∧
      sideTotal b2.bids_ = sideTotal bookOneBid.bids_ +
        (if bookOneBid.Accepts OrderType.GoodTillCancel Side.Sell 9 ∧ Side.Sell = Side.Buy
          then 7 else 0) - tradedQuantity ts ∧
      tradedQuantity ts ≤ sideTotal bookOneBid.asks_ +
        (if bookOneBid.Accepts OrderType.GoodTillCancel Side.Sell 9 ∧ Side.Sell = Side.Sell
          then 7 else 0) ∧
      sideTotal b2.asks_ = sideTotal bookOneBid.asks_ +
        (if bookOneBid.Accepts OrderType.GoodTillCancel Side.Sell 9 ∧ Side.Sell = Side.Sell
          then 7 else 0) - tradedQuantity ts :=
  ⟨bookOneBid_reachable, conservation_of_quantity bookOneBid bookOneBid_reachable
    OrderType.GoodTillCancel Side.Sell 9 7 "B" Token.YES⟩

/-! ## Priority, stated on the identifiers named by the pairings -/

theorem nodup_ids_disjoint {xs ys : List Order} (h : (ids (xs ++ ys)).Nodup) {id : Nat}
    (hx : id ∈ ids xs) (hy : id ∈ ids ys) : False := by
  rw [ids_append] at h
  exact (List.nodup_append.1 h).2.2 hx hy

theorem pair_sublist_ne {ia ic : Nat} {l : List Nat} (hnd : l.Nodup)
    (h : [ia, ic].Sublist l) : ia ≠ ic := by
  have := hnd.sublist h
  simp only [List.nodup_cons, List.mem_singleton] at this
  exact this.1

theorem namedQuantity_eq_first {id : Nat} {es : List Pairing}
    (h : ∀ e ∈ es, e.second.orderId_ ≠ id) : namedQuantity id es = firstQuantity id es := by
  unfold namedQuantity firstQuantity
  rw [List.filter_congr]
  intro e he
  simp [Pairing.names, h e he]

theorem Pairing.names_swap (e : Pairing) (id : Nat) : e.swap.names id ↔ e.names id := by
  simp [Pairing.names, Pairing.swap, or_comm]

theorem namedQuantity_swap (id : Nat) (es : List Pairing) :
    namedQuantity id (es.map Pairing.swap) = namedQuantity id es := by
  induction es with
  | nil => rfl
  | cons e rest ih =>
    unfold namedQuantity at ih ⊢
    by_cases h : e.names id
    · have h2 : e.swap.names id := (Pairing.names_swap e id).2 h
      simp only [List.map_cons, List.filter_cons, h, h2, decide_True, if_true, List.sum_cons, ih]
      rfl
    · have h2 : ¬ e.swap.names id := fun hx => h ((Pairing.names_swap e id).1 hx)
      simp only [List.map_cons, List.filter_cons, h, h2, decide_False, Bool.false_eq_true,
        if_false, ih]

/-- Priority on the first sequence of a sweep. -/
theorem sweep_priority_first (cross : Nat → Nat → Bool) (ia ic : Nat) (xs ys : List Order)
    (idx : OrderIndex) (hnd : (ids (xs ++ ys)).Nodup) (hsub : [ia, ic].Sublist (ids xs))
    (hnamed : ∃ e ∈ (sweep cross xs ys idx).events, e.names ic) :
    ia ∉ ids (sweep cross xs ys idx).xs ∧ ia ∉ ids (sweep cross xs ys idx).ys ∧
    (∀ a ∈ xs ++ ys, a.orderId_ = ia →
      namedQuantity ia (sweep cross xs ys idx).events = a.remainingQuantity_) ∧
    (∀ (i j : Nat) (ei ej : Pairing), (sweep cross xs ys idx).events[i]? = some ei →
      (sweep cross xs ys idx).events[j]? = some ej → ei.names ia → ej.names ic → i < j) := by
  have hndx : (ids xs).Nodup := by
    rw [ids_append] at hnd; exact (List.nodup_append.1 hnd).1
  have hia : ia ∈ ids xs := hsub.subset (by simp)
  have hic : ic ∈ ids xs := hsub.subset (by simp)
  have hne : ia ≠ ic := pair_sublist_ne hndx hsub
  have hev := sweep_events_ids cross xs ys idx
  have hsl := sweep_ids_sublist cross xs ys idx
  -- on these two identifiers, being named is being the first order of the pairing
  have hfirst : ∀ id ∈ ids xs, ∀ e ∈ (sweep cross xs ys idx).events,
      e.second.orderId_ ≠ id :=
    fun id hid e he hx => nodup_ids_disjoint hnd hid (hx ▸ (hev e he).2)
  have hnames : ∀ id ∈ ids xs, ∀ e ∈ (sweep cross xs ys idx).events,
      e.names id → e.first.orderId_ = id := by
    intro id hid e he hn
    rcases hn with h | h
    · exact h
    · exact absurd h (hfirst id hid e he)
  obtain ⟨hp1, hp2⟩ := sweep_priority cross ia ic xs ys idx hndx hsub
  obtain ⟨e0, he0, hn0⟩ := hnamed
  obtain ⟨h1, h2⟩ := hp2 ⟨e0, he0, hnames ic hic e0 he0 hn0⟩
  refine ⟨h1, fun hmem => nodup_ids_disjoint hnd hia (hsl.2.subset hmem), ?_, ?_⟩
  · intro a ha haid
    rw [namedQuantity_eq_first (hfirst ia hia)]
    rcases List.mem_append.1 ha with hax | hay
    · exact h2 a hax haid
    · exact absurd (mem_ids.2 ⟨a, hay, haid⟩) (fun hx => nodup_ids_disjoint hnd hia hx)
  · intro i j ei ej hi hj hni hnj
    obtain ⟨hil, hie⟩ := List.getElem?_eq_some.1 hi
    obtain ⟨hjl, hje⟩ := List.getElem?_eq_some.1 hj
    have hfi := hnames ia hia ei (List.getElem?_mem hi) hni
    have hfj := hnames ic hic ej (List.getElem?_mem hj) hnj
    rcases Nat.lt_trichotomy i j with hlt | heq | hgt
    · exact hlt
    · subst heq
      rw [hie] at hje
      subst hje
      exact absurd (hfi.symm.trans hfj) hne
    · have := (List.pairwise_iff_getElem.1 hp1) j i hjl hil hgt
      rw [hie, hje] at this
      exact absurd hfi (this hfj)

/-- Priority on the second sequence of a sweep. -/
theorem sweep_priority_second (cross : Nat → Nat → Bool) (ia ic : Nat) (xs ys : List Order)
    (idx : OrderIndex) (hnd : (ids (xs ++ ys)).Nodup) (hsub : [ia, ic].Sublist (ids ys))
    (hnamed : ∃ e ∈ (sweep cross xs ys idx).events, e.names ic) :
    ia ∉ ids (sweep cross xs ys idx).xs ∧ ia ∉ ids (sweep cross xs ys idx).ys ∧
    (∀ a ∈ xs ++ ys, a.orderId_ = ia →
      namedQuantity ia (sweep cross xs ys idx).events = a.remainingQuantity_) ∧
    (∀ (i j : Nat) (ei ej : Pairing), (sweep cross xs ys idx).events[i]? = some ei →
      (sweep cross xs ys idx).events[j]? = some ej → ei.names ia → ej.names ic → i < j) := by
  have hsw := sweep_swap cross xs ys idx
  have hnd2 : (ids (ys ++ xs)).Nodup := by
    rw [ids_append] at hnd ⊢
    exact (List.perm_append_comm.nodup_iff).1 hnd
  have hnamed2 : ∃ e ∈ (sweep (fun p q => cross q p) ys xs idx).events, e.names ic := by
    obtain ⟨e, he, hn⟩ := hnamed
    rw [hsw]
    exact ⟨e.swap, List.mem_map.2 ⟨e, he, rfl⟩, (Pairing.names_swap e ic).2 hn⟩
  obtain ⟨h1, h2, h3, h4⟩ :=
    sweep_priority_first (fun p q => cross q p) ia ic ys xs idx hnd2 hsub hnamed2
  rw [hsw] at h1 h2 h3 h4
  simp only at h1 h2 h3 h4
  refine ⟨h2, h1, ?_, ?_⟩
  · intro a ha haid
    rw [← namedQuantity_swap]
    exact h3 a (by
      rcases List.mem_append.1 ha with h | h
      · exact List.mem_append.2 (Or.inr h)
      · exact List.mem_append.2 (Or.inl h)) haid
  · intro i j ei ej hi hj hni hnj
    refine h4 i j ei.swap ej.swap ?_ ?_ ((Pairing.names_swap ei ia).2 hni)
      ((Pairing.names_swap ej ic).2 hnj)
    · rw [List.getElem?_map, hi]; rfl
    · rw [List.getElem?_map, hj]; rfl

/-! ## Priority in `AddOrder` -/

theorem toTrade_names (e : Pairing) (id : Nat) : e.toTrade.names id ↔ e.names id := Iff.rfl

theorem filledQuantity_events (id : Nat) (es : List Pairing) :
    filledQuantity id (es.map Pairing.toTrade) = namedQuantity id es := by
  induction es with
  | nil => rfl
  | cons e rest ih =>
    unfold filledQuantity namedQuantity tradedQuantity at ih ⊢
    by_cases h : e.names id
    · have h2 : e.toTrade.names id := h
      simp only [List.map_cons, List.filter_cons, h, h2, decide_True, if_true, List.sum_cons, ih]
      rfl
    · have h2 : ¬ e.toTrade.names id := h
      simp only [List.map_cons, List.filter_cons, h, h2, decide_False, Bool.false_eq_true,
        if_false, ih]

theorem flat_bidsWith_sublist (b : Orderbook) (o : Order) :
    (flat b.bids_).Sublist (flat (bidsWith b o)) := by
  unfold bidsWith
  split
  · exact flat_pushBack_sublist _ _ _
  · exact List.Sublist.refl _

theorem flat_asksWith_sublist (b : Orderbook) (o : Order) :
    (flat b.asks_).Sublist (flat (asksWith b o)) := by
  unfold asksWith
  split
  · exact List.Sublist.refl _
  · exact flat_pushBack_sublist _ _ _

/-- Priority of resting orders in one `AddOrder` call: when `ia` stands before `ic` in the
matching order of a side and a returned trade names `ic`, then `ia` has left the index and the
levels, the trades naming `ia` add up to its remaining quantity, and each of them precedes every
trade naming `ic`. -/
theorem AddOrder_priority (b : Orderbook) (h : Inv b) (orderType : OrderType) (side : Side)
    (price quantity : Nat) (user_id : String) (token : Token) (ia ic : Nat)
    (hpos : [ia, ic].Sublist (ids (flat b.bids_)) ∨ [ia, ic].Sublist (ids (flat b.asks_))) :
    ∃ b2 ts, AddOrder b orderType side price quantity user_id token = .ok (b2, ts) ∧
      ((∃ t ∈ ts, t.names ic) →
        indexFind b2.orders_ ia = none ∧ ia ∉ ids (flat b2.bids_ ++ flat b2.asks_) ∧
        (∀ a ∈ flat b.bids_ ++ flat b.asks_, a.orderId_ = ia →
          filledQuantity ia ts = a.remainingQuantity_) ∧
        (∀ (i j : Nat) (ti tj : Trade), ts[i]? = some ti → ts[j]? = some tj →
          ti.names ia → tj.names ic → i < j)) := by
  rcases AddOrder_cases b orderType side price quantity user_id token h with
    ⟨_, hcall⟩ | ⟨hacc, b2, hcall, hx, hy, hidx, _, hinv2⟩
  · exact ⟨_, [], hcall, by simp⟩
  · refine ⟨b2, _, hcall, ?_⟩
    intro hnamed
    have hind := indexed_with b
      (Order.new orderType b.next_order_id_ side price quantity user_id token) h hacc.1
    have hnamed2 : ∃ e ∈ (sweepOf b (Order.new orderType b.next_order_id_ side price quantity
        user_id token)).events, e.names ic := by
      obtain ⟨t, ht, hn⟩ := hnamed
      obtain ⟨e, he, het⟩ := List.mem_map.1 ht
      exact ⟨e, he, by rw [← het] at hn; exact hn⟩
    have hcore : ia ∉ ids (sweepOf b (Order.new orderType b.next_order_id_ side price quantity
          user_id token)).xs ∧
        ia ∉ ids (sweepOf b (Order.new orderType b.next_order_id_ side price quantity
          user_id token)).ys ∧
        (∀ a ∈ flat (bidsWith b (Order.new orderType b.next_order_id_ side price quantity
            user_id token)) ++ flat (asksWith b (Order.new orderType b.next_order_id_ side price
            quantity user_id token)), a.orderId_ = ia →
          namedQuantity ia (sweepOf b (Order.new orderType b.next_order_id_ side price quantity
            user_id token)).events = a.remainingQuantity_) ∧
        (∀ (i j : Nat) (ei ej : Pairing),
          (sweepOf b (Order.new orderType b.next_order_id_ side price quantity
            user_id token)).events[i]? = some ei →
          (sweepOf b (Order.new orderType b.next_order_id_ side price quantity
            user_id token)).events[j]? = some ej → ei.names ia → ej.names ic → i < j) := by
      rcases hpos with hb | ha
      · exact sweep_priority_first crossing ia ic _ _ _ hind.ids_nodup
          (hb.trans ((flat_bidsWith_sublist b _).map Order.orderId_)) hnamed2
      · exact sweep_priority_second crossing ia ic _ _ _ hind.ids_nodup
          (ha.trans ((flat_asksWith_sublist b _).map Order.orderId_)) hnamed2
    obtain ⟨c1, c2, c3, c4⟩ := hcore
    have hnot : ia ∉ ids (flat b2.bids_ ++ flat b2.asks_) := by
      rw [hx, hy, ids_append]
      intro hmem
      rcases List.mem_append.1 hmem with hm | hm
      · exact c1 hm
      · exact c2 hm
    refine ⟨?_, hnot, ?_, ?_⟩
    · rw [indexFind_eq_none]
      intro hk
      obtain ⟨kv, hkv, hkey⟩ := List.mem_map.1 hk
      exact hnot (hkey ▸ hinv2.indexed.key_rests kv hkv)
    · intro a ha haid
      rw [filledQuantity_events]
      exact c3 a ((flat_with_perm b _).mem_iff.2 (List.mem_cons_of_mem _ ha)) haid
    · intro i j ti tj hi hj hni hnj
      rw [List.getElem?_map] at hi hj
      cases hei : (sweepOf b (Order.new orderType b.next_order_id_ side price quantity
          user_id token)).events[i]? with
      | none => rw [hei] at hi; simp at hi
      | some ei =>
        cases hej : (sweepOf b (Order.new orderType b.next_order_id_ side price quantity
            user_id token)).events[j]? with
        | none => rw [hej] at hj; simp at hj
        | some ej =>
          rw [hei] at hi
          rw [hej] at hj
          simp only [Option.map_some', Option.some.injEq] at hi hj
          subst hi hj
          exact c4 i j ei ej hei hej hni hnj

theorem level_sublist_flat {lv : Level} {levels : Levels} (h : lv ∈ levels) :
    lv.2.Sublist (flat levels) := by
  induction levels with
  | nil => simp at h
  | cons l rest ih =>
    obtain ⟨p, q⟩ := l
    rcases List.mem_cons.1 h with h1 | h1
    · subst h1
      exact List.sublist_append_left _ _
    · exact (ih h1).trans (List.sublist_append_right _ _)

/-- Orders of a level with a better price stand before the orders of a level with a worse one. -/
theorem better_level_first (r : Nat → Nat → Prop) (hasym : ∀ x y, r x y → r y x → False)
    {levels : Levels} (hs : (levelKeys levels).Pairwise r) {px pr : Nat} {qx qr : OrderPointers}
    {x c : Order} (hx : (px, qx) ∈ levels) (hr : (pr, qr) ∈ levels) (hbetter : r px pr)
    (hxq : x ∈ qx) (hcq : c ∈ qr) : [x, c].Sublist (flat levels) := by
  induction levels with
  | nil => simp at hx
  | cons l rest ih =>
    obtain ⟨p, q⟩ := l
    simp only [levelKeys, List.map_cons, List.pairwise_cons] at hs
    have hkey : ∀ {k : Nat} {qq : OrderPointers}, (k, qq) ∈ rest → r p k :=
      fun hm => hs.1 _ (List.mem_map.2 ⟨_, hm, rfl⟩)
    rcases List.mem_cons.1 hx with h1 | h1
    · rcases List.mem_cons.1 hr with h2 | h2
      · simp only [Prod.mk.injEq] at h1 h2
        rw [h1.1, ← h2.1] at hbetter
        exact absurd hbetter (fun hh => hasym _ _ hh hh)
      · simp only [Prod.mk.injEq] at h1
        have hc2 : [c].Sublist (flat rest) :=
          List.singleton_sublist.2 ((level_sublist_flat h2).subset hcq)
        have hx2 : [x].Sublist q := List.singleton_sublist.2 (h1.2 ▸ hxq)
        exact List.Sublist.append hx2 hc2
    · rcases List.mem_cons.1 hr with h2 | h2
      · simp only [Prod.mk.injEq] at h2
        have := hkey h1
        rw [← h2.1] at this
        exact absurd hbetter (fun hh => hasym _ _ this hh)
      · exact (ih hs.2 h1 h2).trans (List.sublist_append_right _ _)

/-! ## C5 -/

/-- C5. FIFO fairness. On a reachable book, let `a` rest ahead of `c` in the same price level of
a side. `AddOrder` returns normally, and if some returned trade names `c`, then `a` has left the
index and every level, the trades naming `a` add up to the whole remaining quantity `a` had
before the call, and every trade naming `a` precedes every trade naming `c`. -/
theorem fifo_fairness (b : Orderbook) (h : Reachable b) (orderType : OrderType) (side : Side)
    (price quantity : Nat) (user_id : String) (token : Token) (p : Nat)
    (l1 l2 l3 : List Order) (a c : Order)
    (hlevel : (p, l1 ++ a :: (l2 ++ c :: l3)) ∈ b.bids_ ∨
      (p, l1 ++ a :: (l2 ++ c :: l3)) ∈ b.asks_) :
    ∃ b2 ts, AddOrder b orderType side price quantity user_id token = .ok (b2, ts) ∧
      ((∃ t ∈ ts, t.names c.orderId_) →
        indexFind b2.orders_ a.orderId_ = none ∧
        a.orderId_ ∉ ids (flat b2.bids_ ++ flat b2.asks_) ∧
        filledQuantity a.orderId_ ts = a.remainingQuantity_ ∧
        (∀ (i j : Nat) (ti tj : Trade), ts[i]? = some ti → ts[j]? = some tj →
          ti.names a.orderId_ → tj.names c.orderId_ → i < j)) := by
  have hq : [a, c].Sublist (l1 ++ a :: (l2 ++ c :: l3)) :=
    (List.Sublist.cons₂ a (List.singleton_sublist.2 (by simp))).trans
      (List.sublist_append_right l1 _)
  have hin : a ∈ l1 ++ a :: (l2 ++ c :: l3) := by simp
  have hpos : [a.orderId_, c.orderId_].Sublist (ids (flat b.bids_)) ∨
      [a.orderId_, c.orderId_].Sublist (ids (flat b.asks_)) := by
    rcases hlevel with hl | hl
    · exact Or.inl ((hq.trans (level_sublist_flat hl)).map Order.orderId_)
    · exact Or.inr ((hq.trans (level_sublist_flat hl)).map Order.orderId_)
  have hmem : a ∈ flat b.bids_ ++ flat b.asks_ := by
    rcases hlevel with hl | hl
    · exact List.mem_append.2 (Or.inl ((level_sublist_flat hl).subset hin))
    · exact List.mem_append.2 (Or.inr ((level_sublist_flat hl).subset hin))
  obtain ⟨b2, ts, hcall, hrest⟩ := AddOrder_priority b h.inv orderType side price quantity
    user_id token a.orderId_ c.orderId_ hpos
  refine ⟨b2, ts, hcall, fun hn => ?_⟩
  obtain ⟨h1, h2, h3, h4⟩ := hrest hn
  exact ⟨h1, h2, h3 a hmem rfl, h4⟩

/-! ## C6 -/

/-- C6. Price priority. On a reachable book, let `r` rest on the side opposite to the incoming
order and let `x` rest on the same side as `r` at a strictly better price (lower for asks,
higher for bids). `AddOrder` returns normally, and if some returned trade names `r`, then `x`
has left the index and every level, the trades naming `x` add up to the whole remaining quantity
`x` had before the call, and every trade naming `x` precedes every trade naming `r`. -/
theorem price_priority (b : Orderbook) (h : Reachable b) (orderType : OrderType) (side : Side)
    (price quantity : Nat) (user_id : String) (token : Token) (pr px : Nat)
    (qr qx : OrderPointers) (r x : Order) (hr : r ∈ qr) (hx : x ∈ qx)
    (hopp : (side = Side.Buy ∧ (pr, qr) ∈ b.asks_ ∧ (px, qx) ∈ b.asks_ ∧ px < pr) ∨
      (side = Side.Sell ∧ (pr, qr) ∈ b.bids_ ∧ (px, qx) ∈ b.bids_ ∧ px > pr)) :
    ∃ b2 ts, AddOrder b orderType side price quantity user_id token = .ok (b2, ts) ∧
      ((∃ t ∈ ts, t.names r.orderId_) →
        indexFind b2.orders_ x.orderId_ = none ∧
        x.orderId_ ∉ ids (flat b2.bids_ ++ flat b2.asks_) ∧
        filledQuantity x.orderId_ ts = x.remainingQuantity_ ∧
        (∀ (i j : Nat) (ti tj : Trade), ts[i]? = some ti → ts[j]? = some tj →
          ti.names x.orderId_ → tj.names r.orderId_ → i < j)) := by
  have hpos : [x.orderId_, r.orderId_].Sublist (ids (flat b.bids_)) ∨
      [x.orderId_, r.orderId_].Sublist (ids (flat b.asks_)) := by
    rcases hopp with ⟨_, h1, h2, h3⟩ | ⟨_, h1, h2, h3⟩
    · exact Or.inr ((better_level_first (fun u v => u < v) (fun u v h4 h5 => by omega)
        h.inv.asks_sorted h2 h1 h3 hx hr).map Order.orderId_)
    · exact Or.inl ((better_level_first (fun u v => u > v) (fun u v h4 h5 => by omega)
        h.inv.bids_sorted h2 h1 h3 hx hr).map Order.orderId_)
  have hmem : x ∈ flat b.bids_ ++ flat b.asks_ := by
    rcases hopp with ⟨_, _, h2, _⟩ | ⟨_, _, h2, _⟩
    · exact List.mem_append.2 (Or.inr ((level_sublist_flat h2).subset hx))
    · exact List.mem_append.2 (Or.inl ((level_sublist_flat h2).subset hx))
  obtain ⟨b2, ts, hcall, hrest⟩ := AddOrder_priority b h.inv orderType side price quantity
    user_id token x.orderId_ r.orderId_ hpos
  refine ⟨b2, ts, hcall, fun hn => ?_⟩
  obtain ⟨h1, h2, h3, h4⟩ := hrest hn
  exact ⟨h1, h2, h3 x hmem rfl, h4⟩

theorem fifo_fairness_witness :
    Reachable bookTwoBids ∧
    ((10, [] ++ Order.new OrderType.GoodTillCancel 1 Side.Buy 10 2 "A" Token.YES ::
        ([] ++ Order.new OrderType.GoodTillCancel 2 Side.Buy 10 3 "B" Token.YES :: []))
      ∈ bookTwoBids.bids_ ∨
     (10, [] ++ Order.new OrderType.GoodTillCancel 1 Side.Buy 10 2 "A" Token.YES ::
        ([] ++ Order.new OrderType.GoodTillCancel 2 Side.Buy 10 3 "B" Token.YES :: []))
      ∈ bookTwoBids.asks_) ∧
    (AddOrder bookTwoBids OrderType.GoodTillCancel Side.Sell 10 4 "C" Token.YES).map Prod.snd =
      .ok [{ bidTrade_ := ⟨1, 10, 2⟩, askTrade_ := ⟨3, 10, 2⟩ },
           { bidTrade_ := ⟨2, 10, 2⟩, askTrade_ := ⟨3, 10, 2⟩ }] ∧
    ∃ b2 ts, AddOrder bookTwoBids OrderType.GoodTillCancel Side.Sell 10 4 "C" Token.YES
        = .ok (b2, ts) ∧
      ((∃ t ∈ ts, t.names 2) →
        indexFind b2.orders_ 1 = none ∧ 1 ∉ ids (flat b2.bids_ ++ flat b2.asks_) ∧
        filledQuantity 1 ts = 2 ∧
        (∀ (i j : Nat) (ti tj : Trade), ts[i]? = some ti → ts[j]? = some tj →
          ti.names 1 → tj.names 2 → i < j)) :=
  ⟨bookTwoBids_reachable, Or.inl (by decide), rfl,
    fifo_fairness bookTwoBids bookTwoBids_reachable OrderType.GoodTillCancel Side.Sell 10 4 "C"
      Token.YES 10 [] [] []
      (Order.new OrderType.GoodTillCancel 1 Side.Buy 10 2 "A" Token.YES)
      (Order.new OrderType.GoodTillCancel 2 Side.Buy 10 3 "B" Token.YES)
      (Or.inl (by decide))⟩

theorem price_priority_witness :
    Reachable bookBidLadder ∧
    (AddOrder bookBidLadder OrderType.GoodTillCancel Side.Sell 10 4 "C" Token.YES).map Prod.snd =
      .ok [{ bidTrade_ := ⟨2, 10, 3⟩, askTrade_ := ⟨3, 10, 3⟩ },
           { bidTrade_ := ⟨1, 10, 1⟩, askTrade_ := ⟨3, 10, 1⟩ }] ∧
    ∃ b2 ts, AddOrder bookBidLadder OrderType.GoodTillCancel Side.Sell 10 4 "C" Token.YES
        = .ok (b2, ts) ∧
      ((∃ t ∈ ts, t.names 1) →
        indexFind b2.orders_ 2 = none ∧ 2 ∉ ids (flat b2.bids_ ++ flat b2.asks_) ∧
        filledQuantity 2 ts = 3 ∧
        (∀ (i j : Nat) (ti tj : Trade), ts[i]? = some ti → ts[j]? = some tj →
          ti.names 2 → tj.names 1 → i < j)) :=
  ⟨bookBidLadder_reachable, rfl,
    price_priority bookBidLadder bookBidLadder_reachable OrderType.GoodTillCancel Side.Sell 10 4
      "C" Token.YES 10 11
      [Order.new OrderType.GoodTillCancel 1 Side.Buy 10 2 "A" Token.YES]
      [Order.new OrderType.GoodTillCancel 2 Side.Buy 11 3 "B" Token.YES]
      (Order.new OrderType.GoodTillCancel 1 Side.Buy 10 2 "A" Token.YES)
      (Order.new OrderType.GoodTillCancel 2 Side.Buy 11 3 "B" Token.YES)
      (by decide) (by decide) (Or.inr ⟨rfl, by decide, by decide, by decide⟩)⟩

/-! ## C7 -/

theorem mem_flat_asksWith {b : Orderbook} {o a : Order} (h : a ∈ flat (asksWith b o)) :
    a ∈ flat b.asks_ ∨ (o.side_ = Side.Sell ∧ a = o) := by
  unfold asksWith at h
  split at h
  · exact Or.inl h
  · rename_i hs
    have hs2 : o.side_ = Side.Sell := by
      cases hside : o.side_ with
      | Buy => exact absurd hside hs
      | Sell => rfl
    rcases List.mem_cons.1 ((flat_pushBack_perm less o b.asks_).mem_iff.1 h) with h1 | h1
    · exact Or.inr ⟨hs2, h1⟩
    · exact Or.inl h1

/-- C7. Execution price. `AddOrder` on a reachable book returns normally, and in every returned
trade both fill records carry the same price, which is the limit price of the ask-side order of
the pairing: a sell order that rested before the call, or the incoming order when it is a sell.
In the scenario of the specification (a sell at 10 for 3 against a resting buy at 10 for 5) the
call returns one trade of quantity 3 at price 10 and leaves the bid with remaining quantity 2 and
`Size` equal to 1. -/
theorem execution_price (b : Orderbook) (h : Reachable b) (orderType : OrderType) (side : Side)
    (price quantity : Nat) (user_id : String) (token : Token) :
    (∃ b2 ts, AddOrder b orderType side price quantity user_id token = .ok (b2, ts) ∧
      ∀ t ∈ ts, t.bidTrade_.price_ = t.askTrade_.price_ ∧
        ((∃ a ∈ flat b.asks_, a.orderId_ = t.askTrade_.orderId_ ∧
            a.price_ = t.askTrade_.price_) ∨
         (side = Side.Sell ∧ t.askTrade_.orderId_ = b.next_order_id_ ∧
            t.askTrade_.price_ = price))) ∧
    (∃ b2, AddOrder bookOneBid OrderType.FillAndKill Side.Sell 10 3 "B" Token.YES =
        .ok (b2, [{ bidTrade_ := ⟨1, 10, 3⟩, askTrade_ := ⟨2, 10, 3⟩ }]) ∧
      b2.bids_ = [(10, [{ Order.new OrderType.GoodTillCancel 1 Side.Buy 10 5 "A" Token.YES with
        remainingQuantity_ := 2 }])] ∧ b2.asks_ = [] ∧ Size b2 = 1) := by
  refine ⟨?_, ⟨_, rfl, rfl, rfl, rfl⟩⟩
  rcases AddOrder_cases b orderType side price quantity user_id token h.inv with
    ⟨_, hcall⟩ | ⟨_, b2, hcall, _, _, _, _, _⟩
  · exact ⟨_, [], hcall, by simp⟩
  · refine ⟨b2, _, hcall, ?_⟩
    intro t ht
    obtain ⟨e, he, het⟩ := List.mem_map.1 ht
    subst het
    refine ⟨rfl, ?_⟩
    obtain ⟨_, ⟨o, ho, n, hn⟩⟩ := sweep_events_from crossing _ _ _ e he
    rcases mem_flat_asksWith ho with h1 | ⟨h1, h2⟩
    · exact Or.inl ⟨o, h1, by simp [Pairing.toTrade, hn, fillBy], by
        simp [Pairing.toTrade, hn, fillBy]⟩
    · subst h2
      exact Or.inr ⟨h1, by simp [Pairing.toTrade, hn, fillBy, Order.new], by
        simp [Pairing.toTrade, hn, fillBy, Order.new]⟩

theorem execution_price_witness :
    Reachable bookOneAsk ∧
    (∃ b2 ts, AddOrder bookOneAsk OrderType.GoodTillCancel Side.Buy 12 2 "B" Token.YES
        = .ok (b2, ts) ∧
      ∀ t ∈ ts, t.bidTrade_.price_ = t.askTrade_.price_ ∧
        ((∃ a ∈ flat bookOneAsk.asks_, a.orderId_ = t.askTrade_.orderId_ ∧
            a.price_ = t.askTrade_.price_) ∨
         (Side.Buy = Side.Sell ∧ t.askTrade_.orderId_ = bookOneAsk.next_order_id_ ∧
            t.askTrade_.price_ = 12))) ∧
    (AddOrder bookOneAsk OrderType.GoodTillCancel Side.Buy 12 2 "B" Token.YES).map Prod.snd =
      .ok [{ bidTrade_ := ⟨2, 10, 2⟩, askTrade_ := ⟨1, 10, 2⟩ }] :=
  ⟨bookOneAsk_reachable,
    (execution_price bookOneAsk bookOneAsk_reachable OrderType.GoodTillCancel Side.Buy 12 2 "B"
      Token.YES).1, rfl⟩

/-! ## C8 -/

theorem Inv.not_resting {b : Orderbook} (h : Inv b) {id : Nat}
    (hf : indexFind b.orders_ id = none) : id ∉ ids (flat b.bids_ ++ flat b.asks_) := by
  intro hmem
  obtain ⟨o, ho, hid⟩ := mem_ids.1 hmem
  have := h.indexed.entry_of o ho
  rw [hid, hf] at this
  exact Option.noConfusion this

/-- C8. On a reachable book, `CancelOrder` of an identifier present in the index returns normally
and removes exactly the order `o` carrying it: the index loses that key and keeps every other
entry, the level `(o.price_, l1 ++ o :: l2)` on the side of `o` becomes `(o.price_, l1 ++ l2)`,
or disappears when `l1 ++ l2` is empty, every other level of that side (`pre`, `post`) and the
opposite side are unchanged, the identifier rests nowhere afterwards, and `Size` decreases by
exactly one. -/
theorem cancel_removes_exactly (b : Orderbook) (h : Reachable b) (orderId : Nat)
    (hk : orderId ∈ b.orders_.map Prod.fst) :
    ∃ b2 o pre post l1 l2, CancelOrder b orderId = .ok b2 ∧ o.orderId_ = orderId ∧
      orderId ∉ ids l1 ∧ orderId ∉ ids l2 ∧
      ((o.side_ = Side.Buy ∧ b.bids_ = pre ++ (o.price_, l1 ++ o :: l2) :: post ∧
          b2.bids_ = pre ++ (if l1 ++ l2 = [] then [] else [(o.price_, l1 ++ l2)]) ++ post ∧
          b2.asks_ = b.asks_) ∨
       (o.side_ = Side.Sell ∧ b.asks_ = pre ++ (o.price_, l1 ++ o :: l2) :: post ∧
          b2.asks_ = pre ++ (if l1 ++ l2 = [] then [] else [(o.price_, l1 ++ l2)]) ++ post ∧
          b2.bids_ = b.bids_)) ∧
      indexFind b2.orders_ orderId = none ∧
      (∀ k, k ≠ orderId → indexFind b2.orders_ k = indexFind b.orders_ k) ∧
      orderId ∉ ids (flat b2.bids_ ++ flat b2.asks_) ∧
      Size b2 + 1 = Size b ∧ b2.next_order_id_ = b.next_order_id_ := by
  have hinv := h.inv
  cases hf : indexFind b.orders_ orderId with
  | none => exact absurd hk (indexFind_eq_none.1 hf)
  | some e =>
    obtain ⟨b2, hc2, hinv2⟩ := CancelOrder_inv b orderId hinv
    obtain ⟨o, pre, post, l1, l2, hid, h1, h2, hcase⟩ := CancelOrder_indexed b orderId e hinv hf
    have hidx : b2.orders_ = indexErase b.orders_ orderId ∧
        b2.next_order_id_ = b.next_order_id_ := by
      rcases hcase with ⟨_, _, hc⟩ | ⟨_, _, hc⟩ <;>
      · rw [hc] at hc2
        simp only [Except.ok.injEq] at hc2
        rw [← hc2]
        exact ⟨rfl, rfl⟩
    have hnone : indexFind b2.orders_ orderId = none := by
      rw [hidx.1]; exact indexFind_erase_self _ _
    refine ⟨b2, o, pre, post, l1, l2, hc2, hid, hid ▸ h1, hid ▸ h2, ?_, hnone, ?_,
      hinv2.not_resting hnone, ?_, hidx.2⟩
    · rcases hcase with ⟨hs, hsplit, hc⟩ | ⟨hs, hsplit, hc⟩
      · rw [hc] at hc2
        simp only [Except.ok.injEq] at hc2
        rw [← hc2]
        exact Or.inl ⟨hs, hsplit, rfl, rfl⟩
      · rw [hc] at hc2
        simp only [Except.ok.injEq] at hc2
        rw [← hc2]
        exact Or.inr ⟨hs, hsplit, rfl, rfl⟩
    · intro k hkne
      rw [hidx.1]
      exact indexFind_erase_ne (Ne.symm hkne)
    · unfold Size
      rw [hidx.1]
      exact indexErase_length_of_mem hinv.indexed.keys_nodup hk

theorem cancel_removes_exactly_witness :
    Reachable bookTwoBids ∧ 1 ∈ bookTwoBids.orders_.map Prod.fst ∧
    CancelOrder bookTwoBids 1 =
      .ok { bids_ := [(10, [Order.new OrderType.GoodTillCancel 2 Side.Buy 10 3 "B" Token.YES])],
            asks_ := [], orders_ := [(2, ⟨Side.Buy, 10⟩)], next_order_id_ := 3 } ∧
    ∃ b2 o pre post l1 l2, CancelOrder bookTwoBids 1 = .ok b2 ∧ o.orderId_ = 1 ∧
      1 ∉ ids l1 ∧ 1 ∉ ids l2 ∧
      ((o.side_ = Side.Buy ∧ bookTwoBids.bids_ = pre ++ (o.price_, l1 ++ o :: l2) :: post ∧
          b2.bids_ = pre ++ (if l1 ++ l2 = [] then [] else [(o.price_, l1 ++ l2)]) ++ post ∧
          b2.asks_ = bookTwoBids.asks_) ∨
       (o.side_ = Side.Sell ∧ bookTwoBids.asks_ = pre ++ (o.price_, l1 ++ o :: l2) :: post ∧
          b2.asks_ = pre ++ (if l1 ++ l2 = [] then [] else [(o.price_, l1 ++ l2)]) ++ post ∧
          b2.bids_ = bookTwoBids.bids_)) ∧
      indexFind b2.orders_ 1 = none ∧
      (∀ k, k ≠ 1 → indexFind b2.orders_ k = indexFind bookTwoBids.orders_ k) ∧
      1 ∉ ids (flat b2.bids_ ++ flat b2.asks_) ∧
      Size b2 + 1 = Size bookTwoBids ∧ b2.next_order_id_ = bookTwoBids.next_order_id_ :=
  ⟨bookTwoBids_reachable, by decide, rfl,
    cancel_removes_exactly bookTwoBids bookTwoBids_reachable 1 (by decide)⟩

/-! ## C9 -/

/-- C9. Idempotent cancellation. On a reachable book `CancelOrder` returns normally, cancelling
the same identifier again returns the very same book, and when the identifier is not in the
index the first call already returns the book unchanged (so `Size` and `GetOrderInfos` are
unchanged). -/
theorem cancel_idempotent (b : Orderbook) (h : Reachable b) (orderId : Nat) :
    ∃ b1, CancelOrder b orderId = .ok b1 ∧ CancelOrder b1 orderId = .ok b1 ∧
      (indexFind b.orders_ orderId = none →
        b1 = b ∧ Size b1 = Size b ∧ GetOrderInfos b1 = GetOrderInfos b) := by
  cases hf : indexFind b.orders_ orderId with
  | none =>
    exact ⟨b, CancelOrder_unknown b orderId hf, CancelOrder_unknown b orderId hf,
      fun _ => ⟨rfl, rfl, rfl⟩⟩
  | some e =>
    obtain ⟨o, pre, post, l1, l2, hid, h1, h2, hcase⟩ :=
      CancelOrder_indexed b orderId e h.inv hf
    rcases hcase with ⟨_, _, hc⟩ | ⟨_, _, hc⟩
    · exact ⟨_, hc, CancelOrder_unknown _ orderId (indexFind_erase_self _ _),
        fun hx => Option.noConfusion hx⟩
    · exact ⟨_, hc, CancelOrder_unknown _ orderId (indexFind_erase_self _ _),
        fun hx => Option.noConfusion hx⟩

theorem cancel_idempotent_witness :
    Reachable bookTwoBids ∧
    ∃ b1, CancelOrder bookTwoBids 2 = .ok b1 ∧ CancelOrder b1 2 = .ok b1 ∧
      (indexFind bookTwoBids.orders_ 2 = none →
        b1 = bookTwoBids ∧ Size b1 = Size bookTwoBids ∧
          GetOrderInfos b1 = GetOrderInfos bookTwoBids) :=
  ⟨bookTwoBids_reachable, cancel_idempotent bookTwoBids bookTwoBids_reachable 2⟩

/-! ## C10 -/

theorem foldl_quantity (q : OrderPointers) (acc : Nat) :
    q.foldl (fun runningSum order => (runningSum + order.remainingQuantity_) % UINT32_MOD)
        (acc % UINT32_MOD) = (acc + totalRemaining q) % UINT32_MOD := by
  induction q generalizing acc with
  | nil => simp [totalRemaining]
  | cons o rest ih =>
    simp only [List.foldl_cons, totalRemaining_cons]
    rw [Nat.mod_add_mod, ih, Nat.add_assoc]

/-- The `uint32` accumulation of `GetOrderInfos` is the sum modulo `2^32`. -/
theorem levelQuantity_eq (q : OrderPointers) :
    levelQuantity q = totalRemaining q % UINT32_MOD := by
  have := foldl_quantity q 0
  simpa [levelQuantity] using this

theorem filter_nil_of_forall {p : Order → Bool} {l : List Order} (h : ∀ o ∈ l, p o = false) :
    l.filter p = [] := by
  rw [List.filter_eq_nil_iff]
  intro o ho
  simp [h o ho]

theorem filter_self_of_forall {p : Order → Bool} {l : List Order} (h : ∀ o ∈ l, p o = true) :
    l.filter p = l :=
  List.filter_eq_self.2 h

/-- Orders resting on a side in levels of other prices are not selected. -/
theorem filter_other_levels (side : Side) (idx : OrderIndex) (s : Side) (p : Nat)
    (levels : Levels) (hok : LevelsOk side levels) (hp : p ∉ levelKeys levels) :
    (flat levels).filter (fun o => (indexFind idx o.orderId_).isSome && decide (o.side_ = s)
      && decide (o.price_ = p)) = [] := by
  apply filter_nil_of_forall
  intro o ho
  obtain ⟨lv, hlv, hmem⟩ := mem_flat.1 ho
  have hprice := ((hok lv hlv).2 o hmem).2
  have : o.price_ ≠ p := by
    intro hx
    apply hp
    rw [← hx, hprice]
    exact List.mem_map.2 ⟨lv, hlv, rfl⟩
  simp [this]

/-- Orders resting on the other side are not selected. -/
theorem filter_other_side (side : Side) (idx : OrderIndex) (s : Side) (p : Nat)
    (levels : Levels) (hok : LevelsOk side levels) (hs : side ≠ s) :
    (flat levels).filter (fun o => (indexFind idx o.orderId_).isSome && decide (o.side_ = s)
      && decide (o.price_ = p)) = [] := by
  apply filter_nil_of_forall
  intro o ho
  obtain ⟨lv, hlv, hmem⟩ := mem_flat.1 ho
  have hside := ((hok lv hlv).2 o hmem).1
  have : o.side_ ≠ s := by rw [hside]; exact hs
  simp [this]

/-- On a book satisfying the invariant, the indexed orders of a side at the price of one of its
levels are the queue of that level. -/
theorem Inv.indexedOrders_bids {b : Orderbook} (h : Inv b) {p : Nat} {q : OrderPointers}
    (hlv : (p, q) ∈ b.bids_) : b.indexedOrders Side.Buy p = q := by
  obtain ⟨pre, post, hsplit, hp1, hp2⟩ :=
    levels_split_of_mem (sorted_keys_nodup_gt h.bids_sorted) hlv
  have hok := h.bids_ok
  rw [hsplit] at hok
  have hokpre : LevelsOk Side.Buy pre := fun lv hl => hok lv (by simp [hl])
  have hokpost : LevelsOk Side.Buy post := fun lv hl => hok lv (by simp [hl])
  have hq : ∀ o ∈ q, ((indexFind b.orders_ o.orderId_).isSome && decide (o.side_ = Side.Buy)
      && decide (o.price_ = p)) = true := by
    intro o ho
    have h1 := (hok (p, q) (by simp)).2 o ho
    have h2 := h.indexed.entry_of o (List.mem_append.2 (Or.inl (mem_flat.2 ⟨(p, q), hlv, ho⟩)))
    simp [h1.1, h1.2, h2]
  unfold Orderbook.indexedOrders
  rw [hsplit, flat_append, flat_cons, List.filter_append, List.filter_append, List.filter_append,
    filter_other_levels Side.Buy _ _ _ pre hokpre hp1,
    filter_other_levels Side.Buy _ _ _ post hokpost hp2,
    filter_other_side Side.Sell _ _ _ b.asks_ h.asks_ok (by decide),
    filter_self_of_forall hq]
  simp

theorem Inv.indexedOrders_asks {b : Orderbook} (h : Inv b) {p : Nat} {q : OrderPointers}
    (hlv : (p, q) ∈ b.asks_) : b.indexedOrders Side.Sell p = q := by
  obtain ⟨pre, post, hsplit, hp1, hp2⟩ :=
    levels_split_of_mem (sorted_keys_nodup_lt h.asks_sorted) hlv
  have hok := h.asks_ok
  rw [hsplit] at hok
  have hokpre : LevelsOk Side.Sell pre := fun lv hl => hok lv (by simp [hl])
  have hokpost : LevelsOk Side.Sell post := fun lv hl => hok lv (by simp [hl])
  have hq : ∀ o ∈ q, ((indexFind b.orders_ o.orderId_).isSome && decide (o.side_ = Side.Sell)
      && decide (o.price_ = p)) = true := by
    intro o ho
    have h1 := (hok (p, q) (by simp)).2 o ho
    have h2 := h.indexed.entry_of o (List.mem_append.2 (Or.inr (mem_flat.2 ⟨(p, q), hlv, ho⟩)))
    simp [h1.1, h1.2, h2]
  unfold Orderbook.indexedOrders
  rw [hsplit, flat_append, flat_cons, List.filter_append, List.filter_append, List.filter_append,
    filter_other_levels Side.Sell _ _ _ pre hokpre hp1,
    filter_other_levels Side.Sell _ _ _ post hokpost hp2,
    filter_other_side Side.Buy _ _ _ b.bids_ h.bids_ok (by decide),
    filter_self_of_forall hq]
  simp

/-- C10 (as stated, refuted). On the reachable book with two buys at price 10 of quantities
`2^32 - 1` and `1`, `GetOrderInfos` reports the quantity 0 for the level, while the remaining
quantities of the indexed orders at that price and side add up to `2^32`. -/
theorem depth_quantity_wraps :
    Reachable bookWideBids ∧
    (GetOrderInfos bookWideBids).bids_ = [{ price_ := 10, quantity_ := 0 }] ∧
    totalRemaining (bookWideBids.indexedOrders Side.Buy 10) = 4294967296 ∧
    ∃ li ∈ (GetOrderInfos bookWideBids).bids_,
      li.quantity_ ≠ totalRemaining (bookWideBids.indexedOrders Side.Buy li.price_) :=
  ⟨bookWideBids_reachable, by decide, by decide, ⟨{ price_ := 10, quantity_ := 0 }, by decide,
    by decide⟩⟩

/-- C10 (amended). On a reachable book, the quantity `GetOrderInfos` reports for a level is the
sum of the remaining quantities of the indexed orders at that price and side, reduced modulo
`2^32`; it is that sum itself whenever the sum is below `2^32`. -/
theorem depth_aggregation_mod (b : Orderbook) (h : Reachable b) :
    (∀ li ∈ (GetOrderInfos b).bids_,
      li.quantity_ = totalRemaining (b.indexedOrders Side.Buy li.price_) % UINT32_MOD ∧
      (totalRemaining (b.indexedOrders Side.Buy li.price_) < UINT32_MOD →
        li.quantity_ = totalRemaining (b.indexedOrders Side.Buy li.price_))) ∧
    (∀ li ∈ (GetOrderInfos b).asks_,
      li.quantity_ = totalRemaining (b.indexedOrders Side.Sell li.price_) % UINT32_MOD ∧
      (totalRemaining (b.indexedOrders Side.Sell li.price_) < UINT32_MOD →
        li.quantity_ = totalRemaining (b.indexedOrders Side.Sell li.price_))) := by
  have hinv := h.inv
  constructor
  · intro li hli
    obtain ⟨lv, hlv, hc⟩ := List.mem_map.1 hli
    obtain ⟨p, q⟩ := lv
    subst hc
    simp only [CreateLevelInfos]
    rw [hinv.indexedOrders_bids hlv, levelQuantity_eq]
    exact ⟨rfl, fun hlt => Nat.mod_eq_of_lt hlt⟩
  · intro li hli
    obtain ⟨lv, hlv, hc⟩ := List.mem_map.1 hli
    obtain ⟨p, q⟩ := lv
    subst hc
    simp only [CreateLevelInfos]
    rw [hinv.indexedOrders_asks hlv, levelQuantity_eq]
    exact ⟨rfl, fun hlt => Nat.mod_eq_of_lt hlt⟩

theorem depth_aggregation_mod_witness :
    Reachable bookTwoBids ∧
    (GetOrderInfos bookTwoBids).bids_ = [{ price_ := 10, quantity_ := 5 }] ∧
    (∀ li ∈ (GetOrderInfos bookTwoBids).bids_,
      li.quantity_ = totalRemaining (bookTwoBids.indexedOrders Side.Buy li.price_) % UINT32_MOD ∧
      (totalRemaining (bookTwoBids.indexedOrders Side.Buy li.price_) < UINT32_MOD →
        li.quantity_ = totalRemaining (bookTwoBids.indexedOrders Side.Buy li.price_))) :=
  ⟨bookTwoBids_reachable, by decide, (depth_aggregation_mod bookTwoBids bookTwoBids_reachable).1⟩

/-! ## C11 -/

theorem snapshot_prices (levels : Levels) :
    (levels.map CreateLevelInfos).map LevelInfo.price_ = levelKeys levels := by
  simp [levelKeys, CreateLevelInfos, Function.comp_def]

/-- On a book satisfying the invariant, the prices of the levels of a side are the prices at
which an order of that side rests. -/
theorem Inv.key_iff_resting {b : Orderbook} (h : Inv b) (side : Side) (p : Nat) :
    p ∈ levelKeys (b.sideLevels side) ↔
      ∃ o ∈ flat b.bids_ ++ flat b.asks_, o.side_ = side ∧ o.price_ = p := by
  have hok : LevelsOk side (b.sideLevels side) := by
    cases side
    · exact h.bids_ok
    · exact h.asks_ok
  constructor
  · intro hp
    obtain ⟨lv, hlv, hkey⟩ := List.mem_map.1 hp
    obtain ⟨hne, hall⟩ := hok lv hlv
    obtain ⟨o, rest, hq⟩ := List.exists_cons_of_ne_nil hne
    have ho : o ∈ lv.2 := by rw [hq]; simp
    have hmem : o ∈ flat (b.sideLevels side) := mem_flat.2 ⟨lv, hlv, ho⟩
    refine ⟨o, ?_, (hall o ho).1, by rw [(hall o ho).2, hkey]⟩
    cases side
    · exact List.mem_append.2 (Or.inl hmem)
    · exact List.mem_append.2 (Or.inr hmem)
  · rintro ⟨o, ho, hs, hp⟩
    have hmem : o ∈ flat (b.sideLevels side) := by
      rcases List.mem_append.1 ho with hb | ha
      · obtain ⟨lv, hlv, hq⟩ := mem_flat.1 hb
        have := ((h.bids_ok lv hlv).2 o hq).1
        cases side
        · exact hb
        · rw [hs] at this; exact absurd this (by decide)
      · obtain ⟨lv, hlv, hq⟩ := mem_flat.1 ha
        have := ((h.asks_ok lv hlv).2 o hq).1
        cases side
        · rw [hs] at this; exact absurd this (by decide)
        · exact ha
    obtain ⟨lv, hlv, hq⟩ := mem_flat.1 hmem
    rw [← hp, ((hok lv hlv).2 o hq).2]
    exact List.mem_map.2 ⟨lv, hlv, rfl⟩

/-- C11. On a reachable book, `GetOrderInfos` lists for each side exactly the prices at which
at least one order of that side rests, each price once: the bid prices strictly descending, the
ask prices strictly ascending; one entry per level, and no level has an empty queue. -/
theorem snapshot_lists_resting_prices (b : Orderbook) (h : Reachable b) :
    ((GetOrderInfos b).bids_.map LevelInfo.price_).Pairwise (fun x y => x > y) ∧
    ((GetOrderInfos b).asks_.map LevelInfo.price_).Pairwise (fun x y => x < y) ∧
    ((GetOrderInfos b).bids_.map LevelInfo.price_).Nodup ∧
    ((GetOrderInfos b).asks_.map LevelInfo.price_).Nodup ∧
    (∀ p, p ∈ (GetOrderInfos b).bids_.map LevelInfo.price_ ↔
      ∃ o ∈ flat b.bids_ ++ flat b.asks_, o.side_ = Side.Buy ∧ o.price_ = p) ∧
    (∀ p, p ∈ (GetOrderInfos b).asks_.map LevelInfo.price_ ↔
      ∃ o ∈ flat b.bids_ ++ flat b.asks_, o.side_ = Side.Sell ∧ o.price_ = p) ∧
    (GetOrderInfos b).bids_.length = b.bids_.length ∧
    (GetOrderInfos b).asks_.length = b.asks_.length ∧
    (∀ lv ∈ b.bids_ ++ b.asks_, lv.2 ≠ []) := by
  have hinv := h.inv
  simp only [GetOrderInfos, snapshot_prices, List.length_map]
  refine ⟨hinv.bids_sorted, hinv.asks_sorted, sorted_keys_nodup_gt hinv.bids_sorted,
    sorted_keys_nodup_lt hinv.asks_sorted, hinv.key_iff_resting Side.Buy,
    hinv.key_iff_resting Side.Sell, trivial, trivial, ?_⟩
  intro lv hlv
  rcases List.mem_append.1 hlv with hb | ha
  · exact (hinv.bids_ok lv hb).1
  · exact (hinv.asks_ok lv ha).1

theorem snapshot_lists_resting_prices_witness :
    Reachable bookBidLadder ∧
    (GetOrderInfos bookBidLadder).bids_.map LevelInfo.price_ = [11, 10] ∧
    ((GetOrderInfos bookBidLadder).bids_.map LevelInfo.price_).Pairwise (fun x y => x > y) ∧
    ((GetOrderInfos bookBidLadder).asks_.map LevelInfo.price_).Pairwise (fun x y => x < y) ∧
    ((GetOrderInfos bookBidLadder).bids_.map LevelInfo.price_).Nodup ∧
    ((GetOrderInfos bookBidLadder).asks_.map LevelInfo.price_).Nodup ∧
    (∀ p, p ∈ (GetOrderInfos bookBidLadder).bids_.map LevelInfo.price_ ↔
      ∃ o ∈ flat bookBidLadder.bids_ ++ flat bookBidLadder.asks_,
        o.side_ = Side.Buy ∧ o.price_ = p) ∧
    (∀ p, p ∈ (GetOrderInfos bookBidLadder).asks_.map LevelInfo.price_ ↔
      ∃ o ∈ flat bookBidLadder.bids_ ++ flat bookBidLadder.asks_,
        o.side_ = Side.Sell ∧ o.price_ = p) ∧
    (GetOrderInfos bookBidLadder).bids_.length = bookBidLadder.bids_.length ∧
    (GetOrderInfos bookBidLadder).asks_.length = bookBidLadder.asks_.length ∧
    (∀ lv ∈ bookBidLadder.bids_ ++ bookBidLadder.asks_, lv.2 ≠ []) :=
  ⟨bookBidLadder_reachable, by decide,
    snapshot_lists_resting_prices bookBidLadder bookBidLadder_reachable⟩

/-! ## C12 -/

/-- Index keys and resting identifiers are the same identifiers, each once. -/
theorem Indexed.keys_perm {os : List Order} {idx : OrderIndex} (h : Indexed os idx) :
    (idx.map Prod.fst).Perm (ids os) := by
  rw [List.perm_ext_iff_of_nodup h.keys_nodup h.ids_nodup]
  intro k
  constructor
  · intro hk
    obtain ⟨kv, hkv, hkey⟩ := List.mem_map.1 hk
    exact hkey ▸ h.key_rests kv hkv
  · intro hk
    obtain ⟨o, ho, hid⟩ := mem_ids.1 hk
    have := indexFind_mem (h.entry_of o ho)
    rw [← hid]
    exact List.mem_map.2 ⟨_, this, rfl⟩

theorem Inv.size_eq {b : Orderbook} (h : Inv b) :
    Size b = (flat b.bids_).length + (flat b.asks_).length := by
  have := h.indexed.keys_perm.length_eq
  simpa [Size, ids] using this

/-- The level and the order that an index entry designates. -/
theorem Inv.entry_designates {b : Orderbook} (h : Inv b) {kv : Nat × OrderEntry}
    (hkv : kv ∈ b.orders_) :
    ∃ q o, levelsAt (b.sideLevels kv.2.side_) kv.2.price_ = some q ∧ o ∈ q ∧
      o.orderId_ = kv.1 ∧ o.side_ = kv.2.side_ ∧ o.price_ = kv.2.price_ ∧
      (ids q).count kv.1 = 1 ∧ (ids (flat b.bids_ ++ flat b.asks_)).count kv.1 = 1 := by
  obtain ⟨k, e⟩ := kv
  have hf := indexFind_of_mem h.indexed.keys_nodup hkv
  obtain ⟨o, ho, hid, he⟩ := indexed_find h.indexed hf
  have hnd := h.indexed.ids_nodup
  have hcount : (ids (flat b.bids_ ++ flat b.asks_)).count k = 1 :=
    List.count_eq_one_of_mem hnd (mem_ids.2 ⟨o, ho, hid⟩)
  rw [ids_append] at hnd
  have hnd2 := List.nodup_append.1 hnd
  subst he
  rcases List.mem_append.1 ho with hb | ha
  · obtain ⟨hside, pre, post, l1, l2, hsplit, hp1, _, h1, h2⟩ :=
      resting_split Side.Buy (sorted_keys_nodup_gt h.bids_sorted) h.bids_ok hnd2.1 hb
    have hq : (ids (l1 ++ o :: l2)).Nodup := by
      have := hnd2.1
      rw [hsplit, flat_append, flat_cons, ids_append, ids_append] at this
      exact (List.nodup_append.1 (List.nodup_append.1 this).2.1).1
    refine ⟨l1 ++ o :: l2, o, ?_, by simp, hid, rfl, rfl, ?_, hcount⟩
    · simp only [hside, Orderbook.sideLevels]
      rw [hsplit]
      exact levelsAt_split _ _ hp1
    · exact List.count_eq_one_of_mem hq (mem_ids.2 ⟨o, by simp, hid⟩)
  · obtain ⟨hside, pre, post, l1, l2, hsplit, hp1, _, h1, h2⟩ :=
      resting_split Side.Sell (sorted_keys_nodup_lt h.asks_sorted) h.asks_ok hnd2.2.1 ha
    have hq : (ids (l1 ++ o :: l2)).Nodup := by
      have := hnd2.2.1
      rw [hsplit, flat_append, flat_cons, ids_append, ids_append] at this
      exact (List.nodup_append.1 (List.nodup_append.1 this).2.1).1
    refine ⟨l1 ++ o :: l2, o, ?_, by simp, hid, rfl, rfl, ?_, hcount⟩
    · simp only [hside, Orderbook.sideLevels]
      rw [hsplit]
      exact levelsAt_split _ _ hp1
    · exact List.count_eq_one_of_mem hq (mem_ids.2 ⟨o, by simp, hid⟩)

/-- C12. On a reachable book the index and the level queues correspond one to one: every order
in a queue has exactly one index entry under its identifier, recording its side and price; every
index entry designates an order that occurs exactly once in the queue of the level at the
entry's side and price (and exactly once in the whole book); hence `Size` is the total number of
orders in the queues of both sides. -/
theorem index_matches_queues (b : Orderbook) (h : Reachable b) :
    (∀ o ∈ flat b.bids_ ++ flat b.asks_,
      (b.orders_.map Prod.fst).count o.orderId_ = 1 ∧
      indexFind b.orders_ o.orderId_ = some ⟨o.side_, o.price_⟩) ∧
    (∀ kv ∈ b.orders_, ∃ q o,
      levelsAt (b.sideLevels kv.2.side_) kv.2.price_ = some q ∧ o ∈ q ∧
      o.orderId_ = kv.1 ∧ o.side_ = kv.2.side_ ∧ o.price_ = kv.2.price_ ∧
      (ids q).count kv.1 = 1 ∧ (ids (flat b.bids_ ++ flat b.asks_)).count kv.1 = 1) ∧
    Size b = (flat b.bids_).length + (flat b.asks_).length := by
  have hinv := h.inv
  refine ⟨?_, fun kv hkv => hinv.entry_designates hkv, hinv.size_eq⟩
  intro o ho
  have hf := hinv.indexed.entry_of o ho
  exact ⟨List.count_eq_one_of_mem hinv.indexed.keys_nodup
    (List.mem_map.2 ⟨_, indexFind_mem hf, rfl⟩), hf⟩

theorem index_matches_queues_witness :
    Reachable bookTwoBids ∧
    (∀ o ∈ flat bookTwoBids.bids_ ++ flat bookTwoBids.asks_,
      (bookTwoBids.orders_.map Prod.fst).count o.orderId_ = 1 ∧
      indexFind bookTwoBids.orders_ o.orderId_ = some ⟨o.side_, o.price_⟩) ∧
    (∀ kv ∈ bookTwoBids.orders_, ∃ q o,
      levelsAt (bookTwoBids.sideLevels kv.2.side_) kv.2.price_ = some q ∧ o ∈ q ∧
      o.orderId_ = kv.1 ∧ o.side_ = kv.2.side_ ∧ o.price_ = kv.2.price_ ∧
      (ids q).count kv.1 = 1 ∧
      (ids (flat bookTwoBids.bids_ ++ flat bookTwoBids.asks_)).count kv.1 = 1) ∧
    Size bookTwoBids = (flat bookTwoBids.bids_).length + (flat bookTwoBids.asks_).length :=
  ⟨bookTwoBids_reachable, index_matches_queues bookTwoBids bookTwoBids_reachable⟩

/-! ## C16 -/

/-- C16. `Order.Fill` throws the logic error exactly when the quantity exceeds the remaining
quantity, and then the order is as it was; otherwise it succeeds, the new remaining quantity is
the old one minus the quantity exactly (it is also what the `uint32` subtraction gives when the
old remaining quantity is a `uint32`), and every other field is unchanged. `IsFilled` holds
exactly when the remaining quantity is zero. -/
theorem fill_contract (o : Order) (quantity : Nat) :
    (o.Fill quantity = .error Error.logic_error ↔ quantity > o.remainingQuantity_) ∧
    (quantity > o.remainingQuantity_ → o.afterFill quantity = o) ∧
    (quantity ≤ o.remainingQuantity_ →
      ∃ o2, o.Fill quantity = .ok o2 ∧ o.afterFill quantity = o2 ∧
        o2.remainingQuantity_ + quantity = o.remainingQuantity_ ∧
        o2.remainingQuantity_ = o.remainingQuantity_ - quantity ∧
        (o.remainingQuantity_ < UINT32_MOD →
          o2.remainingQuantity_ = (o.remainingQuantity_ + UINT32_MOD - quantity) % UINT32_MOD) ∧
        o2.orderType_ = o.orderType_ ∧ o2.orderId_ = o.orderId_ ∧ o2.side_ = o.side_ ∧
        o2.price_ = o.price_ ∧ o2.initialQuantity_ = o.initialQuantity_ ∧
        o2.user_id_ = o.user_id_ ∧ o2.token_ = o.token_) ∧
    (o.IsFilled = true ↔ o.remainingQuantity_ = 0) := by
  refine ⟨?_, ?_, ?_, ?_⟩
  · by_cases h : quantity > o.remainingQuantity_
    · simp [Order.Fill, h]
    · simp [Order.Fill, h]
  · intro h
    simp [Order.afterFill, Order.Fill, h]
  · intro h
    have hn : ¬ quantity > o.remainingQuantity_ := by omega
    refine ⟨{ o with remainingQuantity_ := o.remainingQuantity_ - quantity }, ?_, ?_, ?_, rfl,
      ?_, rfl, rfl, rfl, rfl, rfl, rfl, rfl⟩
    · simp [Order.Fill, hn]
    · simp [Order.afterFill, Order.Fill, hn]
    · simp only; omega
    · intro hlt
      simp only
      have : o.remainingQuantity_ + UINT32_MOD - quantity
          = (o.remainingQuantity_ - quantity) + UINT32_MOD := by omega
      rw [this, Nat.add_mod_right, Nat.mod_eq_of_lt (by omega)]
  · simp [Order.IsFilled]

theorem fill_contract_witness :
    ((Order.new OrderType.GoodTillCancel 1 Side.Buy 10 5 "A" Token.YES).Fill 6
        = .error Error.logic_error ↔ 6 > 5) ∧
    ((Order.new OrderType.GoodTillCancel 1 Side.Buy 10 5 "A" Token.YES).Fill 3
        = .ok { Order.new OrderType.GoodTillCancel 1 Side.Buy 10 5 "A" Token.YES with
                remainingQuantity_ := 2 }) ∧
    ((Order.new OrderType.GoodTillCancel 1 Side.Buy 10 5 "A" Token.YES).IsFilled = true ↔
      (5 : Nat) = 0) :=
  ⟨(fill_contract (Order.new OrderType.GoodTillCancel 1 Side.Buy 10 5 "A" Token.YES) 6).1, rfl,
    (fill_contract (Order.new OrderType.GoodTillCancel 1 Side.Buy 10 5 "A" Token.YES) 6).2.2.2⟩

/-! ## C17 -/

/-- C17. From every reachable book, `AddOrder` (with or without a token) and `CancelOrder`
return normally for all arguments. The two `Fill` calls of the matching loop, made with the
minimum of the two remaining quantities, succeed for any two head orders; and for an identifier
in the index, the map of the entry's side has a level at the entry's price whose queue holds
the order with that identifier, so neither `map::at` nor the erase through the handle fails. -/
theorem never_raises (b : Orderbook) (h : Reachable b) :
    (∀ (orderType : OrderType) (side : Side) (price quantity : Nat) (user_id : String)
        (token : Token),
        ∃ b2 ts, AddOrder b orderType side price quantity user_id token = .ok (b2, ts)) ∧
    (∀ (orderType : OrderType) (side : Side) (price quantity : Nat) (user_id : String),
        ∃ b2 ts, AddOrderDefault b orderType side price quantity user_id = .ok (b2, ts)) ∧
    (∀ orderId : Nat, ∃ b2, CancelOrder b orderId = .ok b2) ∧
    (∀ bid ask : Order,
        min bid.remainingQuantity_ ask.remainingQuantity_ ≤ bid.remainingQuantity_ ∧
        min bid.remainingQuantity_ ask.remainingQuantity_ ≤ ask.remainingQuantity_ ∧
        (∃ bid2, bid.Fill (min bid.remainingQuantity_ ask.remainingQuantity_) = .ok bid2) ∧
        (∃ ask2, ask.Fill (min bid.remainingQuantity_ ask.remainingQuantity_) = .ok ask2)) ∧
    (∀ (orderId : Nat) (entry : OrderEntry), indexFind b.orders_ orderId = some entry →
        ∃ q q2 o, levelsAt (b.sideLevels entry.side_) entry.price_ = some q ∧
          queueErase q orderId = some q2 ∧ o ∈ q ∧ o.orderId_ = orderId ∧
          o.side_ = entry.side_) := by
  have hinv := h.inv
  refine ⟨?_, ?_, ?_, ?_, ?_⟩
  · intro orderType side price quantity user_id token
    obtain ⟨b2, ts, h1, _⟩ := AddOrder_inv b orderType side price quantity user_id token hinv
    exact ⟨b2, ts, h1⟩
  · intro orderType side price quantity user_id
    obtain ⟨b2, ts, h1, _⟩ := AddOrder_inv b orderType side price quantity user_id Token.YES hinv
    exact ⟨b2, ts, h1⟩
  · intro orderId
    obtain ⟨b2, h1, _⟩ := CancelOrder_inv b orderId hinv
    exact ⟨b2, h1⟩
  · intro bid ask
    exact ⟨Nat.min_le_left _ _, Nat.min_le_right _ _, ⟨_, Fill_min_left bid ask⟩,
      ⟨_, Fill_min_right bid ask⟩⟩
  · intro orderId entry hf
    obtain ⟨o, pre, post, l1, l2, hid, h1, h2, hcase⟩ :=
      CancelOrder_indexed b orderId entry hinv hf
    obtain ⟨o2, ho2, hid2, he⟩ := indexed_find hinv.indexed hf
    have hsame : o2.side_ = o.side_ ∧ o2.price_ = o.price_ := by
      have hmem : o ∈ flat b.bids_ ++ flat b.asks_ := by
        rcases hcase with ⟨_, hsplit, _⟩ | ⟨_, hsplit, _⟩
        · exact List.mem_append.2 (Or.inl (by rw [hsplit, flat_append, flat_cons]; simp))
        · exact List.mem_append.2 (Or.inr (by rw [hsplit, flat_append, flat_cons]; simp))
      have e1 := hinv.indexed.entry_of o hmem
      have e2 := hinv.indexed.entry_of o2 ho2
      rw [hid] at e1
      rw [hid2, e1] at e2
      simp only [Option.some.injEq, OrderEntry.mk.injEq] at e2
      exact ⟨e2.1.symm, e2.2.symm⟩
    subst he
    rcases hcase with ⟨hs, hsplit, _⟩ | ⟨hs, hsplit, _⟩
    · have hp : o.price_ ∉ levelKeys pre := by
        have := sorted_keys_nodup_gt hinv.bids_sorted
        rw [hsplit] at this
        simp only [levelKeys, List.map_append, List.map_cons] at this
        intro hx
        exact (List.nodup_append.1 this).2.2 hx (List.mem_cons_self _ _)
      refine ⟨l1 ++ o :: l2, l1 ++ l2, o, ?_, ?_, by simp, hid, hsame.1.symm⟩
      · simp only [hsame.1, hsame.2, hs, Orderbook.sideLevels]
        rw [hsplit]
        exact levelsAt_split _ _ hp
      · rw [← hid]; exact queueErase_split _ h1
    · have hp : o.price_ ∉ levelKeys pre := by
        have := sorted_keys_nodup_lt hinv.asks_sorted
        rw [hsplit] at this
        simp only [levelKeys, List.map_append, List.map_cons] at this
        intro hx
        exact (List.nodup_append.1 this).2.2 hx (List.mem_cons_self _ _)
      refine ⟨l1 ++ o :: l2, l1 ++ l2, o, ?_, ?_, by simp, hid, hsame.1.symm⟩
      · simp only [hsame.1, hsame.2, hs, Orderbook.sideLevels]
        rw [hsplit]
        exact levelsAt_split _ _ hp
      · rw [← hid]; exact queueErase_split _ h1

theorem never_raises_witness :
    Reachable bookTwoBids ∧
    (∃ b2 ts, AddOrder bookTwoBids OrderType.FillAndKill Side.Sell 9 4294967295 "C" Token.NO
        = .ok (b2, ts)) ∧
    (∃ b2, CancelOrder bookTwoBids 2 = .ok b2) ∧
    (∃ b2, CancelOrder bookTwoBids 77 = .ok b2) :=
  ⟨bookTwoBids_reachable,
    (never_raises bookTwoBids bookTwoBids_reachable).1 OrderType.FillAndKill Side.Sell 9
      4294967295 "C" Token.NO,
    (never_raises bookTwoBids bookTwoBids_reachable).2.2.1 2,
    (never_raises bookTwoBids bookTwoBids_reachable).2.2.1 77⟩

/-! ## C13 -/

/-- An order of a residue is the head, filled but not completely, or an order of the rest. -/
theorem mem_residue_open {o : Order} {q : Nat} {rest : List Order} {a : Order}
    (h : a ∈ residue o q rest) :
    (a = fillBy o q ∧ (fillBy o q).IsFilled = false) ∨ a ∈ rest := by
  unfold residue at h
  split at h
  · exact Or.inr h
  · rename_i hf
    rcases List.mem_cons.1 h with h1 | h1
    · exact Or.inl ⟨h1, by simpa using hf⟩
    · exact Or.inr h1

/-- A property of orders that survives a fill which does not complete the order holds of
everything the sweep leaves behind. -/
theorem sweep_keeps (P : Order → Prop)
    (hP : ∀ o q, P o → (fillBy o q).IsFilled = false → P (fillBy o q))
    (cross : Nat → Nat → Bool) (xs ys : List Order) :
    ∀ idx, (∀ a ∈ xs ++ ys, P a) →
      ∀ a ∈ (sweep cross xs ys idx).xs ++ (sweep cross xs ys idx).ys, P a := by
  induction xs, ys using pairing_induction with
  | nil_left ys => intro idx h; simpa [sweep_nil_left] using h
  | nil_right xs => intro idx h; simpa [sweep_nil_right] using h
  | step x xt y yt ih =>
    intro idx h
    by_cases hc : cross x.price_ y.price_ = true
    · rw [sweep_step cross x y xt yt idx hc _ rfl _ rfl]
      apply ih
      intro a ha
      rcases List.mem_append.1 ha with h1 | h1
      · rcases mem_residue_open h1 with ⟨h2, h3⟩ | h2
        · rw [h2]; exact hP x _ (h x (by simp)) h3
        · exact h a (by simp [h2])
      · rcases mem_residue_open h1 with ⟨h2, h3⟩ | h2
        · rw [h2]; exact hP y _ (h y (by simp)) h3
        · exact h a (by simp [h2])
    · rw [sweep_stop cross x y xt yt idx (by simpa using hc)]
      exact h

theorem OrderOk_fillBy (o : Order) (q : Nat) (h : OrderOk o)
    (hf : (fillBy o q).IsFilled = false) : OrderOk (fillBy o q) := by
  simp only [Order.IsFilled, fillBy, beq_eq_false_iff_ne, ne_eq] at hf
  obtain ⟨h1, _⟩ := h
  refine ⟨?_, fun _ => ?_⟩
  · simp only [fillBy]; omega
  · simp only [fillBy]; omega

theorem OrderOk_new (orderType : OrderType) (orderId : Nat) (side : Side) (price quantity : Nat)
    (user_id : String) (token : Token) :
    OrderOk (Order.new orderType orderId side price quantity user_id token) :=
  ⟨Nat.le_refl _, fun hq => hq⟩

/-- `AddOrder` keeps a property of resting orders that holds of new orders and survives
incomplete fills. -/
theorem AddOrder_keeps (P : Order → Prop)
    (hP : ∀ o q, P o → (fillBy o q).IsFilled = false → P (fillBy o q))
    (b b2 : Orderbook) (orderType : OrderType) (side : Side)
    (price quantity : Nat) (user_id : String) (token : Token) (ts : Trades) (h : Inv b)
    (hnew : P (Order.new orderType b.next_order_id_ side price quantity user_id token))
    (hall : ∀ o ∈ flat b.bids_ ++ flat b.asks_, P o)
    (hcall : AddOrder b orderType side price quantity user_id token = .ok (b2, ts)) :
    ∀ o ∈ flat b2.bids_ ++ flat b2.asks_, P o := by
  rcases AddOrder_cases b orderType side price quantity user_id token h with
    ⟨_, hc⟩ | ⟨_, b3, hc, hx, hy, _, _, _⟩
  · rw [hc] at hcall
    simp only [Except.ok.injEq, Prod.mk.injEq] at hcall
    rw [← hcall.1]
    exact hall
  · rw [hc] at hcall
    simp only [Except.ok.injEq, Prod.mk.injEq] at hcall
    rw [← hcall.1, hx, hy]
    apply sweep_keeps P hP
    intro a ha
    rcases List.mem_cons.1 ((flat_with_perm b _).mem_iff.1 ha) with h1 | h1
    · rw [h1]; exact hnew
    · exact hall a h1

/-- `CancelOrder` only removes an order: what rests afterwards rested before. -/
theorem CancelOrder_subset (b b2 : Orderbook) (orderId : Nat) (h : Inv b)
    (hcall : CancelOrder b orderId = .ok b2) :
    ∀ o ∈ flat b2.bids_ ++ flat b2.asks_, o ∈ flat b.bids_ ++ flat b.asks_ := by
  cases hf : indexFind b.orders_ orderId with
  | none =>
    rw [CancelOrder_unknown b orderId hf] at hcall
    simp only [Except.ok.injEq] at hcall
    rw [← hcall]
    exact fun o ho => ho
  | some e =>
    obtain ⟨o, pre, post, l1, l2, _, _, _, hcase⟩ := CancelOrder_indexed b orderId e h hf
    rcases hcase with ⟨_, hsplit, hc⟩ | ⟨_, hsplit, hc⟩
    · rw [hc] at hcall
      simp only [Except.ok.injEq] at hcall
      have hok := h.bids_ok
      rw [hsplit] at hok
      obtain ⟨_, _, c3⟩ := cancelled_side Side.Buy o.price_ o pre post l1 l2 hok
      rw [← hcall]
      simp only [c3, hsplit, flat_append, flat_cons]
      intro a ha
      simp only [List.mem_append, List.mem_cons] at ha ⊢
      tauto
    · rw [hc] at hcall
      simp only [Except.ok.injEq] at hcall
      have hok := h.asks_ok
      rw [hsplit] at hok
      obtain ⟨_, _, c3⟩ := cancelled_side Side.Sell o.price_ o pre post l1 l2 hok
      rw [← hcall]
      simp only [c3, hsplit, flat_append, flat_cons]
      intro a ha
      simp only [List.mem_append, List.mem_cons] at ha ⊢
      tauto

/-- Every order resting in a reachable book has sound quantities. -/
theorem Reachable.orders_ok {b : Orderbook} (h : Reachable b) :
    ∀ o ∈ flat b.bids_ ++ flat b.asks_, OrderOk o := by
  induction h with
  | empty => intro o ho; simp [Orderbook.empty, flat] at ho
  | add b b2 orderType side price quantity user_id token trades hr _ _ hcall ih =>
    exact AddOrder_keeps OrderOk OrderOk_fillBy b b2 orderType side price quantity user_id token
      trades hr.inv (OrderOk_new _ _ _ _ _ _ _) ih hcall
  | cancel b b2 orderId hr _ hcall ih =>
    exact fun o ho => ih o (CancelOrder_subset b b2 orderId hr.inv hcall o ho)

/-- C13 (as stated, refuted). After `AddOrder(GoodTillCancel, Buy, 10, 0, "A")` on the empty
book, an order with remaining quantity 0 rests in the bid level 10 and its identifier is in the
index. -/
theorem zero_quantity_order_rests :
    AddOrder Orderbook.empty OrderType.GoodTillCancel Side.Buy 10 0 "A" Token.YES
      = .ok (bookZeroBid, []) ∧
    Reachable bookZeroBid ∧
    (∃ o ∈ flat bookZeroBid.bids_ ++ flat bookZeroBid.asks_,
      o.remainingQuantity_ = 0 ∧ indexFind bookZeroBid.orders_ o.orderId_ ≠ none) ∧
    ¬ (∀ o ∈ flat bookZeroBid.bids_ ++ flat bookZeroBid.asks_,
        0 < o.remainingQuantity_ ∧ o.remainingQuantity_ ≤ o.initialQuantity_) :=
  ⟨rfl,
    Reachable.add Orderbook.empty bookZeroBid OrderType.GoodTillCancel Side.Buy 10 0 "A"
      Token.YES [] Reachable.empty (by decide) (by decide) rfl,
    ⟨Order.new OrderType.GoodTillCancel 1 Side.Buy 10 0 "A" Token.YES, by decide, rfl,
      by decide⟩,
    fun hall => absurd
      (hall (Order.new OrderType.GoodTillCancel 1 Side.Buy 10 0 "A" Token.YES) (by decide)).1
      (by decide)⟩

/-- C13 (amended). In every reachable book, every order present in a level queue, and so every
order an index entry designates, has a remaining quantity that is at most its initial quantity,
and that is positive unless the order was submitted with quantity 0. -/
theorem remaining_within_initial (b : Orderbook) (h : Reachable b) :
    (∀ o ∈ flat b.bids_ ++ flat b.asks_,
      o.remainingQuantity_ ≤ o.initialQuantity_ ∧
      (0 < o.initialQuantity_ → 0 < o.remainingQuantity_)) ∧
    (∀ kv ∈ b.orders_, ∃ o ∈ flat b.bids_ ++ flat b.asks_, o.orderId_ = kv.1 ∧
      o.remainingQuantity_ ≤ o.initialQuantity_ ∧
      (0 < o.initialQuantity_ → 0 < o.remainingQuantity_)) := by
  refine ⟨fun o ho => h.orders_ok o ho, ?_⟩
  intro kv hkv
  obtain ⟨o, ho, hid⟩ := mem_ids.1 (h.inv.indexed.key_rests kv hkv)
  exact ⟨o, ho, hid, h.orders_ok o ho⟩

theorem remaining_within_initial_witness :
    Reachable bookTwoBids ∧
    (∀ o ∈ flat bookTwoBids.bids_ ++ flat bookTwoBids.asks_,
      o.remainingQuantity_ ≤ o.initialQuantity_ ∧
      (0 < o.initialQuantity_ → 0 < o.remainingQuantity_)) :=
  ⟨bookTwoBids_reachable, (remaining_within_initial bookTwoBids bookTwoBids_reachable).1⟩

/-! ## C18 -/

/-- Every pairing pops a head: the pairings are at most as many as the orders consumed. -/
theorem sweep_counts (cross : Nat → Nat → Bool) (xs ys : List Order) :
    ∀ idx, (sweep cross xs ys idx).events.length +
        ((sweep cross xs ys idx).xs.length + (sweep cross xs ys idx).ys.length)
      ≤ xs.length + ys.length := by
  induction xs, ys using pairing_induction with
  | nil_left ys => intro idx; simp [sweep_nil_left]
  | nil_right xs => intro idx; simp [sweep_nil_right]
  | step x xt y yt ih =>
    intro idx
    by_cases hc : cross x.price_ y.price_ = true
    · rw [sweep_step cross x y xt yt idx hc _ rfl _ rfl]
      have h1 := ih (dropFilled y (min x.remainingQuantity_ y.remainingQuantity_)
        (dropFilled x (min x.remainingQuantity_ y.remainingQuantity_) idx))
      have h2 := residue_lengths x y xt yt
      simp only [List.length_cons] at h2 ⊢
      omega
    · rw [sweep_stop cross x y xt yt idx (by simpa using hc)]
      simp

/-- The head level after the inner loop, whatever the levels hold. -/
theorem head_after_flat (p : Nat) (q2 : OrderPointers) (rest : Levels) :
    flat (if q2.isEmpty then levelsErase ((p, q2) :: rest) p else (p, q2) :: rest)
      = q2 ++ flat rest ∧
    ((if q2.isEmpty then levelsErase ((p, q2) :: rest) p else (p, q2) :: rest).length
      = if q2 = [] then rest.length else rest.length + 1) := by
  cases q2 with
  | nil => simp [levelsErase_head]
  | cons a q3 => simp [flat]

/-- The loops of `MatchOrders` terminate on every book, without throwing, and return at most
as many trades as orders they took out of the queues. -/
theorem matchLoop_total (fuel : Nat) (bids asks : Levels) (orders : OrderIndex) (nxt : Nat)
    (ts : Trades) (hfuel : bids.length + asks.length ≤ fuel) :
    ∃ b2 ts2, matchLoop fuel ⟨bids, asks, orders, nxt⟩ ts = .ok (b2, ts ++ ts2) ∧
      ts2.length + ((flat b2.bids_).length + (flat b2.asks_).length)
        ≤ (flat bids).length + (flat asks).length := by
  induction fuel generalizing bids asks orders ts with
  | zero =>
    simp only [Nat.le_zero, Nat.add_eq_zero, List.length_eq_zero] at hfuel
    obtain ⟨h1, h2⟩ := hfuel
    subst h1 h2
    exact ⟨⟨[], [], orders, nxt⟩, [], by simp [matchLoop], by simp⟩
  | succ n ih =>
    cases bids with
    | nil => exact ⟨⟨[], asks, orders, nxt⟩, [], by simp [matchLoop], by simp⟩
    | cons bl br =>
      cases asks with
      | nil => exact ⟨⟨bl :: br, [], orders, nxt⟩, [], by simp [matchLoop], by simp⟩
      | cons al ar =>
        obtain ⟨bp, bq⟩ := bl
        obtain ⟨ap, aq⟩ := al
        by_cases hlt : bp < ap
        · exact ⟨⟨(bp, bq) :: br, (ap, aq) :: ar, orders, nxt⟩, [],
            by simp [matchLoop, hlt], by simp⟩
        · obtain ⟨hB1, hB2⟩ := head_after_flat bp (sweep anyPrice bq aq orders).xs br
          obtain ⟨hA1, hA2⟩ := head_after_flat ap (sweep anyPrice bq aq orders).ys ar
          have hfin := sweep_anyPrice_final bq aq orders
          have hcount := sweep_counts anyPrice bq aq orders
          have hfuel2 :
              (if (sweep anyPrice bq aq orders).xs.isEmpty
                then levelsErase ((bp, (sweep anyPrice bq aq orders).xs) :: br) bp
                else (bp, (sweep anyPrice bq aq orders).xs) :: br).length +
              (if (sweep anyPrice bq aq orders).ys.isEmpty
                then levelsErase ((ap, (sweep anyPrice bq aq orders).ys) :: ar) ap
                else (ap, (sweep anyPrice bq aq orders).ys) :: ar).length ≤ n := by
            rw [hB2, hA2]
            simp only [List.length_cons] at hfuel
            rcases hfin with h | h <;> rw [h] <;> simp <;> split <;> omega
          obtain ⟨b2, ts3, h1, h2⟩ :=
            ih _ _ (sweep anyPrice bq aq orders).idx
              (ts ++ (sweep anyPrice bq aq orders).events.map Pairing.toTrade) hfuel2
          refine ⟨b2, (sweep anyPrice bq aq orders).events.map Pairing.toTrade ++ ts3, ?_, ?_⟩
          · rw [matchLoop_iter n bp ap bq aq br ar orders nxt ts hlt,
              matchLevel_sweep _ bq aq orders ts (le_refl _)]
            simp only
            rw [h1, List.append_assoc]
          · rw [hB1, hA1] at h2
            simp only [flat_cons, List.length_append, List.length_map] at h2 ⊢
            omega

theorem MatchOrders_total (b : Orderbook) :
    ∃ b2 ts, MatchOrders b = .ok (b2, ts) ∧
      ts.length + ((flat b2.bids_).length + (flat b2.asks_).length)
        ≤ (flat b.bids_).length + (flat b.asks_).length := by
  obtain ⟨b2, ts2, h1, h2⟩ := matchLoop_total (b.bids_.length + b.asks_.length) b.bids_ b.asks_
    b.orders_ b.next_order_id_ [] (le_refl _)
  exact ⟨b2, ts2, by simpa [MatchOrders] using h1, h2⟩

theorem residue_min_pops (x y : Order) (xt yt : List Order) :
    residue x (min x.remainingQuantity_ y.remainingQuantity_) xt = xt ∨
      residue y (min x.remainingQuantity_ y.remainingQuantity_) yt = yt := by
  simp only [residue, Order.IsFilled, fillBy]
  by_cases h : x.remainingQuantity_ ≤ y.remainingQuantity_
  · left
    have : x.remainingQuantity_ - min x.remainingQuantity_ y.remainingQuantity_ = 0 := by
      rw [Nat.min_eq_left h]; omega
    simp [this]
  · right
    have : y.remainingQuantity_ - min x.remainingQuantity_ y.remainingQuantity_ = 0 := by
      rw [Nat.min_eq_right (by omega)]; omega
    simp [this]

/-- One of the two orders of every pairing is gone when the sweep ends. -/
theorem sweep_event_pops (cross : Nat → Nat → Bool) (xs ys : List Order) :
    ∀ idx, (ids xs).Nodup → (ids ys).Nodup →
      ∀ e ∈ (sweep cross xs ys idx).events,
        e.first.orderId_ ∉ ids (sweep cross xs ys idx).xs ∨
        e.second.orderId_ ∉ ids (sweep cross xs ys idx).ys := by
  induction xs, ys using pairing_induction with
  | nil_left ys => intro idx _ _ e h; simp [sweep_nil_left] at h
  | nil_right xs => intro idx _ _ e h; simp [sweep_nil_right] at h
  | step x xt y yt ih =>
    intro idx hx hy e h
    by_cases hc : cross x.price_ y.price_ = true
    · rw [sweep_step cross x y xt yt idx hc _ rfl _ rfl] at h ⊢
      simp only at h ⊢
      have hsl := sweep_ids_sublist cross
        (residue x (min x.remainingQuantity_ y.remainingQuantity_) xt)
        (residue y (min x.remainingQuantity_ y.remainingQuantity_) yt)
        (dropFilled y (min x.remainingQuantity_ y.remainingQuantity_)
          (dropFilled x (min x.remainingQuantity_ y.remainingQuantity_) idx))
      rcases List.mem_cons.1 h with h1 | h1
      · subst h1
        simp only
        rcases residue_min_pops x y xt yt with hp | hp
        · left
          intro hm
          have hin := hsl.1.subset hm
          rw [hp] at hin
          exact (List.nodup_cons.1 hx).1 hin
        · right
          intro hm
          have hin := hsl.2.subset hm
          rw [hp] at hin
          exact (List.nodup_cons.1 hy).1 hin
      · exact ih _ (hx.sublist (ids_residue_sublist _ _ _)) (hy.sublist (ids_residue_sublist _ _ _))
          e h1
    · rw [sweep_stop cross x y xt yt idx (by simpa using hc)] at h
      simp at h

/-- C18. The matching loop terminates on every book and returns at most as many trades as
orders it removed from the queues. For a submission on a reachable book that passes the guards
and is inserted, the call returns normally, at most one order is added to the index, the number
of returned trades is at most `Size` before the call plus one minus `Size` after it, and one of
the two orders named by each returned trade is no longer in the index. -/
theorem trades_bounded_by_removed (b : Orderbook) (h : Reachable b) (orderType : OrderType)
    (side : Side) (price quantity : Nat) (user_id : String) (token : Token)
    (hacc : b.Accepts orderType side price) :
    (∀ b0 : Orderbook, ∃ b2 ts, MatchOrders b0 = .ok (b2, ts) ∧
      ts.length + ((flat b2.bids_).length + (flat b2.asks_).length)
        ≤ (flat b0.bids_).length + (flat b0.asks_).length) ∧
    (∃ b2 ts, AddOrder b orderType side price quantity user_id token = .ok (b2, ts) ∧
      Size b2 ≤ Size b + 1 ∧ ts.length ≤ Size b + 1 - Size b2 ∧
      ∀ t ∈ ts, indexFind b2.orders_ t.bidTrade_.orderId_ = none ∨
        indexFind b2.orders_ t.askTrade_.orderId_ = none) := by
  refine ⟨MatchOrders_total, ?_⟩
  have hinv := h.inv
  rcases AddOrder_cases b orderType side price quantity user_id token hinv with
    ⟨hno, _⟩ | ⟨_, b2, hcall, hx, hy, _, _, hinv2⟩
  · exact absurd hacc hno
  · refine ⟨b2, _, hcall, ?_⟩
    have hind := indexed_with b
      (Order.new orderType b.next_order_id_ side price quantity user_id token) hinv hacc.1
    have hcount := sweep_counts crossing
      (flat (bidsWith b (Order.new orderType b.next_order_id_ side price quantity user_id token)))
      (flat (asksWith b (Order.new orderType b.next_order_id_ side price quantity user_id token)))
      (indexInsert b.orders_ b.next_order_id_ ⟨side, price⟩)
    have hlen := (flat_with_perm b
      (Order.new orderType b.next_order_id_ side price quantity user_id token)).length_eq
    have hs := hinv.size_eq
    have hs2 := hinv2.size_eq
    rw [hx, hy] at hs2
    simp only [sweepOf, Order.new, List.length_append, List.length_cons, List.length_map]
      at hcount hlen hs2 ⊢
    refine ⟨by omega, by omega, ?_⟩
    intro t ht
    obtain ⟨e, he, het⟩ := List.mem_map.1 ht
    subst het
    have hnd := hind.ids_nodup
    rw [ids_append] at hnd
    have hnd2 := List.nodup_append.1 hnd
    have hev := sweep_events_ids crossing _ _ _ e he
    have hsl := sweep_ids_sublist crossing
      (flat (bidsWith b (Order.new orderType b.next_order_id_ side price quantity user_id token)))
      (flat (asksWith b (Order.new orderType b.next_order_id_ side price quantity user_id token)))
      (indexInsert b.orders_ b.next_order_id_ ⟨side, price⟩)
    have hgone : ∀ id, id ∉ ids (flat b2.bids_ ++ flat b2.asks_) →
        indexFind b2.orders_ id = none := by
      intro id hid
      rw [indexFind_eq_none]
      intro hk
      obtain ⟨kv, hkv, hkey⟩ := List.mem_map.1 hk
      exact hid (hkey ▸ hinv2.indexed.key_rests kv hkv)
    rcases sweep_event_pops crossing _ _ _ hnd2.1 hnd2.2.1 e he with hp | hp
    · left
      apply hgone
      rw [hx, hy, ids_append]
      intro hm
      rcases List.mem_append.1 hm with h1 | h1
      · exact hp h1
      · exact hnd2.2.2 hev.1 (hsl.2.subset h1)
    · right
      apply hgone
      rw [hx, hy, ids_append]
      intro hm
      rcases List.mem_append.1 hm with h1 | h1
      · exact hnd2.2.2 (hsl.1.subset h1) hev.2
      · exact hp h1

theorem trades_bounded_by_removed_witness :
    Reachable bookTwoBids ∧ bookTwoBids.Accepts OrderType.GoodTillCancel Side.Sell 10 ∧
    (AddOrder bookTwoBids OrderType.GoodTillCancel Side.Sell 10 4 "C" Token.YES).map
        (fun r => (r.2.length, Size r.1)) = .ok (2, 1) ∧
    (∃ b2 ts, AddOrder bookTwoBids OrderType.GoodTillCancel Side.Sell 10 4 "C" Token.YES
        = .ok (b2, ts) ∧
      Size b2 ≤ Size bookTwoBids + 1 ∧ ts.length ≤ Size bookTwoBids + 1 - Size b2 ∧
      ∀ t ∈ ts, indexFind b2.orders_ t.bidTrade_.orderId_ = none ∨
        indexFind b2.orders_ t.askTrade_.orderId_ = none) :=
  ⟨bookTwoBids_reachable, by decide, rfl,
    (trades_bounded_by_removed bookTwoBids bookTwoBids_reachable OrderType.GoodTillCancel
      Side.Sell 10 4 "C" Token.YES (by decide)).2⟩

/-! ## C19 -/

/-- When the only order of the first sequence that can pass the test against the second
sequence is the one with identifier `i`, every pairing has that order as its first order. -/
theorem sweep_first_only (cross : Nat → Nat → Bool) (i : Nat) (xs ys : List Order) :
    ∀ idx, (∀ x ∈ xs, x.orderId_ ≠ i → ∀ y ∈ ys, cross x.price_ y.price_ = false) →
      ∀ e ∈ (sweep cross xs ys idx).events, e.first.orderId_ = i := by
  induction xs, ys using pairing_induction with
  | nil_left ys => intro idx _ e h; simp [sweep_nil_left] at h
  | nil_right xs => intro idx _ e h; simp [sweep_nil_right] at h
  | step x xt y yt ih =>
    intro idx hyp e h
    by_cases hc : cross x.price_ y.price_ = true
    · have hxi : x.orderId_ = i := by
        by_contra hne
        have := hyp x (by simp) hne y (by simp)
        rw [hc] at this
        exact Bool.noConfusion this
      rw [sweep_step cross x y xt yt idx hc _ rfl _ rfl] at h
      rcases List.mem_cons.1 h with h1 | h1
      · rw [h1]; exact hxi
      · apply ih _ _ e h1
        intro a ha hai c hcm
        have ha2 : a ∈ xt := by
          rcases mem_residue ha with h2 | h2
          · rw [h2] at hai; exact absurd hxi hai
          · exact h2
        rcases mem_residue hcm with h3 | h3
        · rw [h3]
          exact hyp a (by simp [ha2]) hai y (by simp)
        · exact hyp a (by simp [ha2]) hai c (by simp [h3])
    · rw [sweep_stop cross x y xt yt idx (by simpa using hc)] at h
      simp at h

/-- The same on the second sequence. -/
theorem sweep_second_only (cross : Nat → Nat → Bool) (i : Nat) (xs ys : List Order)
    (idx : OrderIndex)
    (hyp : ∀ y ∈ ys, y.orderId_ ≠ i → ∀ x ∈ xs, cross x.price_ y.price_ = false) :
    ∀ e ∈ (sweep cross xs ys idx).events, e.second.orderId_ = i := by
  intro e he
  have h1 := sweep_first_only (fun p q => cross q p) i ys xs idx hyp e.swap (by
    rw [sweep_swap]
    exact List.mem_map.2 ⟨e, he, rfl⟩)
  exact h1

/-- In a book satisfying the invariant no resting bid crosses a resting ask. -/
theorem Inv.resting_do_not_cross {b : Orderbook} (h : Inv b) {x y : Order}
    (hx : x ∈ flat b.bids_) (hy : y ∈ flat b.asks_) : crossing x.price_ y.price_ = false := by
  obtain ⟨lx, hlx, hxq⟩ := mem_flat.1 hx
  obtain ⟨ly, hly, hyq⟩ := mem_flat.1 hy
  have h1 := ((h.bids_ok lx hlx).2 x hxq).2
  have h2 := ((h.asks_ok ly hly).2 y hyq).2
  have := h.all_below lx.1 (List.mem_map.2 ⟨lx, hlx, rfl⟩) ly.1 (List.mem_map.2 ⟨ly, hly, rfl⟩)
  simp [crossing, h1, h2, this]

theorem mem_flat_bidsWith {b : Orderbook} {o a : Order} (h : a ∈ flat (bidsWith b o)) :
    a ∈ flat b.bids_ ∨ (o.side_ = Side.Buy ∧ a = o) := by
  unfold bidsWith at h
  split at h
  · rename_i hs
    rcases List.mem_cons.1 ((flat_pushBack_perm greater o b.bids_).mem_iff.1 h) with h1 | h1
    · exact Or.inr ⟨hs, h1⟩
    · exact Or.inl h1
  · exact Or.inl h

/-- C19. `AddOrder` on a reachable book returns normally and every returned trade names the
newly submitted order on its own side: the bid record carries the new identifier when the
submission is a buy, the ask record when it is a sell. No trade pairs two orders that both
rested before the call. -/
theorem trades_name_incoming (b : Orderbook) (h : Reachable b) (orderType : OrderType)
    (side : Side) (price quantity : Nat) (user_id : String) (token : Token) :
    ∃ b2 ts, AddOrder b orderType side price quantity user_id token = .ok (b2, ts) ∧
      ∀ t ∈ ts,
        (side = Side.Buy → t.bidTrade_.orderId_ = b.next_order_id_) ∧
        (side = Side.Sell → t.askTrade_.orderId_ = b.next_order_id_) ∧
        t.names b.next_order_id_ ∧
        ¬ (t.bidTrade_.orderId_ ∈ ids (flat b.bids_ ++ flat b.asks_) ∧
           t.askTrade_.orderId_ ∈ ids (flat b.bids_ ++ flat b.asks_)) := by
  have hinv := h.inv
  rcases AddOrder_cases b orderType side price quantity user_id token hinv with
    ⟨_, hcall⟩ | ⟨hacc, b2, hcall, _, _, _, _, _⟩
  · exact ⟨_, [], hcall, by simp⟩
  · refine ⟨b2, _, hcall, ?_⟩
    intro t ht
    obtain ⟨e, he, het⟩ := List.mem_map.1 ht
    subst het
    have hfresh := hinv.not_resting hacc.1
    have hbuy : side = Side.Buy → e.first.orderId_ = b.next_order_id_ := by
      intro hs
      apply sweep_first_only crossing b.next_order_id_ _ _ _ _ e he
      intro x hx hxi y hy
      rcases mem_flat_bidsWith hx with h1 | ⟨_, h1⟩
      · rcases mem_flat_asksWith hy with h2 | ⟨h2, _⟩
        · exact hinv.resting_do_not_cross h1 h2
        · simp only [Order.new] at h2
          rw [hs] at h2
          exact absurd h2 (by decide)
      · rw [h1] at hxi
        exact absurd rfl hxi
    have hsell : side = Side.Sell → e.second.orderId_ = b.next_order_id_ := by
      intro hs
      apply sweep_second_only crossing b.next_order_id_ _ _ _ _ e he
      intro y hy hyi x hx
      rcases mem_flat_asksWith hy with h1 | ⟨_, h1⟩
      · rcases mem_flat_bidsWith hx with h2 | ⟨h2, _⟩
        · exact hinv.resting_do_not_cross h2 h1
        · simp only [Order.new] at h2
          rw [hs] at h2
          exact absurd h2 (by decide)
      · rw [h1] at hyi
        exact absurd rfl hyi
    have hnames : e.toTrade.names b.next_order_id_ := by
      cases side
      · exact Or.inl (hbuy rfl)
      · exact Or.inr (hsell rfl)
    refine ⟨hbuy, hsell, hnames, ?_⟩
    rintro ⟨h1, h2⟩
    rcases hnames with h3 | h3
    · rw [h3] at h1; exact hfresh h1
    · rw [h3] at h2; exact hfresh h2

theorem trades_name_incoming_witness :
    Reachable bookBidLadder ∧
    (AddOrder bookBidLadder OrderType.GoodTillCancel Side.Sell 10 4 "C" Token.YES).map Prod.snd =
      .ok [{ bidTrade_ := ⟨2, 10, 3⟩, askTrade_ := ⟨3, 10, 3⟩ },
           { bidTrade_ := ⟨1, 10, 1⟩, askTrade_ := ⟨3, 10, 1⟩ }] ∧
    ∃ b2 ts, AddOrder bookBidLadder OrderType.GoodTillCancel Side.Sell 10 4 "C" Token.YES
        = .ok (b2, ts) ∧
      ∀ t ∈ ts,
        (Side.Sell = Side.Buy → t.bidTrade_.orderId_ = bookBidLadder.next_order_id_) ∧
        (Side.Sell = Side.Sell → t.askTrade_.orderId_ = bookBidLadder.next_order_id_) ∧
        t.names bookBidLadder.next_order_id_ ∧
        ¬ (t.bidTrade_.orderId_ ∈ ids (flat bookBidLadder.bids_ ++ flat bookBidLadder.asks_) ∧
           t.askTrade_.orderId_ ∈ ids (flat bookBidLadder.bids_ ++ flat bookBidLadder.asks_)) :=
  ⟨bookBidLadder_reachable, rfl,
    trades_name_incoming bookBidLadder bookBidLadder_reachable OrderType.GoodTillCancel
      Side.Sell 10 4 "C" Token.YES⟩

/-! ## C14 -/

theorem Trace.reachable {n : Nat} {b : Orderbook} (h : Trace n b) : Reachable b := by
  induction h with
  | empty => exact Reachable.empty
  | add n b b2 orderType side price quantity user_id token trades _ hp hq hcall ih =>
    exact Reachable.add b b2 orderType side price quantity user_id token trades ih hp hq hcall
  | cancel n b b2 orderId _ hid hcall ih =>
    exact Reachable.cancel b b2 orderId ih hid hcall

theorem Reachable.trace {b : Orderbook} (h : Reachable b) : ∃ n, Trace n b := by
  induction h with
  | empty => exact ⟨0, Trace.empty⟩
  | add b b2 orderType side price quantity user_id token trades _ hp hq hcall ih =>
    obtain ⟨n, hn⟩ := ih
    exact ⟨n + 1, Trace.add n b b2 orderType side price quantity user_id token trades hn hp hq
      hcall⟩
  | cancel b b2 orderId _ hid hcall ih =>
    obtain ⟨n, hn⟩ := ih
    exact ⟨n, Trace.cancel n b b2 orderId hn hid hcall⟩

/-- `CancelOrder` does not touch the identifier counter. -/
theorem CancelOrder_counter (b b2 : Orderbook) (orderId : Nat)
    (hcall : CancelOrder b orderId = .ok b2) : b2.next_order_id_ = b.next_order_id_ := by
  unfold CancelOrder at hcall
  split at hcall
  · simp only [Except.ok.injEq] at hcall
    rw [← hcall]
  · split at hcall
    · split at hcall
      · exact Except.noConfusion hcall
      · simp only [Except.ok.injEq] at hcall
        rw [← hcall]
    · split at hcall
      · exact Except.noConfusion hcall
      · simp only [Except.ok.injEq] at hcall
        rw [← hcall]

/-- `AddOrder` advances the identifier counter by one modulo `2^32`. -/
theorem AddOrder_counter (b b2 : Orderbook) (orderType : OrderType) (side : Side)
    (price quantity : Nat) (user_id : String) (token : Token) (ts : Trades) (h : Inv b)
    (hcall : AddOrder b orderType side price quantity user_id token = .ok (b2, ts)) :
    b2.next_order_id_ = (b.next_order_id_ + 1) % UINT32_MOD := by
  rcases AddOrder_cases b orderType side price quantity user_id token h with
    ⟨_, hc⟩ | ⟨_, b3, hc, _, _, _, hn, _⟩
  · rw [hc] at hcall
    simp only [Except.ok.injEq, Prod.mk.injEq] at hcall
    rw [← hcall.1]
  · rw [hc] at hcall
    simp only [Except.ok.injEq, Prod.mk.injEq] at hcall
    rw [← hcall.1]
    exact hn

/-- After `n` calls of `AddOrder` the counter is `n + 1` modulo `2^32`. -/
theorem Trace.counter {n : Nat} {b : Orderbook} (h : Trace n b) :
    b.next_order_id_ = (n + 1) % UINT32_MOD := by
  induction h with
  | empty => rfl
  | add n b b2 orderType side price quantity user_id token trades ht _ _ hcall ih =>
    rw [AddOrder_counter b b2 orderType side price quantity user_id token trades
      ht.reachable.inv hcall, ih, Nat.mod_add_mod]
  | cancel n b b2 orderId _ _ hcall ih =>
    rw [CancelOrder_counter b b2 orderId hcall, ih]

/-- A `FillAndKill` buy on a book without asks only advances the counter. -/
theorem AddOrder_skip (b : Orderbook) (k : Nat) (hasks : b.asks_ = []) :
    AddOrder (b.withCounter k) OrderType.FillAndKill Side.Buy 0 0 "" Token.YES =
      .ok (b.withCounter ((k + 1) % UINT32_MOD), []) := by
  have hcm : CanMatch { b.withCounter k with next_order_id_ := (k + 1) % UINT32_MOD } Side.Buy 0
      = false := by
    simp [CanMatch, Orderbook.withCounter, hasks]
  by_cases hk : indexFind b.orders_ k = none
  · exact AddOrderInternal_killed _ _ rfl hcm
  · exact AddOrderInternal_known _ _ hk

/-- Submitting such orders `m` times advances the counter `m` times. -/
theorem Trace.skip (b : Orderbook) (hasks : b.asks_ = []) (m : Nat) :
    ∀ n k, k < UINT32_MOD → Trace n (b.withCounter k) →
      Trace (n + m) (b.withCounter ((k + m) % UINT32_MOD)) := by
  induction m with
  | zero =>
    intro n k hk ht
    rw [Nat.add_zero, Nat.add_zero, Nat.mod_eq_of_lt hk]
    exact ht
  | succ m ih =>
    intro n k hk ht
    have h1 := ih n k hk ht
    have h2 := Trace.add (n + m) _ _ OrderType.FillAndKill Side.Buy 0 0 "" Token.YES [] h1
      (by decide) (by decide) (AddOrder_skip b ((k + m) % UINT32_MOD) hasks)
    rw [Nat.mod_add_mod] at h2
    exact h2

/-- C14 (as stated, refuted). A run of `2^32` calls of `AddOrder` from the empty book ends in
the empty book with the counter back at 1: the call that follows is assigned the identifier 1,
like the first call of the run. One call earlier the counter is 0, so the call assigned
`2^32 - 1` is followed by the call assigned 0. -/
theorem identifier_counter_wraps :
    Orderbook.empty.next_order_id_ = 1 ∧
    Trace 4294967296 Orderbook.empty ∧
    Trace 4294967294 (Orderbook.empty.withCounter 4294967295) ∧
    Trace 4294967295 (Orderbook.empty.withCounter 0) ∧
    ¬ (∀ (m n : Nat) (b1 b2 : Orderbook), Trace m b1 → Trace n b2 → m < n →
        b1.next_order_id_ < b2.next_order_id_) := by
  have h0 : Trace 0 (Orderbook.empty.withCounter 1) := Trace.empty
  have hw := Trace.skip Orderbook.empty rfl 4294967296 0 1 (by decide) h0
  have hv := Trace.skip Orderbook.empty rfl 4294967294 0 1 (by decide) h0
  have hu := Trace.skip Orderbook.empty rfl 4294967295 0 1 (by decide) h0
  have e1 : (1 + 4294967296) % UINT32_MOD = 1 := by decide
  have e2 : (1 + 4294967294) % UINT32_MOD = 4294967295 := by decide
  have e3 : (1 + 4294967295) % UINT32_MOD = 0 := by decide
  rw [e1] at hw
  rw [e2] at hv
  rw [e3] at hu
  simp only [Nat.zero_add] at hw hv hu
  refine ⟨rfl, hw, hv, hu, ?_⟩
  intro hall
  have := hall 0 4294967296 _ _ Trace.empty hw (by decide)
  exact absurd this (by decide)

/-- C14 (amended). The call of `AddOrder` that follows `n` earlier calls on the same engine,
whatever cancels and fills were interleaved, is assigned the identifier `n + 1` modulo `2^32`.
Hence, as long as fewer than `2^32 - 1` calls precede, a later call is assigned a strictly
greater identifier than an earlier one, and no two calls are assigned the same identifier. -/
theorem identifiers_follow_counter (m n : Nat) (b1 b2 : Orderbook) (h1 : Trace m b1)
    (h2 : Trace n b2) :
    b1.next_order_id_ = (m + 1) % UINT32_MOD ∧
    b2.next_order_id_ = (n + 1) % UINT32_MOD ∧
    (n + 1 < UINT32_MOD → b2.next_order_id_ = n + 1) ∧
    (m < n → n + 1 < UINT32_MOD → b1.next_order_id_ < b2.next_order_id_) ∧
    (m < n → n + 1 < UINT32_MOD → b1.next_order_id_ ≠ b2.next_order_id_) := by
  have e1 := h1.counter
  have e2 := h2.counter
  refine ⟨e1, e2, ?_, ?_, ?_⟩
  · intro hn
    rw [e2, Nat.mod_eq_of_lt hn]
  · intro hmn hn
    rw [e1, e2, Nat.mod_eq_of_lt hn, Nat.mod_eq_of_lt (by omega)]
    omega
  · intro hmn hn
    rw [e1, e2, Nat.mod_eq_of_lt hn, Nat.mod_eq_of_lt (by omega)]
    omega

theorem identifiers_follow_counter_witness :
    Trace 0 Orderbook.empty ∧ Trace 1 bookOneBid ∧
    Orderbook.empty.next_order_id_ = (0 + 1) % UINT32_MOD ∧
    bookOneBid.next_order_id_ = (1 + 1) % UINT32_MOD ∧
    (1 + 1 < UINT32_MOD → bookOneBid.next_order_id_ = 1 + 1) ∧
    (0 < 1 → 1 + 1 < UINT32_MOD →
      Orderbook.empty.next_order_id_ < bookOneBid.next_order_id_) ∧
    (0 < 1 → 1 + 1 < UINT32_MOD →
      Orderbook.empty.next_order_id_ ≠ bookOneBid.next_order_id_) :=
  ⟨Trace.empty,
    Trace.add 0 Orderbook.empty bookOneBid OrderType.GoodTillCancel Side.Buy 10 5 "A" Token.YES []
      Trace.empty (by decide) (by decide) rfl,
    identifiers_follow_counter 0 1 Orderbook.empty bookOneBid Trace.empty
      (Trace.add 0 Orderbook.empty bookOneBid OrderType.GoodTillCancel Side.Buy 10 5 "A"
        Token.YES [] Trace.empty (by decide) (by decide) rfl)⟩

/-! ## C15 -/

/-- On a book that is not crossed the loop of `MatchOrders` breaks at once. -/
theorem matchLoop_uncrossed (fuel : Nat) (b : Orderbook) (ts : Trades) (h : Uncrossed b) :
    matchLoop fuel b ts = .ok (b, ts) := by
  obtain ⟨bids, asks, orders, nxt⟩ := b
  cases bids with
  | nil => rw [matchLoop]
  | cons bl br =>
    cases asks with
    | nil => rw [matchLoop]
    | cons al ar =>
      obtain ⟨bp, bq⟩ := bl
      obtain ⟨ap, aq⟩ := al
      have hlt : bp < ap := h
      rw [matchLoop]
      simp [hlt]

/-- Where `levelsPushBack` puts the order: at the tail of the level of its price, or in a new
level holding only that order. -/
theorem levelsPushBack_split (comp : Nat → Nat → Bool) (o : Order) (levels : Levels) :
    ∃ pre post, o.price_ ∉ levelKeys pre ∧
      ((∃ q, levels = pre ++ (o.price_, q) :: post ∧
          levelsPushBack comp o levels = pre ++ (o.price_, q ++ [o]) :: post) ∨
       (levels = pre ++ post ∧
          levelsPushBack comp o levels = pre ++ (o.price_, [o]) :: post)) := by
  induction levels with
  | nil => exact ⟨[], [], by simp [levelKeys], Or.inr ⟨rfl, rfl⟩⟩
  | cons lv rest ih =>
    obtain ⟨p, q⟩ := lv
    by_cases h1 : p = o.price_
    · exact ⟨[], rest, by simp [levelKeys],
        Or.inl ⟨q, by simp [h1], by simp [levelsPushBack, h1]⟩⟩
    · by_cases h2 : comp o.price_ p = true
      · exact ⟨[], (p, q) :: rest, by simp [levelKeys],
          Or.inr ⟨rfl, by simp [levelsPushBack, h1, h2]⟩⟩
      · obtain ⟨pre, post, hp, hcase⟩ := ih
        have hp2 : o.price_ ∉ levelKeys ((p, q) :: pre) := by
          simp only [levelKeys, List.map_cons, List.mem_cons, not_or]
          exact ⟨fun hx => h1 hx.symm, hp⟩
        rw [Bool.not_eq_true] at h2
        rcases hcase with ⟨q2, e1, e2⟩ | ⟨e1, e2⟩
        · exact ⟨(p, q) :: pre, post, hp2,
            Or.inl ⟨q2, by simp [e1], by simp [levelsPushBack, h1, h2, e2]⟩⟩
        · exact ⟨(p, q) :: pre, post, hp2,
            Or.inr ⟨by simp [e1], by simp [levelsPushBack, h1, h2, e2]⟩⟩

/-- The book after the insertion step of a submission that cannot match is not crossed. -/
theorem uncrossed_with (b : Orderbook) (o : Order) (h : Inv b)
    (hno : CanMatch b o.side_ o.price_ = false) (orders : OrderIndex) (nxt : Nat) :
    Uncrossed ⟨bidsWith b o, asksWith b o, orders, nxt⟩ := by
  rw [uncrossed_iff]
  intro bp hbp ap hap
  simp only at hbp hap
  have hbmem := List.mem_of_mem_head? hbp
  have hamem := List.mem_of_mem_head? hap
  cases hs : o.side_ with
  | Buy =>
    rw [hs] at hno
    simp only [bidsWith, asksWith, hs, if_true] at hbmem hamem hap
    cases hasks : b.asks_ with
    | nil => rw [hasks] at hamem; simp [levelKeys] at hamem
    | cons al ar =>
      obtain ⟨ap0, aq⟩ := al
      rw [hasks] at hap
      simp only [levelKeys, List.map_cons, List.head?_cons, Option.mem_def,
        Option.some.injEq] at hap
      simp only [CanMatch, hasks, decide_eq_false_iff_not, not_le] at hno
      rcases levelKeys_pushBack_subset greater o b.bids_ bp hbmem with h1 | h1
      · rw [h1, ← hap]; omega
      · exact h.all_below bp h1 ap (by rw [hasks]; simp [levelKeys, hap])
  | Sell =>
    rw [hs] at hno
    simp only [bidsWith, asksWith, hs, reduceCtorEq, if_false] at hbmem hamem hbp
    cases hbids : b.bids_ with
    | nil => rw [hbids] at hbmem; simp [levelKeys] at hbmem
    | cons bl br =>
      obtain ⟨bp0, bq⟩ := bl
      rw [hbids] at hbp
      simp only [levelKeys, List.map_cons, List.head?_cons, Option.mem_def,
        Option.some.injEq] at hbp
      simp only [CanMatch, hbids, decide_eq_false_iff_not, not_le] at hno
      rcases levelKeys_pushBack_subset less o b.asks_ ap hamem with h1 | h1
      · rw [h1, ← hbp]; omega
      · exact h.all_below bp (by rw [hbids]; simp [levelKeys, hbp]) ap h1

/-- An order that passes both guards is matched on the book of the insertion step. -/
theorem AddOrderInternal_match (b : Orderbook) (o : Order)
    (hnew : indexFind b.orders_ o.orderId_ = none)
    (hgo : ¬ (o.orderType_ = OrderType.FillAndKill ∧ CanMatch b o.side_ o.price_ = false)) :
    AddOrderInternal b o =
      MatchOrders ⟨bidsWith b o, asksWith b o,
        indexInsert b.orders_ o.orderId_ ⟨o.side_, o.price_⟩, b.next_order_id_⟩ := by
  have hsome : (indexFind b.orders_ o.orderId_).isSome = false := by simp [hnew]
  unfold AddOrderInternal
  simp only [hsome, Bool.false_eq_true, if_false, hgo]
  unfold bidsWith asksWith
  by_cases hs : o.side_ = Side.Buy <;> simp [hs]

/-- A submission that passes the first guard and cannot match comes to rest: the call returns
the book after the insertion step and no trade. -/
theorem AddOrder_rests (b : Orderbook) (h : Inv b) (side : Side) (price quantity : Nat)
    (user_id : String) (token : Token) (hno : CanMatch b side price = false)
    (hfresh : indexFind b.orders_ b.next_order_id_ = none) :
    AddOrder b OrderType.GoodTillCancel side price quantity user_id token =
      .ok (⟨bidsWith b (Order.new OrderType.GoodTillCancel b.next_order_id_ side price quantity
              user_id token),
            asksWith b (Order.new OrderType.GoodTillCancel b.next_order_id_ side price quantity
              user_id token),
            (b.next_order_id_, ⟨side, price⟩) :: b.orders_,
            (b.next_order_id_ + 1) % UINT32_MOD⟩, []) := by
  have hu := uncrossed_with b
    (Order.new OrderType.GoodTillCancel b.next_order_id_ side price quantity user_id token) h hno
    ((b.next_order_id_, ⟨side, price⟩) :: b.orders_) ((b.next_order_id_ + 1) % UINT32_MOD)
  have hm := AddOrderInternal_match { b with next_order_id_ := (b.next_order_id_ + 1) % UINT32_MOD }
    (Order.new OrderType.GoodTillCancel b.next_order_id_ side price quantity user_id token)
    hfresh (by simp [Order.new])
  have hins : indexInsert b.orders_ b.next_order_id_ ⟨side, price⟩
      = (b.next_order_id_, ⟨side, price⟩) :: b.orders_ := by
    simp [indexInsert, hfresh]
  unfold AddOrder
  rw [hm]
  simp only [Order.new] at hins ⊢
  rw [hins]
  exact matchLoop_uncrossed _ _ _ hu

theorem not_mem_keys_post {p : Nat} {q : OrderPointers} {pre post : Levels}
    (h : (levelKeys (pre ++ (p, q) :: post)).Nodup) : p ∉ levelKeys post := by
  simp only [levelKeys, List.map_append, List.map_cons] at h
  exact (List.nodup_cons.1 (List.nodup_append.1 h).2.1).1

/-- C15 (as stated, refuted). The book holding the resting buy with identifier 1 is reached
again with the counter back at 1 (after `2^32 - 1` further submissions). There a
`GoodTillCancel` buy at 9, which does not cross, returns no trade and is not appended: the result
is the same book with the counter at 2, and `Size` is unchanged. -/
theorem resting_submission_dropped :
    Reachable (bookOneBid.withCounter 1) ∧
    CanMatch (bookOneBid.withCounter 1) Side.Buy 9 = false ∧
    AddOrder (bookOneBid.withCounter 1) OrderType.GoodTillCancel Side.Buy 9 1 "B" Token.YES
      = .ok (bookOneBid, []) ∧
    Size bookOneBid = Size (bookOneBid.withCounter 1) ∧
    bookOneBid.bids_ = (bookOneBid.withCounter 1).bids_ := by
  have h1 : Trace 1 (bookOneBid.withCounter 2) :=
    Trace.add 0 Orderbook.empty bookOneBid OrderType.GoodTillCancel Side.Buy 10 5 "A" Token.YES []
      Trace.empty (by decide) (by decide) rfl
  have h2 := Trace.skip bookOneBid rfl 4294967295 1 2 (by decide) h1
  have e : (2 + 4294967295) % UINT32_MOD = 1 := by decide
  rw [e] at h2
  exact ⟨h2.reachable, by decide, rfl, rfl, rfl⟩

/-- C15 (amended). On a reachable book whose next identifier is not in the index, a
`GoodTillCancel` submission whose price does not cross returns no trade; the new order, with
remaining quantity equal to its quantity, is appended at the tail of the queue of the level at
its price on its side, the level being created when the side has none at that price; every
other level of that side and the whole opposite side are unchanged; the index gains exactly the
entry of the new identifier and `Size` increases by one. -/
theorem resting_submission_appends (b : Orderbook) (h : Reachable b) (side : Side)
    (price quantity : Nat) (user_id : String) (token : Token)
    (hno : CanMatch b side price = false)
    (hfresh : indexFind b.orders_ b.next_order_id_ = none) :
    ∃ b2 pre post,
      AddOrder b OrderType.GoodTillCancel side price quantity user_id token = .ok (b2, []) ∧
      price ∉ levelKeys pre ∧ price ∉ levelKeys post ∧
      ((∃ q, b.sideLevels side = pre ++ (price, q) :: post ∧
          b2.sideLevels side = pre ++ (price, q ++
            [Order.new OrderType.GoodTillCancel b.next_order_id_ side price quantity user_id
              token]) :: post) ∨
       (b.sideLevels side = pre ++ post ∧
          b2.sideLevels side = pre ++ (price,
            [Order.new OrderType.GoodTillCancel b.next_order_id_ side price quantity user_id
              token]) :: post)) ∧
      (Order.new OrderType.GoodTillCancel b.next_order_id_ side price quantity user_id
        token).remainingQuantity_ = quantity ∧
      (side = Side.Buy → b2.asks_ = b.asks_) ∧ (side = Side.Sell → b2.bids_ = b.bids_) ∧
      Size b2 = Size b + 1 ∧
      indexFind b2.orders_ b.next_order_id_ = some ⟨side, price⟩ ∧
      (∀ k, k ≠ b.next_order_id_ → indexFind b2.orders_ k = indexFind b.orders_ k) := by
  have hinv := h.inv
  have hcall := AddOrder_rests b hinv side price quantity user_id token hno hfresh
  have hidx1 : indexFind ((b.next_order_id_, (⟨side, price⟩ : OrderEntry)) :: b.orders_)
      b.next_order_id_ = some ⟨side, price⟩ := by simp [indexFind]
  have hidx2 : ∀ k, k ≠ b.next_order_id_ →
      indexFind ((b.next_order_id_, (⟨side, price⟩ : OrderEntry)) :: b.orders_) k
        = indexFind b.orders_ k := by
    intro k hk
    simp [indexFind, Ne.symm hk]
  cases side with
  | Buy =>
    obtain ⟨pre, post, hp, hcase⟩ := levelsPushBack_split greater
      (Order.new OrderType.GoodTillCancel b.next_order_id_ Side.Buy price quantity user_id token)
      b.bids_
    have hsorted := (bidsWith_facts b
      (Order.new OrderType.GoodTillCancel b.next_order_id_ Side.Buy price quantity user_id token)
      hinv).1
    have hb : bidsWith b (Order.new OrderType.GoodTillCancel b.next_order_id_ Side.Buy price
        quantity user_id token) = levelsPushBack greater
        (Order.new OrderType.GoodTillCancel b.next_order_id_ Side.Buy price quantity user_id
          token) b.bids_ := by simp [bidsWith, Order.new]
    have ha : asksWith b (Order.new OrderType.GoodTillCancel b.next_order_id_ Side.Buy price
        quantity user_id token) = b.asks_ := by simp [asksWith, Order.new]
    rw [hb] at hsorted
    rw [hb, ha] at hcall
    have hpost : price ∉ levelKeys post := by
      rcases hcase with ⟨q, _, e2⟩ | ⟨_, e2⟩
      · rw [e2] at hsorted
        exact not_mem_keys_post (sorted_keys_nodup_gt hsorted)
      · rw [e2] at hsorted
        exact not_mem_keys_post (sorted_keys_nodup_gt hsorted)
    exact ⟨_, pre, post, hcall, hp, hpost, hcase, rfl, fun _ => rfl,
      fun hs => absurd hs (by decide), by simp [Size], hidx1, hidx2⟩
  | Sell =>
    obtain ⟨pre, post, hp, hcase⟩ := levelsPushBack_split less
      (Order.new OrderType.GoodTillCancel b.next_order_id_ Side.Sell price quantity user_id token)
      b.asks_
    have hsorted := (asksWith_facts b
      (Order.new OrderType.GoodTillCancel b.next_order_id_ Side.Sell price quantity user_id token)
      hinv).1
    have hb : bidsWith b (Order.new OrderType.GoodTillCancel b.next_order_id_ Side.Sell price
        quantity user_id token) = b.bids_ := by simp [bidsWith, Order.new]
    have ha : asksWith b (Order.new OrderType.GoodTillCancel b.next_order_id_ Side.Sell price
        quantity user_id token) = levelsPushBack less
        (Order.new OrderType.GoodTillCancel b.next_order_id_ Side.Sell price quantity user_id
          token) b.asks_ := by simp [asksWith, Order.new]
    rw [ha] at hsorted
    rw [hb, ha] at hcall
    have hpost : price ∉ levelKeys post := by
      rcases hcase with ⟨q, _, e2⟩ | ⟨_, e2⟩
      · rw [e2] at hsorted
        exact not_mem_keys_post (sorted_keys_nodup_lt hsorted)
      · rw [e2] at hsorted
        exact not_mem_keys_post (sorted_keys_nodup_lt hsorted)
    exact ⟨_, pre, post, hcall, hp, hpost, hcase, rfl, fun hs => absurd hs (by decide),
      fun _ => rfl, by simp [Size], hidx1, hidx2⟩

theorem resting_submission_appends_witness :
    Reachable bookOneBid ∧ CanMatch bookOneBid Side.Sell 12 = false ∧
    indexFind bookOneBid.orders_ bookOneBid.next_order_id_ = none ∧
    (AddOrder Orderbook.empty OrderType.GoodTillCancel Side.Buy 10 5 "A" Token.YES
      = .ok (bookOneBid, []) ∧
     GetOrderInfos bookOneBid = ⟨[⟨10, 5⟩], []⟩) ∧
    (AddOrder bookOneBid OrderType.GoodTillCancel Side.Sell 12 4 "C" Token.YES).map
      (fun r => (GetOrderInfos r.1, r.2)) = .ok (⟨[⟨10, 5⟩], [⟨12, 4⟩]⟩, []) ∧
    ∃ b2 pre post,
      AddOrder bookOneBid OrderType.GoodTillCancel Side.Sell 12 4 "C" Token.YES = .ok (b2, []) ∧
      12 ∉ levelKeys pre ∧ 12 ∉ levelKeys post ∧
      ((∃ q, bookOneBid.sideLevels Side.Sell = pre ++ (12, q) :: post ∧
          b2.sideLevels Side.Sell = pre ++ (12, q ++
            [Order.new OrderType.GoodTillCancel bookOneBid.next_order_id_ Side.Sell 12 4 "C"
              Token.YES]) :: post) ∨
       (bookOneBid.sideLevels Side.Sell = pre ++ post ∧
          b2.sideLevels Side.Sell = pre ++ (12,
            [Order.new OrderType.GoodTillCancel bookOneBid.next_order_id_ Side.Sell 12 4 "C"
              Token.YES]) :: post)) ∧
      (Order.new OrderType.GoodTillCancel bookOneBid.next_order_id_ Side.Sell 12 4 "C"
        Token.YES).remainingQuantity_ = 4 ∧
      (Side.Sell = Side.Buy → b2.asks_ = bookOneBid.asks_) ∧
      (Side.Sell = Side.Sell → b2.bids_ = bookOneBid.bids_) ∧
      Size b2 = Size bookOneBid + 1 ∧
      indexFind b2.orders_ bookOneBid.next_order_id_ = some ⟨Side.Sell, 12⟩ ∧
      (∀ k, k ≠ bookOneBid.next_order_id_ →
        indexFind b2.orders_ k = indexFind bookOneBid.orders_ k) :=
  ⟨bookOneBid_reachable, by decide, by decide, ⟨rfl, by decide⟩, rfl,
    resting_submission_appends bookOneBid bookOneBid_reachable Side.Sell 12 4 "C" Token.YES
      (by decide) (by decide)⟩

/-! ## C20 -/

theorem residue_anonymous (o : Order) (q : Nat) (rest : List Order) :
    residue o.anonymous q (rest.map Order.anonymous)
      = (residue o q rest).map Order.anonymous := by
  have e : (fillBy o.anonymous q).IsFilled = (fillBy o q).IsFilled := rfl
  simp only [residue, e]
  split
  · rfl
  · rfl

theorem matchLevel_anonymous (fuel : Nat) (bq aq : OrderPointers) (idx : OrderIndex)
    (ts : Trades) :
    matchLevel fuel (bq.map Order.anonymous) (aq.map Order.anonymous) idx ts
      = (matchLevel fuel bq aq idx ts).map
          (fun r => (r.1.map Order.anonymous, r.2.1.map Order.anonymous, r.2.2.1, r.2.2.2)) := by
  induction fuel generalizing bq aq idx ts with
  | zero =>
    cases bq with
    | nil => simp [matchLevel, Except.map]
    | cons x xt =>
      cases aq with
      | nil => simp [matchLevel, Except.map]
      | cons y yt => simp [matchLevel, Except.map]
  | succ n ih =>
    cases bq with
    | nil => simp [matchLevel, Except.map]
    | cons x xt =>
      cases aq with
      | nil => simp [matchLevel, Except.map]
      | cons y yt =>
        rw [matchLevel_succ n x y xt yt idx ts _ rfl]
        simp only [List.map_cons]
        rw [matchLevel_succ n x.anonymous y.anonymous _ _ idx ts
          (min x.remainingQuantity_ y.remainingQuantity_) rfl]
        rw [residue_anonymous, residue_anonymous]
        exact ih _ _ _ _

theorem Uncrossed_anonymous (b : Orderbook) : Uncrossed b.anonymous ↔ Uncrossed b := by
  obtain ⟨bids, asks, orders, nxt⟩ := b
  cases bids with
  | nil => exact Iff.rfl
  | cons bl br =>
    cases asks with
    | nil => exact Iff.rfl
    | cons al ar => exact Iff.rfl

theorem matchLoop_zero (bp ap : Nat) (bq aq : OrderPointers) (br ar : Levels)
    (orders : OrderIndex) (nxt : Nat) (ts : Trades) (h : ¬ bp < ap) :
    matchLoop 0 ⟨(bp, bq) :: br, (ap, aq) :: ar, orders, nxt⟩ ts = .error Error.out_of_fuel := by
  rw [matchLoop]
  simp only [h, if_false]

theorem head_after_anonymous (p : Nat) (q : OrderPointers) (rest : Levels) :
    (if (q.map Order.anonymous).isEmpty
      then levelsErase ((p, q.map Order.anonymous) :: anonLevels rest) p
      else (p, q.map Order.anonymous) :: anonLevels rest)
      = anonLevels (if q.isEmpty then levelsErase ((p, q) :: rest) p else (p, q) :: rest) := by
  cases q with
  | nil => simp [levelsErase]
  | cons a q3 => simp [anonLevels]

theorem matchLoop_anonymous (fuel : Nat) (b : Orderbook) (ts : Trades) :
    matchLoop fuel b.anonymous ts
      = (matchLoop fuel b ts).map (fun r => (r.1.anonymous, r.2)) := by
  induction fuel generalizing b ts with
  | zero =>
    by_cases hu : Uncrossed b
    · rw [matchLoop_uncrossed 0 b ts hu,
        matchLoop_uncrossed 0 b.anonymous ts ((Uncrossed_anonymous b).2 hu)]
      rfl
    · obtain ⟨bids, asks, orders, nxt⟩ := b
      cases bids with
      | nil => exact absurd trivial hu
      | cons bl br =>
        cases asks with
        | nil => exact absurd trivial hu
        | cons al ar =>
          obtain ⟨bp, bq⟩ := bl
          obtain ⟨ap, aq⟩ := al
          have hlt : ¬ bp < ap := hu
          rw [matchLoop_zero bp ap bq aq br ar orders nxt ts hlt]
          exact matchLoop_zero bp ap _ _ _ _ orders nxt ts hlt
  | succ n ih =>
    by_cases hu : Uncrossed b
    · rw [matchLoop_uncrossed _ b ts hu,
        matchLoop_uncrossed _ b.anonymous ts ((Uncrossed_anonymous b).2 hu)]
      rfl
    · obtain ⟨bids, asks, orders, nxt⟩ := b
      cases bids with
      | nil => exact absurd trivial hu
      | cons bl br =>
        cases asks with
        | nil => exact absurd trivial hu
        | cons al ar =>
          obtain ⟨bp, bq⟩ := bl
          obtain ⟨ap, aq⟩ := al
          have hlt : ¬ bp < ap := hu
          rw [matchLoop_iter n bp ap bq aq br ar orders nxt ts hlt]
          have e : Orderbook.anonymous ⟨(bp, bq) :: br, (ap, aq) :: ar, orders, nxt⟩
              = ⟨(bp, bq.map Order.anonymous) :: anonLevels br,
                 (ap, aq.map Order.anonymous) :: anonLevels ar, orders, nxt⟩ := rfl
          rw [e, matchLoop_iter n bp ap _ _ _ _ orders nxt ts hlt]
          simp only [List.length_map]
          rw [matchLevel_anonymous]
          cases hm : matchLevel (bq.length + aq.length) bq aq orders ts with
          | error err => rfl
          | ok r =>
            obtain ⟨bq2, aq2, orders2, ts2⟩ := r
            simp only [Except.map]
            rw [head_after_anonymous, head_after_anonymous]
            exact ih ⟨if bq2.isEmpty then levelsErase ((bp, bq2) :: br) bp else (bp, bq2) :: br,
              if aq2.isEmpty then levelsErase ((ap, aq2) :: ar) ap else (ap, aq2) :: ar,
              orders2, nxt⟩ ts2

theorem CanMatch_anonymous (b : Orderbook) (side : Side) (price : Nat) :
    CanMatch b.anonymous side price = CanMatch b side price := by
  obtain ⟨bids, asks, orders, nxt⟩ := b
  cases side with
  | Buy =>
    cases asks with
    | nil => rfl
    | cons al ar => rfl
  | Sell =>
    cases bids with
    | nil => rfl
    | cons bl br => rfl

theorem levelsPushBack_anonymous (comp : Nat → Nat → Bool) (o : Order) (levels : Levels) :
    levelsPushBack comp o.anonymous (anonLevels levels)
      = anonLevels (levelsPushBack comp o levels) := by
  have ep : o.anonymous.price_ = o.price_ := rfl
  induction levels with
  | nil => rfl
  | cons l rest ih =>
    obtain ⟨p, q⟩ := l
    have e : anonLevels ((p, q) :: rest) = (p, q.map Order.anonymous) :: anonLevels rest := rfl
    rw [e]
    simp only [levelsPushBack, ep]
    by_cases h1 : p = o.price_
    · simp [h1, anonLevels]
    · simp only [h1, if_false]
      by_cases h2 : comp o.price_ p = true
      · simp [h2, anonLevels]
      · simp only [h2, if_false]
        rw [ih]
        rfl

theorem MatchOrders_anonymous (b : Orderbook) :
    MatchOrders b.anonymous = (MatchOrders b).map (fun r => (r.1.anonymous, r.2)) := by
  have e := matchLoop_anonymous (b.bids_.length + b.asks_.length) b []
  simpa [MatchOrders, Orderbook.anonymous, anonLevels] using e

theorem bidsWith_anonymous (b : Orderbook) (o : Order) :
    bidsWith b.anonymous o.anonymous = anonLevels (bidsWith b o) := by
  have e4 : o.anonymous.side_ = o.side_ := rfl
  have e3 : b.anonymous.bids_ = anonLevels b.bids_ := rfl
  unfold bidsWith
  rw [e4, e3]
  by_cases hs : o.side_ = Side.Buy
  · simp only [hs, if_true]
    exact levelsPushBack_anonymous _ _ _
  · simp only [hs, if_false]

theorem asksWith_anonymous (b : Orderbook) (o : Order) :
    asksWith b.anonymous o.anonymous = anonLevels (asksWith b o) := by
  have e4 : o.anonymous.side_ = o.side_ := rfl
  have e3 : b.anonymous.asks_ = anonLevels b.asks_ := rfl
  unfold asksWith
  rw [e4, e3]
  by_cases hs : o.side_ = Side.Buy
  · simp only [hs, if_true]
  · simp only [hs, if_false]
    exact levelsPushBack_anonymous _ _ _

theorem AddOrderInternal_anonymous (b : Orderbook) (o : Order) :
    AddOrderInternal b.anonymous o.anonymous
      = (AddOrderInternal b o).map (fun r => (r.1.anonymous, r.2)) := by
  by_cases h1 : indexFind b.orders_ o.orderId_ = none
  · by_cases h2 : o.orderType_ = OrderType.FillAndKill ∧ CanMatch b o.side_ o.price_ = false
    · rw [AddOrderInternal_killed b o h2.1 h2.2,
        AddOrderInternal_killed b.anonymous o.anonymous h2.1
          ((CanMatch_anonymous b o.side_ o.price_).trans h2.2)]
      rfl
    · have h3 : ¬ (o.anonymous.orderType_ = OrderType.FillAndKill ∧
          CanMatch b.anonymous o.anonymous.side_ o.anonymous.price_ = false) := by
        intro h
        exact h2 ⟨h.1, (CanMatch_anonymous b o.side_ o.price_).symm.trans h.2⟩
      rw [AddOrderInternal_match b o h1 h2, AddOrderInternal_match b.anonymous o.anonymous h1 h3,
        bidsWith_anonymous, asksWith_anonymous]
      exact MatchOrders_anonymous
        ⟨bidsWith b o, asksWith b o, indexInsert b.orders_ o.orderId_ ⟨o.side_, o.price_⟩,
          b.next_order_id_⟩
  · rw [AddOrderInternal_known b o h1, AddOrderInternal_known b.anonymous o.anonymous h1]
    rfl

theorem AddOrder_anonymous (b : Orderbook) (orderType : OrderType) (side : Side)
    (price quantity : Nat) (user_id : String) (token : Token) :
    AddOrder b.anonymous orderType side price quantity "" Token.YES
      = (AddOrder b orderType side price quantity user_id token).map
          (fun r => (r.1.anonymous, r.2)) :=
  AddOrderInternal_anonymous { b with next_order_id_ := (b.next_order_id_ + 1) % UINT32_MOD }
    (Order.new orderType b.next_order_id_ side price quantity user_id token)

theorem levelsAt_anonymous (levels : Levels) (price : Nat) :
    levelsAt (anonLevels levels) price
      = (levelsAt levels price).map (List.map Order.anonymous) := by
  induction levels with
  | nil => rfl
  | cons l rest ih =>
    obtain ⟨p, q⟩ := l
    have e : anonLevels ((p, q) :: rest) = (p, q.map Order.anonymous) :: anonLevels rest := rfl
    rw [e]
    simp only [levelsAt]
    by_cases h : p = price
    · simp [h]
    · simp only [h, if_false]
      exact ih

theorem levelsSet_anonymous (levels : Levels) (price : Nat) (q2 : OrderPointers) :
    levelsSet (anonLevels levels) price (q2.map Order.anonymous)
      = anonLevels (levelsSet levels price q2) := by
  induction levels with
  | nil => rfl
  | cons l rest ih =>
    obtain ⟨p, q⟩ := l
    have e : anonLevels ((p, q) :: rest) = (p, q.map Order.anonymous) :: anonLevels rest := rfl
    rw [e]
    simp only [levelsSet]
    by_cases h : p = price
    · simp [h, anonLevels]
    · simp only [h, if_false]
      rw [ih]
      rfl

theorem levelsErase_anonymous (levels : Levels) (price : Nat) :
    levelsErase (anonLevels levels) price = anonLevels (levelsErase levels price) := by
  induction levels with
  | nil => rfl
  | cons l rest ih =>
    obtain ⟨p, q⟩ := l
    have e : anonLevels ((p, q) :: rest) = (p, q.map Order.anonymous) :: anonLevels rest := rfl
    rw [e]
    simp only [levelsErase]
    by_cases h : p = price
    · simp [h]
    · simp only [h, if_false]
      rw [ih]
      rfl

theorem queueErase_anonymous (q : OrderPointers) (id : Nat) :
    queueErase (q.map Order.anonymous) id
      = (queueErase q id).map (List.map Order.anonymous) := by
  induction q with
  | nil => rfl
  | cons o rest ih =>
    have e : o.anonymous.orderId_ = o.orderId_ := rfl
    simp only [List.map_cons, queueErase, e]
    by_cases h : o.orderId_ = id
    · simp [h]
    · simp only [h, if_false]
      rw [ih]
      cases queueErase rest id with
      | none => rfl
      | some r => rfl

theorem cancelInLevels_anonymous (levels : Levels) (price orderId : Nat) :
    cancelInLevels (anonLevels levels) price orderId
      = (cancelInLevels levels price orderId).map anonLevels := by
  unfold cancelInLevels
  rw [levelsAt_anonymous]
  cases levelsAt levels price with
  | none => rfl
  | some orderList =>
    simp only [Option.map_some']
    rw [queueErase_anonymous]
    cases queueErase orderList orderId with
    | none => rfl
    | some orderList2 =>
      simp only [Option.map_some']
      cases orderList2 with
      | nil =>
        simp only [List.map_nil, List.isEmpty_nil, if_true]
        rw [levelsErase_anonymous]
        rfl
      | cons a r =>
        simp only [List.map_cons, List.isEmpty_cons, Bool.false_eq_true, if_false]
        rw [← List.map_cons, levelsSet_anonymous]
        rfl

theorem CancelOrder_anonymous (b : Orderbook) (orderId : Nat) :
    CancelOrder b.anonymous orderId = (CancelOrder b orderId).map Orderbook.anonymous := by
  have e1 : b.anonymous.orders_ = b.orders_ := rfl
  have e2 : b.anonymous.asks_ = anonLevels b.asks_ := rfl
  have e3 : b.anonymous.bids_ = anonLevels b.bids_ := rfl
  unfold CancelOrder
  rw [e1]
  cases indexFind b.orders_ orderId with
  | none => rfl
  | some entry =>
    simp only [e1, e2, e3, cancelInLevels_anonymous]
    by_cases hs : entry.side_ = Side.Sell
    · simp only [hs, if_true]
      cases cancelInLevels b.asks_ entry.price_ orderId with
      | error err => rfl
      | ok asks => rfl
    · simp only [hs, if_false]
      cases cancelInLevels b.bids_ entry.price_ orderId with
      | error err => rfl
      | ok bids => rfl

theorem levelQuantity_anonymous (q : OrderPointers) :
    levelQuantity (q.map Order.anonymous) = levelQuantity q := by
  unfold levelQuantity
  rw [List.foldl_map]
  rfl

theorem GetOrderInfos_anonymous (b : Orderbook) :
    GetOrderInfos b.anonymous = GetOrderInfos b := by
  have e : ∀ levels : Levels, (anonLevels levels).map CreateLevelInfos
      = levels.map CreateLevelInfos := by
    intro levels
    simp only [anonLevels, List.map_map]
    apply List.map_congr_left
    intro l _
    simp only [Function.comp, CreateLevelInfos, levelQuantity_anonymous]
  simp only [GetOrderInfos, Orderbook.anonymous, e]

theorem call_anonymous (b : Orderbook) (c : Call) :
    b.anonymous.call c.anonymous = (b.call c).map (fun r => (r.1.anonymous, r.2)) := by
  cases c with
  | submit orderType side price quantity user_id token =>
    cases token with
    | none => exact AddOrder_anonymous b orderType side price quantity user_id Token.YES
    | some token => exact AddOrder_anonymous b orderType side price quantity user_id token
  | cancel orderId =>
    simp only [Call.anonymous, Orderbook.call]
    rw [CancelOrder_anonymous]
    cases CancelOrder b orderId with
    | error err => rfl
    | ok b2 => rfl

/-- A run on the blanked book with the blanked calls makes the observations of the run. -/
theorem run_anonymous (b : Orderbook) (cs : List Call) :
    b.anonymous.run (cs.map Call.anonymous) = b.run cs := by
  induction cs generalizing b with
  | nil => rfl
  | cons c cs ih =>
    simp only [List.map_cons, Orderbook.run]
    rw [call_anonymous]
    cases b.call c with
    | error err => rfl
    | ok r =>
      obtain ⟨b2, ts⟩ := r
      simp only [Except.map]
      rw [ih b2, GetOrderInfos_anonymous]
      rfl

theorem sameRequest_anonymous {c1 c2 : Call} (h : c1.sameRequest c2) :
    c1.anonymous = c2.anonymous := by
  cases c1 with
  | submit t1 s1 p1 q1 u1 k1 =>
    cases c2 with
    | submit t2 s2 p2 q2 u2 k2 =>
      obtain ⟨h1, h2, h3, h4⟩ := h
      subst h1 h2 h3 h4
      rfl
    | cancel j => exact absurd h id
  | cancel i =>
    cases c2 with
    | submit t2 s2 p2 q2 u2 k2 => exact absurd h id
    | cancel j =>
      have : i = j := h
      subst this
      rfl

theorem sameRequests_anonymous {cs1 cs2 : List Call}
    (h : List.Forall₂ Call.sameRequest cs1 cs2) :
    cs1.map Call.anonymous = cs2.map Call.anonymous := by
  induction h with
  | nil => rfl
  | cons h1 _ ih => simp only [List.map_cons, sameRequest_anonymous h1, ih]

/-- From a book that satisfies the invariant, every call of a run returns. -/
theorem run_total (b : Orderbook) (h : Inv b) (cs : List Call) :
    ∃ obs, b.run cs = .ok obs ∧ obs.length = cs.length := by
  induction cs generalizing b with
  | nil => exact ⟨[], rfl, rfl⟩
  | cons c cs ih =>
    have hcall : ∃ b2 ts, b.call c = .ok (b2, ts) ∧ Inv b2 := by
      cases c with
      | submit orderType side price quantity user_id token =>
        cases token with
        | none => exact AddOrder_inv b orderType side price quantity user_id Token.YES h
        | some token => exact AddOrder_inv b orderType side price quantity user_id token h
      | cancel orderId =>
        obtain ⟨b2, h1, h2⟩ := CancelOrder_inv b orderId h
        exact ⟨b2, [], by simp only [Orderbook.call, h1], h2⟩
    obtain ⟨b2, ts, h1, h2⟩ := hcall
    obtain ⟨obs, h3, h4⟩ := ih b2 h2
    refine ⟨⟨ts, Size b2, GetOrderInfos b2⟩ :: obs, ?_, by simp [h4]⟩
    simp only [Orderbook.run, h1, h3]

/-- C20. Two runs of call sequences that differ only in the owners and tags passed to
`AddOrder` (the overload without a tag included), on books that differ only in the owners and
tags of their resting orders, make the same observations: the trades returned by each call, and
`Size` and `GetOrderInfos` after each call. From a reachable book every call of the run returns.
In particular a buy and a sell of one owner at the same price trade against each other whatever
their tags. -/
theorem matching_ignores_owner_and_tag (b1 b2 : Orderbook) (cs1 cs2 : List Call)
    (hb : b1.anonymous = b2.anonymous) (h : List.Forall₂ Call.sameRequest cs1 cs2) :
    b1.run cs1 = b2.run cs2 ∧
    (Reachable b1 → ∃ obs, b1.run cs1 = .ok obs ∧ obs.length = cs1.length) ∧
    (∀ (u : String) (t1 t2 : Option Token),
      Orderbook.empty.run
        [Call.submit OrderType.GoodTillCancel Side.Buy 10 5 u t1,
         Call.submit OrderType.GoodTillCancel Side.Sell 10 5 u t2]
        = .ok [⟨[], 1, ⟨[⟨10, 5⟩], []⟩⟩, ⟨[⟨⟨1, 10, 5⟩, ⟨2, 10, 5⟩⟩], 0, ⟨[], []⟩⟩]) := by
  refine ⟨?_, fun hr => run_total b1 hr.inv cs1, ?_⟩
  · rw [← run_anonymous b1 cs1, ← run_anonymous b2 cs2, hb, sameRequests_anonymous h]
  · intro u t1 t2
    rw [← run_anonymous]
    rfl

theorem matching_ignores_owner_and_tag_witness :
    Orderbook.empty.anonymous = Orderbook.empty.anonymous ∧
    List.Forall₂ Call.sameRequest
      [Call.submit OrderType.GoodTillCancel Side.Buy 10 5 "A" (some Token.YES),
       Call.submit OrderType.GoodTillCancel Side.Sell 10 3 "A" (some Token.NO),
       Call.cancel 1]
      [Call.submit OrderType.GoodTillCancel Side.Buy 10 5 "B" none,
       Call.submit OrderType.GoodTillCancel Side.Sell 10 3 "C" (some Token.YES),
       Call.cancel 1] ∧
    Orderbook.empty.run
      [Call.submit OrderType.GoodTillCancel Side.Buy 10 5 "A" (some Token.YES),
       Call.submit OrderType.GoodTillCancel Side.Sell 10 3 "A" (some Token.NO),
       Call.cancel 1]
      = .ok [⟨[], 1, ⟨[⟨10, 5⟩], []⟩⟩, ⟨[⟨⟨1, 10, 3⟩, ⟨2, 10, 3⟩⟩], 1, ⟨[⟨10, 2⟩], []⟩⟩,
          ⟨[], 0, ⟨[], []⟩⟩] ∧
    (Orderbook.empty.run
      [Call.submit OrderType.GoodTillCancel Side.Buy 10 5 "A" (some Token.YES),
       Call.submit OrderType.GoodTillCancel Side.Sell 10 3 "A" (some Token.NO),
       Call.cancel 1]
      = Orderbook.empty.run
      [Call.submit OrderType.GoodTillCancel Side.Buy 10 5 "B" none,
       Call.submit OrderType.GoodTillCancel Side.Sell 10 3 "C" (some Token.YES),
       Call.cancel 1] ∧
    (Reachable Orderbook.empty → ∃ obs, Orderbook.empty.run
      [Call.submit OrderType.GoodTillCancel Side.Buy 10 5 "A" (some Token.YES),
       Call.submit OrderType.GoodTillCancel Side.Sell 10 3 "A" (some Token.NO),
       Call.cancel 1] = .ok obs ∧ obs.length =
      [Call.submit OrderType.GoodTillCancel Side.Buy 10 5 "A" (some Token.YES),
       Call.submit OrderType.GoodTillCancel Side.Sell 10 3 "A" (some Token.NO),
       Call.cancel 1].length) ∧
    (∀ (u : String) (t1 t2 : Option Token),
      Orderbook.empty.run
        [Call.submit OrderType.GoodTillCancel Side.Buy 10 5 u t1,
         Call.submit OrderType.GoodTillCancel Side.Sell 10 5 u t2]
        = .ok [⟨[], 1, ⟨[⟨10, 5⟩], []⟩⟩, ⟨[⟨⟨1, 10, 5⟩, ⟨2, 10, 5⟩⟩], 0, ⟨[], []⟩⟩])) :=
  ⟨rfl,
    List.Forall₂.cons ⟨rfl, rfl, rfl, rfl⟩
      (List.Forall₂.cons ⟨rfl, rfl, rfl, rfl⟩ (List.Forall₂.cons rfl List.Forall₂.nil)),
    rfl,
    matching_ignores_owner_and_tag Orderbook.empty Orderbook.empty _ _ rfl
      (List.Forall₂.cons ⟨rfl, rfl, rfl, rfl⟩
        (List.Forall₂.cons ⟨rfl, rfl, rfl, rfl⟩ (List.Forall₂.cons rfl List.Forall₂.nil)))⟩

end OB
